import Mathlib

/-!
# wiki_app: a shallow embedding of the suggestion engine and its routes

The development follows `src/server/services/suggestion-engine.js`,
`src/server/routes/suggestions.js`, `src/server/routes/context.js` and
`src/server/config/redis.js`.

Conventions of the embedding.

* JavaScript numbers are `JSNum`: an exact rational for a finite value, plus
  `+Infinity`, `-Infinity` and `NaN`.  Binary rounding and the sign of zero are
  not represented.
* JavaScript values are `JSVal`.  A string is a `String`; one `Char` stands for
  one UTF-16 code unit, so the model covers text of the Basic Multilingual Plane.
* What the program takes from the JavaScript runtime or from the `natural`
  package and what no claim depends on is a field of `Host`.
* A JavaScript exception is `Except.error`.
-/

namespace Wiki

/-! ## Numbers -/

/-- JavaScript number values. -/
inductive JSNum where
  | fin (q : ℚ)
  | posInf
  | negInf
  | nan
  deriving DecidableEq, Repr

namespace JSNum

instance : Inhabited JSNum := ⟨nan⟩

/-- Sign of a rational as an infinity: `x / 0` and `x * Infinity` for `x ≠ 0`. -/
def infOfSign (q : ℚ) : JSNum := if 0 < q then posInf else negInf

/-- Unary minus. -/
def neg : JSNum → JSNum
  | fin q => fin (-q)
  | posInf => negInf
  | negInf => posInf
  | nan => nan

/-- The `+` of two numbers. -/
def add : JSNum → JSNum → JSNum
  | nan, _ => nan
  | _, nan => nan
  | fin a, fin b => fin (a + b)
  | fin _, posInf => posInf
  | fin _, negInf => negInf
  | posInf, negInf => nan
  | negInf, posInf => nan
  | posInf, _ => posInf
  | negInf, _ => negInf

/-- The binary `-`. -/
def sub (a b : JSNum) : JSNum := add a (neg b)

/-- The `*` of two numbers. -/
def mul : JSNum → JSNum → JSNum
  | nan, _ => nan
  | _, nan => nan
  | fin a, fin b => fin (a * b)
  | fin a, posInf => if a = 0 then nan else infOfSign a
  | fin a, negInf => if a = 0 then nan else infOfSign (-a)
  | posInf, fin b => if b = 0 then nan else infOfSign b
  | negInf, fin b => if b = 0 then nan else infOfSign (-b)
  | posInf, posInf => posInf
  | posInf, negInf => negInf
  | negInf, posInf => negInf
  | negInf, negInf => posInf

/-- The `/` of two numbers; a zero divisor is read as `+0`. -/
def div : JSNum → JSNum → JSNum
  | nan, _ => nan
  | _, nan => nan
  | fin a, fin b => if b = 0 then (if a = 0 then nan else infOfSign a) else fin (a / b)
  | fin _, posInf => fin 0
  | fin _, negInf => fin 0
  | posInf, fin b => if 0 ≤ b then posInf else negInf
  | negInf, fin b => if 0 ≤ b then negInf else posInf
  | posInf, _ => nan
  | negInf, _ => nan

/-- The order `a ≤ b` on numbers other than `NaN`. -/
def le : JSNum → JSNum → Bool
  | nan, _ => false
  | _, nan => false
  | negInf, _ => true
  | _, posInf => true
  | fin a, fin b => decide (a ≤ b)
  | fin _, negInf => false
  | posInf, _ => false

/-- The JavaScript `a >= b`: false as soon as one side is `NaN`. -/
def ge (a b : JSNum) : Bool := le b a

/-- The JavaScript `a < b`. -/
def lt (a b : JSNum) : Bool := le a b && !le b a

/-- The function `Math.min` on two arguments. -/
def min (a b : JSNum) : JSNum :=
  match a, b with
  | nan, _ => nan
  | _, nan => nan
  | a, b => if le a b then a else b

/-- Truthiness of a number: `0` and `NaN` are falsy. -/
def truthy : JSNum → Bool
  | fin q => decide (q ≠ 0)
  | nan => false
  | _ => true

/-- A natural number as a JavaScript number. -/
def ofNat (n : Nat) : JSNum := fin (n : ℚ)

/-- The number lies in the closed interval from 0 to 1. -/
def inUnit (x : JSNum) : Prop := le (fin 0) x = true ∧ le x (fin 1) = true

instance (x : JSNum) : Decidable (inUnit x) := by
  unfold inUnit; exact inferInstance

end JSNum

/-! ## What the program takes from its host -/

/-- The runtime and library functions the program calls and no claim fixes. -/
structure Host where
  /-- `Number.prototype.toString` on a finite number. -/
  numberToString : ℚ → String
  /-- The lower-case mapping of a code unit above U+007F, which may depend on
  what stands before it and after it. -/
  lowerNonAscii : List Char → Char → List Char → List Char
  /-- `natural.WordTokenizer.prototype.tokenize`. -/
  tokenize : String → List String
  /-- `natural.PorterStemmer.stem`. -/
  stem : String → String
  /-- The conversion of a string to a number (`StringToNumber`). -/
  stringToNumber : String → JSNum

/-! ## Strings -/

/-- The method `String.prototype.includes`: `t` occurs in `s`. -/
def includes (s t : String) : Bool := decide (t.data <:+: s.data)

/-- Lower-casing from position to position; `before` is the text already read. -/
def lowerFrom (H : Host) (before : List Char) : List Char → List Char
  | [] => []
  | c :: rest =>
    (if c.val < 128 then [c.toLower] else H.lowerNonAscii before c rest)
      ++ lowerFrom H (before ++ [c]) rest

/-- The method `String.prototype.toLowerCase`. -/
def toLowerCase (H : Host) (s : String) : String := ⟨lowerFrom H [] s.data⟩

/-- Strings joined with a separator: `Array.prototype.join`. -/
def joinWith (sep : String) : List String → String
  | [] => ""
  | [x] => x
  | x :: y :: rest => x ++ sep ++ joinWith sep (y :: rest)

/-- The pieces of `cs` between occurrences of the code unit `sep`. -/
def splitChars (sep : Char) : List Char → List (List Char)
  | [] => [[]]
  | c :: rest =>
    match splitChars sep rest with
    | [] => [[]]
    | piece :: pieces => if c = sep then [] :: piece :: pieces else (c :: piece) :: pieces

/-- The method `String.prototype.split` with a separator of one code unit. -/
def split (s : String) (sep : Char) : List String :=
  (splitChars sep s.data).map String.mk

/-- The method `String.prototype.substring(0, n)` and `slice(0, n)` for `n ≥ 0`. -/
def substring0 (s : String) (n : Nat) : String := ⟨s.data.take n⟩

/-! ## Values -/

/-- JavaScript values as the program meets them: what `JSON.parse` builds, plus
`undefined` and the built-in functions and objects reached through a prototype. -/
inductive JSVal where
  | undefined
  | null
  | bool (b : Bool)
  | num (x : JSNum)
  | str (s : String)
  | arr (xs : List JSVal)
  | obj (props : List (String × JSVal))
  | builtin (name : String)

instance : Inhabited JSVal := ⟨JSVal.undefined⟩

/-- The errors the program can raise or receive. -/
inductive JSError where
  | typeError
  | external
  deriving DecidableEq, Repr

/-- A computation that may throw. -/
abbrev Js (α : Type) := Except JSError α

instance {ε α : Type} [DecidableEq ε] [DecidableEq α] : DecidableEq (Except ε α) :=
  fun a b =>
    match a, b with
    | .ok x, .ok y => if h : x = y then isTrue (by rw [h]) else isFalse (by intro e; cases e; exact h rfl)
    | .error x, .error y =>
      if h : x = y then isTrue (by rw [h]) else isFalse (by intro e; cases e; exact h rfl)
    | .ok _, .error _ => isFalse (by intro e; cases e)
    | .error _, .ok _ => isFalse (by intro e; cases e)

/-- Truthiness, as `if (v)`, `v && ...` and `v || ...` test it. -/
def truthy : JSVal → Bool
  | .undefined => false
  | .null => false
  | .bool b => b
  | .num x => x.truthy
  | .str s => s.data ≠ []
  | _ => true

/-- First own property of that name in a property list. -/
def lookupProp (k : String) : List (String × JSVal) → Option JSVal
  | [] => none
  | (k1, v) :: rest => if k1 = k then some v else lookupProp k rest

/-- The property names every object inherits from `Object.prototype`. -/
def objectProtoNames : List String :=
  ["constructor", "__defineGetter__", "__defineSetter__", "hasOwnProperty",
   "__lookupGetter__", "__lookupSetter__", "isPrototypeOf", "propertyIsEnumerable",
   "toString", "valueOf", "__proto__", "toLocaleString"]

/-- The method names an array inherits from `Array.prototype`. -/
def arrayProtoNames : List String :=
  ["at", "concat", "copyWithin", "fill", "find", "findIndex", "findLast",
   "findLastIndex", "lastIndexOf", "pop", "push", "reverse", "shift", "unshift",
   "slice", "sort", "splice", "includes", "indexOf", "join", "keys", "entries",
   "values", "forEach", "filter", "flat", "flatMap", "map", "every", "some",
   "reduce", "reduceRight", "toReversed", "toSorted", "toSpliced", "with"]

/-- The read `v.k` for the property names the program reads (`commands`, `file`,
`files`, `processes`, `entries`, `type`, `command`, `message`, `keywords`,
`tags`, `title`, `content`, `source`, `category`): an own property of an object,
else what the prototype chain gives.  Reading a property of `undefined` or
`null` throws. -/
def getProp (v : JSVal) (k : String) : Js JSVal :=
  match v with
  | .undefined => .error .typeError
  | .null => .error .typeError
  | .obj props =>
    match lookupProp k props with
    | some x => .ok x
    | none => .ok (if k ∈ objectProtoNames then .builtin k else .undefined)
  | .arr _ =>
    .ok (if k ∈ arrayProtoNames ∨ k ∈ objectProtoNames then .builtin k else .undefined)
  | _ => .ok (if k ∈ objectProtoNames then .builtin k else .undefined)

/-- The value must be an array for `forEach`, `map` and spreading to work. -/
def asArray : JSVal → Js (List JSVal)
  | .arr xs => .ok xs
  | _ => .error .typeError

/-- The value must be a string for a string method to be called on it. -/
def asString : JSVal → Js String
  | .str s => .ok s
  | _ => .error .typeError

/-- The call `v.includes(k)` with a string `k`: membership for an array (by
`===`), occurrence for a string, a `TypeError` for any other value. -/
def includesVal (v : JSVal) (k : String) : Js Bool :=
  match v with
  | .arr xs => .ok (xs.any fun x => match x with
      | .str s => decide (s = k)
      | _ => false)
  | .str s => .ok (includes s k)
  | _ => .error .typeError

/-! ## JSON.stringify and string conversion -/

/-- Four-digit lower-case hexadecimal of a code unit below 32. -/
def hex4 (n : Nat) : List Char :=
  let d (k : Nat) : Char := if k < 10 then Char.ofNat (48 + k) else Char.ofNat (87 + k)
  ['0', '0', d (n / 16), d (n % 16)]

/-- One code unit inside a JSON string literal (`QuoteJSONString`). -/
def quoteChar (c : Char) : List Char :=
  if c = Char.ofNat 34 then [Char.ofNat 92, Char.ofNat 34]
  else if c = Char.ofNat 92 then [Char.ofNat 92, Char.ofNat 92]
  else if c = Char.ofNat 8 then [Char.ofNat 92, 'b']
  else if c = Char.ofNat 12 then [Char.ofNat 92, 'f']
  else if c = Char.ofNat 10 then [Char.ofNat 92, 'n']
  else if c = Char.ofNat 13 then [Char.ofNat 92, 'r']
  else if c = Char.ofNat 9 then [Char.ofNat 92, 't']
  else if c.val < 32 then Char.ofNat 92 :: 'u' :: hex4 c.toNat
  else [c]

/-- A string as a JSON string literal. -/
def quote (s : String) : String :=
  ⟨Char.ofNat 34 :: (s.data.flatMap quoteChar ++ [Char.ofNat 34])⟩

/-- A number as JSON text: `null` for `NaN` and the infinities. -/
def numberJSON (H : Host) : JSNum → String
  | .fin q => H.numberToString q
  | _ => "null"

mutual
/-- The text `JSON.stringify(v)`; `none` where JavaScript returns `undefined`. -/
def stringify (H : Host) : JSVal → Option String
  | .undefined => none
  | .builtin _ => none
  | .null => some "null"
  | .bool b => some (if b then "true" else "false")
  | .num x => some (numberJSON H x)
  | .str s => some (quote s)
  | .arr xs => some ("[" ++ joinWith "," (stringifyElems H xs) ++ "]")
  | .obj props =>
    some (String.mk [Char.ofNat 123] ++ joinWith "," (stringifyProps H props)
      ++ String.mk [Char.ofNat 125])
/-- The elements of an array as JSON text: `null` for what has no JSON form. -/
def stringifyElems (H : Host) : List JSVal → List String
  | [] => []
  | x :: xs => (stringify H x).getD "null" :: stringifyElems H xs
/-- The properties of an object as JSON text: those without a JSON form are left out. -/
def stringifyProps (H : Host) : List (String × JSVal) → List String
  | [] => []
  | (k, v) :: rest =>
    match stringify H v with
    | some t => (quote k ++ ":" ++ t) :: stringifyProps H rest
    | none => stringifyProps H rest
end

/-- The text `JSON.stringify(v)` as the program uses it: as a string. The program
calls it on values that have a JSON form; for the others the text `undefined`
stands in, which is what string concatenation makes of the result. -/
def jsonText (H : Host) (v : JSVal) : String := (stringify H v).getD "undefined"

mutual
/-- The conversion `String(v)`, as a template literal applies it. -/
def toStringJS (H : Host) : JSVal → String
  | .undefined => "undefined"
  | .null => "null"
  | .bool b => if b then "true" else "false"
  | .num (.fin q) => H.numberToString q
  | .num .posInf => "Infinity"
  | .num .negInf => "-Infinity"
  | .num .nan => "NaN"
  | .str s => s
  | .arr xs => joinWith "," (toStringElems H xs)
  | .obj _ => "[object Object]"
  | .builtin name =>
    if name = "__proto__" then "[object Object]"
    else "function " ++ name ++ "() " ++ String.mk [Char.ofNat 123] ++ " [native code] "
      ++ String.mk [Char.ofNat 125]
/-- The elements of an array as `Array.prototype.join` converts them. -/
def toStringElems (H : Host) : List JSVal → List String
  | [] => []
  | .undefined :: xs => "" :: toStringElems H xs
  | .null :: xs => "" :: toStringElems H xs
  | x :: xs => toStringJS H x :: toStringElems H xs
end

/-- The conversion `Number(v)` that arithmetic applies to an operand. -/
def toNumber (H : Host) : JSVal → JSNum
  | .undefined => .nan
  | .null => .fin 0
  | .bool b => .fin (if b then 1 else 0)
  | .num x => x
  | .str s => H.stringToNumber s
  | .arr xs => H.stringToNumber (toStringJS H (.arr xs))
  | .obj _ => .nan
  | .builtin _ => .nan

/-! ## Objects as ordered property lists -/

/-- The array index a property name denotes, if it is one: a canonical decimal
numeral below `2^32 - 1`. -/
def arrayIndex (k : String) : Option Nat :=
  match k.data with
  | [] => none
  | c :: cs =>
    if (c :: cs).all Char.isDigit ∧ (c ≠ '0' ∨ cs = []) then
      let n := (c :: cs).foldl (fun acc d => 10 * acc + (d.toNat - 48)) 0
      if n < 4294967295 then some n else none
    else none

/-- Where a new array-index property goes: after the index properties that are smaller. -/
def insertIndexProp (n : Nat) (k : String) (v : JSVal) :
    List (String × JSVal) → List (String × JSVal)
  | [] => [(k, v)]
  | (k1, v1) :: rest =>
    match arrayIndex k1 with
    | some m => if m < n then (k1, v1) :: insertIndexProp n k v rest
                else (k, v) :: (k1, v1) :: rest
    | none => (k, v) :: (k1, v1) :: rest

/-- The assignment `o[k] = v` on an ordinary object, on its list of own
properties in enumeration order: an existing property keeps its place; a new one
goes among the array indices in ascending order, or last. -/
def setProp (k : String) (v : JSVal) (props : List (String × JSVal)) :
    List (String × JSVal) :=
  if props.any (fun p => p.1 = k) then
    props.map (fun p => if p.1 = k then (k, v) else p)
  else
    match arrayIndex k with
    | some n => insertIndexProp n k v props
    | none => props ++ [(k, v)]

/-- The names `Object.keys(o)` lists. -/
def keys (props : List (String × JSVal)) : List String := props.map Prod.fst

/-- The read `o[k]` of an own property. -/
def getOwn (props : List (String × JSVal)) (k : String) : JSVal :=
  (lookupProp k props).getD .undefined

/-! ## The suggestion engine (`suggestion-engine.js`) -/

/-- A suggestion object as the engine builds it. A field the engine does not
write is `none`; a field read from a hit is whatever the hit holds. -/
structure Suggestion where
  id : JSVal
  title : JSVal
  content : JSVal
  source : JSVal
  category : JSVal
  tags : JSVal
  relevanceScore : JSNum
  elasticScore : Option JSNum
  matchedKeywords : List String
  type : Option String

/-- A hit of the search index: `_id`, `_source` and `_score`. -/
structure Hit where
  _id : JSVal
  _source : JSVal
  _score : JSNum

/-- The search index as the engine sees it: `searchDocumentation(searchTerms)`
throws, or resolves to a response whose `hits.hits` is a list of hits or is
missing (`none`). -/
abbrev Oracle := String → Js (Option (List Hit))

/-- The context vector: the own properties of the object `vector`. -/
abbrev ContextVector := List (String × JSVal)

/-- The set `keywords` of `extractKeywords`, in insertion order; `add` of a
member changes nothing. -/
def addKeyword (set : List String) (k : String) : List String :=
  if k ∈ set then set else set ++ [k]

/-- The list `stopWords` of `isStopWord`. -/
def stopWords : List String :=
  ["the", "a", "an", "and", "or", "but", "in", "on", "at", "to", "for",
   "of", "with", "by", "is", "are", "was", "were", "be", "been", "have",
   "has", "had", "do", "does", "did", "will", "would", "could", "should"]

/-- The method `isStopWord`. -/
def isStopWord (H : Host) (word : String) : Bool :=
  decide (toLowerCase H word ∈ stopWords)

/-- The literals of `devopsPatterns`, each a regular expression `/literal/g`. -/
def devopsPatterns : List String :=
  ["kubectl", "docker", "terraform", "ansible", "jenkins",
   "nginx", "apache", "mysql", "postgres", "redis",
   "kubernetes", "k8s", "aws", "azure", "gcp",
   "git", "ssh", "systemctl", "service", "cron"]

/-- The literals of `errorPatterns`, each a regular expression `/literal/gi`. -/
def errorPatterns : List String :=
  ["error", "failed", "exception", "timeout",
   "connection refused", "permission denied",
   "not found", "cannot", "unable"]

/-- A match of `/literal/gi` in `s`: the flag `i` without the flag `u` identifies
a letter of the literal with its ASCII capital only. -/
def matchesIgnoreCase (s literal : String) : Bool :=
  includes (s.map Char.toLower) literal

/-- The body of `contextData.commands.forEach`. -/
def extractFromCommand (H : Host) (keywords : List String) (command : JSVal) :
    Js (List String) := do
  let text ← asString command
  let tokens := H.tokenize (toLowerCase H text)
  let keywords := tokens.foldl (fun acc token =>
    if token.length > 2 && !isStopWord H token then addKeyword acc (H.stem token) else acc)
    keywords
  pure (devopsPatterns.foldl (fun acc pattern =>
    if includes text pattern then addKeyword acc (toLowerCase H pattern) else acc) keywords)

/-- The body of `pathTokens.forEach`. -/
def extractFromPathToken (H : Host) (keywords : List String) (token : String) :
    List String :=
  let keywords :=
    if includes token "." then addKeyword keywords ((split token '.').getLastD "")
    else keywords
  addKeyword keywords (toLowerCase H token)

/-- The body of `files.forEach`. -/
def extractFromFile (H : Host) (keywords : List String) (file : JSVal) :
    Js (List String) :=
  if truthy file then do
    let path ← asString file
    let pathTokens := (split path '/').filter (fun token => token.length > 0)
    pure (pathTokens.foldl (extractFromPathToken H) keywords)
  else pure keywords

/-- The body of `contextData.processes.forEach`. -/
def extractFromProcess (H : Host) (keywords : List String) (process : JSVal) :
    Js (List String) := do
  let command ← getProp process "command"
  if truthy command then do
    let text ← asString command
    let processName := (split text ' ').headD ""
    pure (addKeyword keywords (toLowerCase H processName))
  else pure keywords

/-- The body of `contextData.entries.forEach`. -/
def extractFromEntry (keywords : List String) (entry : JSVal) : Js (List String) := do
  let message ← getProp entry "message"
  if truthy message then do
    let text ← asString message
    pure (errorPatterns.foldl (fun acc pattern =>
      if matchesIgnoreCase text pattern then addKeyword (addKeyword acc "troubleshooting") "error"
      else acc) keywords)
  else pure keywords

/-- The method `extractKeywords`. -/
def extractKeywords (H : Host) (contextData : JSVal) : Js (List String) := do
  let keywords : List String := []
  let commands ← getProp contextData "commands"
  let keywords ←
    if truthy commands then do
      let xs ← asArray commands
      xs.foldlM (extractFromCommand H) keywords
    else pure keywords
  let file ← getProp contextData "file"
  let filesProp ← getProp contextData "files"
  let keywords ←
    if truthy file || truthy filesProp then
      let files := match filesProp with
        | .arr xs => xs
        | _ => [file]
      files.foldlM (extractFromFile H) keywords
    else pure keywords
  let processes ← getProp contextData "processes"
  let keywords ←
    if truthy processes then do
      let xs ← asArray processes
      xs.foldlM (extractFromProcess H) keywords
    else pure keywords
  let entries ← getProp contextData "entries"
  if truthy entries then do
    let xs ← asArray entries
    xs.foldlM extractFromEntry keywords
  else pure keywords

/-- The table `weights` of `buildContextVector`. -/
def weights : List (String × Nat) :=
  [("kubernetes", 3), ("k8s", 3), ("kubectl", 3), ("docker", 3),
   ("terraform", 3), ("ansible", 3), ("helm", 3),
   ("aws", 2), ("azure", 2), ("gcp", 2), ("ec2", 2), ("s3", 2),
   ("mysql", 2), ("postgres", 2), ("redis", 2), ("mongodb", 2),
   ("nginx", 2), ("apache", 2), ("haproxy", 2),
   ("jenkins", 2), ("gitlab", 2), ("github", 2), ("actions", 2),
   ("prometheus", 2), ("grafana", 2), ("elk", 2), ("splunk", 2),
   ("systemctl", 2), ("service", 2), ("cron", 2), ("ssh", 2),
   ("troubleshooting", 3), ("error", 2), ("debug", 2), ("fix", 2)]

/-- The expression `weights[keyword] || 1`: the entry of the table, else what the
object literal inherits from `Object.prototype` under that name, else 1. -/
def weightOf (keyword : String) : JSVal :=
  match weights.lookup keyword with
  | some w => .num (JSNum.ofNat w)
  | none => if keyword ∈ objectProtoNames then .builtin keyword else .num (.fin 1)

/-- The statement `vector[keyword] = weight`. The name `__proto__` reaches the
setter of `Object.prototype`, which creates no property. -/
def assignWeight (vector : ContextVector) (keyword : String) : ContextVector :=
  if keyword = "__proto__" then vector else setProp keyword (weightOf keyword) vector

/-- The method `buildContextVector`. -/
def buildContextVector (keywords : List String) : ContextVector :=
  keywords.foldl assignWeight []

/-- The test `document.field && document.field.includes(keyword)`. -/
def fieldIncludes (document : JSVal) (field keyword : String) : Js Bool := do
  let v ← getProp document field
  if truthy v then includesVal v keyword else pure false

/-- The test `document.field && document.field.toLowerCase().includes(keyword)`. -/
def fieldLowerIncludes (H : Host) (document : JSVal) (field keyword : String) :
    Js Bool := do
  let v ← getProp document field
  if truthy v then do
    let text ← asString v
    pure (includes (toLowerCase H text) keyword)
  else pure false

/-- One turn of the loop of `calculateRelevanceScore`, on the pair of `score`
and `matches`. -/
def scoreKeyword (H : Host) (contextVector : ContextVector) (document : JSVal)
    (acc : JSNum × Nat) (keyword : String) : Js (JSNum × Nat) := do
  let weight := toNumber H (getOwn contextVector keyword)
  let acc ← (do
    if ← fieldIncludes document "keywords" keyword then
      pure (JSNum.add acc.1 (JSNum.mul weight (.fin 0.4)), acc.2 + 1)
    else pure acc)
  let acc ← (do
    if ← fieldIncludes document "tags" keyword then
      pure (JSNum.add acc.1 (JSNum.mul weight (.fin 0.3)), acc.2 + 1)
    else pure acc)
  let acc ← (do
    if ← fieldLowerIncludes H document "title" keyword then
      pure (JSNum.add acc.1 (JSNum.mul weight (.fin 0.2)), acc.2 + 1)
    else pure acc)
  if ← fieldLowerIncludes H document "content" keyword then
    pure (JSNum.add acc.1 (JSNum.mul weight (.fin 0.1)), acc.2 + 1)
  else pure acc

/-- The method `calculateRelevanceScore`. -/
def calculateRelevanceScore (H : Host) (contextVector : ContextVector)
    (document : JSVal) (elasticScore : JSNum) : Js JSNum := do
  let (score, matchCount) ←
    (keys contextVector).foldlM (scoreKeyword H contextVector document) (JSNum.fin 0, 0)
  let normalizedScore :=
    JSNum.div (JSNum.mul (JSNum.mul score (JSNum.ofNat matchCount)) elasticScore) (.fin 100)
  pure (JSNum.min (JSNum.div normalizedScore (JSNum.ofNat (keys contextVector).length)) (.fin 1))

/-- The condition of `findMatchedKeywords`, with the short circuit of `||`. -/
def matchesDocument (H : Host) (document : JSVal) (keyword : String) : Js Bool := do
  if ← fieldIncludes document "keywords" keyword then pure true
  else if ← fieldIncludes document "tags" keyword then pure true
  else if ← fieldLowerIncludes H document "title" keyword then pure true
  else fieldLowerIncludes H document "content" keyword

/-- The method `findMatchedKeywords`. -/
def findMatchedKeywords (H : Host) (contextVector : ContextVector) (document : JSVal) :
    Js (List String) :=
  (keys contextVector).foldlM (fun matched keyword => do
    if ← matchesDocument H document keyword then pure (matched ++ [keyword])
    else pure matched) []

/-- The method `containsKeywords`. -/
def containsKeywords (H : Host) (contextData : JSVal) (keywords : List String) : Js Bool :=
  match stringify H contextData with
  | none => .error .typeError
  | some text =>
    let contextString := toLowerCase H text
    .ok (keywords.any fun keyword => includes contextString (toLowerCase H keyword))

/-- The suggestion of rule 1. -/
def ruleK8s : Suggestion :=
  { id := .str "rule-k8s-troubleshooting"
    title := .str "Kubernetes Troubleshooting Guide"
    content := .str "Common Kubernetes debugging commands and troubleshooting steps..."
    source := .str "built-in"
    category := .str "troubleshooting"
    tags := .arr [.str "kubernetes", .str "kubectl", .str "debugging"]
    relevanceScore := .fin 0.9
    elasticScore := none
    matchedKeywords := ["kubernetes", "kubectl"]
    type := some "rule-based" }

/-- The suggestion of rule 2. -/
def ruleDocker : Suggestion :=
  { id := .str "rule-docker-errors"
    title := .str "Docker Common Errors and Solutions"
    content := .str "Solutions for common Docker build and runtime errors..."
    source := .str "built-in"
    category := .str "troubleshooting"
    tags := .arr [.str "docker", .str "errors", .str "troubleshooting"]
    relevanceScore := .fin 0.85
    elasticScore := none
    matchedKeywords := ["docker", "error"]
    type := some "rule-based" }

/-- The suggestion of rule 3. -/
def ruleSsh : Suggestion :=
  { id := .str "rule-ssh-connection"
    title := .str "SSH Connection Troubleshooting"
    content := .str "Steps to diagnose and fix SSH connection problems..."
    source := .str "built-in"
    category := .str "networking"
    tags := .arr [.str "ssh", .str "connection", .str "networking"]
    relevanceScore := .fin 0.8
    elasticScore := none
    matchedKeywords := ["ssh", "connection"]
    type := some "rule-based" }

/-- The method `getRuleBasedSuggestions`. -/
def getRuleBasedSuggestions (H : Host) (contextData : JSVal) : Js (List Suggestion) := do
  let suggestions : List Suggestion := []
  let k8s ← containsKeywords H contextData ["kubectl", "kubernetes", "k8s"]
  let suggestions := if k8s then suggestions ++ [ruleK8s] else suggestions
  let docker ← containsKeywords H contextData ["docker"]
  let dockerError ← if docker then containsKeywords H contextData ["error", "failed"]
    else pure false
  let suggestions := if docker && dockerError then suggestions ++ [ruleDocker] else suggestions
  let ssh ← containsKeywords H contextData ["ssh"]
  let sshError ← if ssh then containsKeywords H contextData ["connection", "refused", "timeout"]
    else pure false
  let suggestions := if ssh && sshError then suggestions ++ [ruleSsh] else suggestions
  pure suggestions

/-- The suggestion the body of `elasticResults.hits.hits.forEach` pushes. -/
def suggestionOfHit (H : Host) (contextVector : ContextVector) (hit : Hit) :
    Js Suggestion := do
  let relevanceScore ← calculateRelevanceScore H contextVector hit._source hit._score
  let title ← getProp hit._source "title"
  let content ← getProp hit._source "content"
  let text ← asString content
  let source ← getProp hit._source "source"
  let category ← getProp hit._source "category"
  let tags ← getProp hit._source "tags"
  let matched ← findMatchedKeywords H contextVector hit._source
  pure { id := hit._id
         title := title
         content := .str (substring0 text 300 ++ "...")
         source := source
         category := category
         tags := tags
         relevanceScore := relevanceScore
         elasticScore := some hit._score
         matchedKeywords := matched
         type := none }

/-- The comparator `(a, b) => b.relevanceScore - a.relevanceScore`. -/
def compareSuggestions (a b : Suggestion) : JSNum :=
  JSNum.sub b.relevanceScore a.relevanceScore

/-- Insertion of `x` into a list already in order: `x` goes before the first
element it is not to follow. A comparator result of `NaN` counts as `+0`. -/
def sortInsert (cmp : Suggestion → Suggestion → JSNum) (x : Suggestion) :
    List Suggestion → List Suggestion
  | [] => [x]
  | y :: ys =>
    if JSNum.lt (.fin 0) (cmp x y) then y :: sortInsert cmp x ys else x :: y :: ys

/-- The method `Array.prototype.sort` with a comparator: a stable sort. Where the
comparator is not a consistent order (some result is `NaN`) the language leaves
the result open, and this is one result it allows. -/
def sortWith (cmp : Suggestion → Suggestion → JSNum) (xs : List Suggestion) :
    List Suggestion :=
  xs.foldr (sortInsert cmp) []

/-- The `try` block of `findRelevantDocumentation`. -/
def findRelevantDocumentationTry (H : Host) (searchDocumentation : Oracle)
    (contextVector : ContextVector) (contextData : JSVal) : Js (List Suggestion) := do
  let searchTerms := joinWith " " (keys contextVector)
  let elasticResults ← searchDocumentation searchTerms
  let suggestions ←
    match elasticResults with
    | some hits => hits.mapM (suggestionOfHit H contextVector)
    | none => pure []
  let ruleBasedSuggestions ← getRuleBasedSuggestions H contextData
  let suggestions := suggestions ++ ruleBasedSuggestions
  let suggestions := sortWith compareSuggestions suggestions
  pure (suggestions.take 10)

/-- The method `findRelevantDocumentation`: the `catch` block returns `[]`. -/
def findRelevantDocumentation (H : Host) (searchDocumentation : Oracle)
    (contextVector : ContextVector) (contextData : JSVal) : List Suggestion :=
  match findRelevantDocumentationTry H searchDocumentation contextVector contextData with
  | .ok suggestions => suggestions
  | .error _ => []

/-- The field `suggestionThreshold` set by the constructor:
`parseFloat(process.env.SUGGESTION_THRESHOLD) || 0.7`, from the value `parsed`
of the `parseFloat` call (`NaN` when the variable is not set). -/
def suggestionThreshold (parsed : JSNum) : JSNum :=
  if parsed.truthy then parsed else .fin 0.7

/-- The object `analyzeContext` returns. -/
structure Analysis where
  keywords : List String
  contextVector : ContextVector
  suggestions : List Suggestion

/-- The method `analyzeContext`; `parsed` is the parsed environment threshold. -/
def analyzeContext (H : Host) (searchDocumentation : Oracle) (parsed : JSNum)
    (contextData : JSVal) : Js Analysis := do
  let extractedKeywords ← extractKeywords H contextData
  let contextVector := buildContextVector extractedKeywords
  let suggestions := findRelevantDocumentation H searchDocumentation contextVector contextData
  pure { keywords := extractedKeywords
         contextVector := contextVector
         suggestions := suggestions.filter
           (fun s => JSNum.ge s.relevanceScore (suggestionThreshold parsed)) }

/-! ## The cache client, the store and the routes -/

mutual
/-- The value `JSON.parse(JSON.stringify(v))` for a value with a JSON text: what
`RedisClient.get` returns for what `RedisClient.set` stored. -/
def jsonClone : JSVal → JSVal
  | .undefined => .undefined
  | .builtin _ => .undefined
  | .null => .null
  | .bool b => .bool b
  | .num (.fin q) => .num (.fin q)
  | .num _ => .null
  | .str s => .str s
  | .arr xs => .arr (jsonCloneElems xs)
  | .obj props => .obj (jsonCloneProps props)
/-- The elements of the parsed array. -/
def jsonCloneElems : List JSVal → List JSVal
  | [] => []
  | .undefined :: xs => .null :: jsonCloneElems xs
  | .builtin _ :: xs => .null :: jsonCloneElems xs
  | x :: xs => jsonClone x :: jsonCloneElems xs
/-- The properties of the parsed object. -/
def jsonCloneProps : List (String × JSVal) → List (String × JSVal)
  | [] => []
  | (_, .undefined) :: rest => jsonCloneProps rest
  | (_, .builtin _) :: rest => jsonCloneProps rest
  | (k, v) :: rest => (k, jsonClone v) :: jsonCloneProps rest
end

/-- An array of strings as a value. -/
def strings (xs : List String) : JSVal := .arr (xs.map JSVal.str)

/-- The suggestion as the object the engine built, properties in the order written. -/
def Suggestion.toJSVal (s : Suggestion) : JSVal :=
  .obj ([("id", s.id), ("title", s.title), ("content", s.content), ("source", s.source),
         ("category", s.category), ("tags", s.tags), ("relevanceScore", .num s.relevanceScore)]
        ++ (match s.elasticScore with
            | some x => [("elasticScore", JSVal.num x)]
            | none => [])
        ++ [("matchedKeywords", strings s.matchedKeywords)]
        ++ (match s.type with
            | some t => [("type", JSVal.str t)]
            | none => []))

/-- The statements the routes send to `database.query`, with their parameters. -/
inductive DbStatement where
  | insertActivity (userId activityType activityData : JSVal)
  | insertSuggestion (userId documentationId contextData : JSVal) (relevanceScore : JSNum)
  | updateFeedback (feedback : JSVal) (status suggestionId : String)

/-- The document `router.post('/update')` sends to `elasticsearch.indexDocument`;
`timestamp` is the time of `new Date()`. -/
structure IndexRequest where
  index : String
  id : String
  user_id : JSVal
  activity_type : JSVal
  commands : JSVal
  files : JSVal
  processes : JSVal
  logs : JSVal
  timestamp : Nat

/-- A call a route makes on a collaborator, whether it resolves or rejects. -/
inductive Call where
  | redisGet (key : String)
  | redisSet (key : String) (value : JSVal) (expiration : Nat)
  | dbQuery (statement : DbStatement)
  | esIndex (request : IndexRequest)
  | analyzeContext (contextData : JSVal)

/-- What the routes act on: the entries of the cache (each the parsed form of
the text stored), the statements the relational store executed, the documents
indexed, and the calls made so far. Expiry of an entry happens between requests. -/
structure World where
  redis : List (String × JSVal)
  db : List DbStatement
  es : List IndexRequest
  calls : List Call

/-- Which calls of one request reject. -/
structure Faults where
  redisGet : Bool
  redisSet : Bool
  db : DbStatement → Bool
  es : Bool

/-- A response: the status and the value given to `res.json`. -/
structure Response where
  status : Nat
  body : JSVal

/-- The world after one more call. -/
def World.call (w : World) (c : Call) : World := { w with calls := w.calls ++ [c] }

/-- The method `RedisClient.get`: `null` for a key without an entry. -/
def RedisClient.get (F : Faults) (w : World) (key : String) : Js JSVal × World :=
  (if F.redisGet then .error .external else .ok ((w.redis.lookup key).getD .null),
   w.call (.redisGet key))

/-- The method `RedisClient.set`: the entry under `key` becomes the text of `value`. -/
def RedisClient.set (F : Faults) (w : World) (key : String) (value : JSVal)
    (expiration : Nat) : Js Unit × World :=
  let w1 := w.call (.redisSet key value expiration)
  if F.redisSet then (.error .external, w1)
  else (.ok (), { w1 with redis := (key, jsonClone value) :: w1.redis.filter (fun e => e.1 ≠ key) })

/-- The method `Database.query`. -/
def Database.query (F : Faults) (w : World) (statement : DbStatement) : Js Unit × World :=
  let w1 := w.call (.dbQuery statement)
  if F.db statement then (.error .external, w1)
  else (.ok (), { w1 with db := w1.db ++ [statement] })

/-- The method `ElasticsearchClient.indexDocument`. -/
def ElasticsearchClient.indexDocument (F : Faults) (w : World) (request : IndexRequest) :
    Js Unit × World :=
  let w1 := w.call (.esIndex request)
  if F.es then (.error .external, w1)
  else (.ok (), { w1 with es := w1.es ++ [request] })

/-- The expression `a || b`. -/
def orElse (a b : JSVal) : JSVal := if truthy a then a else b

/-- The response `res.status(code).json({ error: message })`. -/
def errorResponse (code : Nat) (message : String) : Response :=
  ⟨code, .obj [("error", .str message)]⟩

/-- The statements of `analysis.suggestions.map(...)`, all sent before
`Promise.all` is awaited. -/
def storeSuggestions (F : Faults) (w : World) : List DbStatement → Bool × World
  | [] => (true, w)
  | statement :: rest =>
    let (r, w1) := Database.query F w statement
    let (ok, w2) := storeSuggestions F w1 rest
    (r.toBool && ok, w2)

/-- The key of `router.post('/generate')`. -/
def generateCacheKey (H : Host) (userId : JSVal) (contextText : String) : String :=
  "context:" ++ toStringJS H userId ++ ":" ++ substring0 contextText 100

/-- The handler of `router.post('/generate')` after the test of `contextData`,
up to the error the `catch` block turns into status 500. -/
def generateTry (H : Host) (searchDocumentation : Oracle) (parsed : JSNum) (F : Faults)
    (now : Nat) (w : World) (userId contextData : JSVal) : Js Response × World :=
  match stringify H contextData with
  | none => (.error .typeError, w)
  | some contextText =>
    let cacheKey := generateCacheKey H userId contextText
    match RedisClient.get F w cacheKey with
    | (.error e, w1) => (.error e, w1)
    | (.ok cachedSuggestions, w1) =>
      if truthy cachedSuggestions then
        (.ok ⟨200, .obj [("suggestions", cachedSuggestions), ("cached", .bool true),
                         ("timestamp", .num (JSNum.ofNat now))]⟩, w1)
      else
        let w2 := w1.call (.analyzeContext contextData)
        match analyzeContext H searchDocumentation parsed contextData with
        | .error e => (.error e, w2)
        | .ok analysis =>
          match getProp contextData "type" with
          | .error e => (.error e, w2)
          | .ok activityType =>
            match Database.query F w2 (.insertActivity (orElse userId (.num (.fin 1)))
                    (orElse activityType (.str "unknown")) contextData) with
            | (.error e, w3) => (.error e, w3)
            | (.ok _, w3) =>
              match storeSuggestions F w3 (analysis.suggestions.map fun suggestion =>
                      DbStatement.insertSuggestion (orElse userId (.num (.fin 1))) suggestion.id
                        contextData suggestion.relevanceScore) with
              | (false, w4) => (.error .external, w4)
              | (true, w4) =>
                let suggestions := JSVal.arr (analysis.suggestions.map Suggestion.toJSVal)
                match RedisClient.set F w4 cacheKey suggestions 300 with
                | (.error e, w5) => (.error e, w5)
                | (.ok _, w5) =>
                  (.ok ⟨200, .obj [("suggestions", suggestions),
                                   ("keywords", strings analysis.keywords),
                                   ("contextVector", .obj analysis.contextVector),
                                   ("cached", .bool false),
                                   ("timestamp", .num (JSNum.ofNat now))]⟩, w5)

/-- The handler of `router.post('/generate')` on the request body `body`. -/
def generate (H : Host) (searchDocumentation : Oracle) (parsed : JSNum) (F : Faults)
    (now : Nat) (w : World) (body : JSVal) : Response × World :=
  match getProp body "contextData", getProp body "userId" with
  | .ok contextData, .ok userId =>
    if !truthy contextData then (errorResponse 400 "Context data is required", w)
    else
      match generateTry H searchDocumentation parsed F now w userId contextData with
      | (.ok response, w1) => (response, w1)
      | (.error _, w1) => (errorResponse 500 "Failed to generate suggestions", w1)
  | _, _ => (errorResponse 500 "Failed to generate suggestions", w)

/-- The test `['helpful', 'not_helpful', 'irrelevant'].includes(feedback)`. -/
def validFeedback : JSVal → Bool
  | .str verdict => decide (verdict ∈ ["helpful", "not_helpful", "irrelevant"])
  | _ => false

/-- The handler of `router.post('/:suggestionId/feedback')`. -/
def feedback (F : Faults) (now : Nat) (w : World) (suggestionId : String)
    (body : JSVal) : Response × World :=
  match getProp body "feedback", getProp body "userId" with
  | .ok verdict, .ok userId =>
    if !validFeedback verdict then (errorResponse 400 "Invalid feedback value", w)
    else
      match Database.query F w (.updateFeedback verdict "reviewed" suggestionId) with
      | (.error _, w1) => (errorResponse 500 "Failed to record feedback", w1)
      | (.ok _, w1) =>
        let feedbackData := JSVal.obj [("suggestionId", .str suggestionId),
          ("feedback", verdict), ("userId", userId), ("timestamp", .num (JSNum.ofNat now))]
        match RedisClient.set F w1 ("feedback:" ++ suggestionId) feedbackData 86400 with
        | (.error _, w2) => (errorResponse 500 "Failed to record feedback", w2)
        | (.ok _, w2) =>
          (⟨200, .obj [("success", .bool true), ("message", .str "Feedback recorded")]⟩, w2)
  | _, _ => (errorResponse 500 "Failed to record feedback", w)

/-- The handler of `router.post('/update')` of `routes/context.js` after the test
of `contextData`. -/
def updateTry (H : Host) (F : Faults) (now : Nat) (w : World)
    (userId contextData : JSVal) : Js Response × World :=
  match getProp contextData "type", getProp contextData "commands",
        getProp contextData "file", getProp contextData "files",
        getProp contextData "processes", getProp contextData "entries" with
  | .ok activityType, .ok commands, .ok file, .ok files, .ok processes, .ok entries =>
    let user := orElse userId (.num (.fin 1))
    match Database.query F w (.insertActivity user activityType contextData) with
    | (.error e, w1) => (.error e, w1)
    | (.ok _, w1) =>
      match RedisClient.set F w1 ("user:" ++ toStringJS H user ++ ":context") contextData 300 with
      | (.error e, w2) => (.error e, w2)
      | (.ok _, w2) =>
        match ElasticsearchClient.indexDocument F w2
            { index := "context"
              id := toStringJS H userId ++ "-" ++ toString now
              user_id := user
              activity_type := activityType
              commands := orElse commands (.arr [])
              files := orElse file (orElse files (.arr []))
              processes := orElse processes (.arr [])
              logs := orElse entries (.arr [])
              timestamp := now } with
        | (.error e, w3) => (.error e, w3)
        | (.ok _, w3) =>
          (.ok ⟨200, .obj [("success", .bool true),
                           ("message", .str "Context updated successfully")]⟩, w3)
  | _, _, _, _, _, _ => (.error .typeError, w)

/-- The handler of `router.post('/update')` of `routes/context.js`. -/
def update (H : Host) (F : Faults) (now : Nat) (w : World) (body : JSVal) :
    Response × World :=
  match getProp body "userId", getProp body "contextData" with
  | .ok userId, .ok contextData =>
    if !truthy contextData then (errorResponse 400 "Context data is required", w)
    else
      match updateTry H F now w userId contextData with
      | (.ok response, w1) => (response, w1)
      | (.error _, w1) => (errorResponse 500 "Failed to update context", w1)
  | _, _ => (errorResponse 500 "Failed to update context", w)

/-- The key of `SuggestionEngine.cacheSuggestions`, the template
`suggestions:${userId}:${Date.now()}`; `now` is the value of `Date.now()`. -/
def suggestionsCacheKey (H : Host) (userId : JSVal) (now : Nat) : String :=
  "suggestions:" ++ toStringJS H userId ++ ":" ++ toString now

/-- The method `SuggestionEngine.cacheSuggestions`: it stores the suggestions for
300 seconds and returns the key. -/
def cacheSuggestions (H : Host) (F : Faults) (now : Nat) (w : World)
    (userId suggestions : JSVal) : Js String × World :=
  let cacheKey := suggestionsCacheKey H userId now
  match RedisClient.set F w cacheKey suggestions 300 with
  | (.error e, w1) => (.error e, w1)
  | (.ok _, w1) => (.ok cacheKey, w1)

/-- The method `SuggestionEngine.getCachedSuggestions`. -/
def getCachedSuggestions (F : Faults) (w : World) (cacheKey : String) : Js JSVal × World :=
  RedisClient.get F w cacheKey

/-! ## Definitions used to state the results -/

/-- A host for evaluation on ASCII text: numbers print as their integer part,
words are separated by single spaces and stemming changes nothing. -/
def asciiHost : Host where
  numberToString := fun q => toString q.floor
  lowerNonAscii := fun _ c _ => [c]
  tokenize := fun s => (split s ' ').filter (fun t => t.length > 0)
  stem := fun s => s
  stringToNumber := fun _ => .nan

/-- The test of `containsKeywords` on the JSON text of the event. -/
def textContains (H : Host) (text : String) (keywords : List String) : Bool :=
  keywords.any fun keyword => includes (toLowerCase H text) (toLowerCase H keyword)

/-- A list of suggestions is in non-increasing order of `relevanceScore`: each
score is `>=` the next one. -/
def nonIncreasing (l : List Suggestion) : Prop :=
  l.Chain' fun a b => JSNum.ge a.relevanceScore b.relevanceScore = true

/-- The property `k` of the object given to `res.json`. -/
def Response.field (r : Response) (k : String) : JSVal :=
  match r.body with
  | .obj props => getOwn props k
  | _ => .undefined

/-- The document `routes/documentation.js` sends to the index and a hit returns
as `_source`: `title`, `content`, `tags`, `keywords`, `category`, `priority`,
`source`, `created_at`. A `tags`, `keywords` or `category` the store holds as
NULL is `none`. -/
structure DocumentationEntry where
  title : String
  content : String
  tags : Option (List String)
  keywords : Option (List String)
  category : Option String
  priority : Nat
  source : String
  created_at : String

/-- A nullable column as a value: `null` for NULL. -/
def nullable {α : Type} (f : α → JSVal) : Option α → JSVal
  | some x => f x
  | none => .null

/-- The entry as the object a hit carries. -/
def DocumentationEntry.toJSVal (d : DocumentationEntry) : JSVal :=
  .obj [("title", .str d.title), ("content", .str d.content),
        ("tags", nullable strings d.tags), ("keywords", nullable strings d.keywords),
        ("category", nullable JSVal.str d.category),
        ("priority", .num (JSNum.ofNat d.priority)),
        ("source", .str d.source), ("created_at", .str d.created_at)]

/-- The four field tests of the scoring formula as the specification words them,
each with its coefficient: the keyword is in the document's keywords (0.4), in its
tags (0.3), the lower-cased title contains it (0.2), the content contains it (0.1). -/
def statedFieldTests (H : Host) (d : DocumentationEntry) (keyword : String) :
    List (Bool × ℚ) :=
  [(decide (keyword ∈ d.keywords.getD []), 0.4),
   (decide (keyword ∈ d.tags.getD []), 0.3),
   (includes (toLowerCase H d.title) keyword, 0.2),
   (includes d.content keyword, 0.1)]

/-- The four field tests with the two changes the program makes to the wording:
the content is lower-cased like the title, and an empty title or content matches
no keyword. -/
def fieldTests (H : Host) (d : DocumentationEntry) (keyword : String) :
    List (Bool × ℚ) :=
  [(decide (keyword ∈ d.keywords.getD []), 0.4),
   (decide (keyword ∈ d.tags.getD []), 0.3),
   (decide (d.title ≠ "") && includes (toLowerCase H d.title) keyword, 0.2),
   (decide (d.content ≠ "") && includes (toLowerCase H d.content) keyword, 0.1)]

/-- The sum `A` of the formula: over the keywords of the vector, in order, the
weight of the keyword times the coefficient of each field test that holds. -/
def formulaA (H : Host) (V : ContextVector) (tests : String → List (Bool × ℚ)) : JSNum :=
  (keys V).foldl (fun a keyword =>
    (tests keyword).foldl (fun a t =>
      if t.1 then JSNum.add a (JSNum.mul (toNumber H (getOwn V keyword)) (.fin t.2)) else a) a)
    (.fin 0)

/-- The number `M` of the formula: how many field tests hold, over the keywords
of the vector. -/
def formulaM (V : ContextVector) (tests : String → List (Bool × ℚ)) : Nat :=
  (keys V).foldl (fun m keyword => m + ((tests keyword).filter (fun t => t.1)).length) 0

/-- The formula `min(((A * M * oracleScore) / 100) / |V|, 1)`. -/
def formulaScore (H : Host) (V : ContextVector) (tests : String → List (Bool × ℚ))
    (oracleScore : JSNum) : JSNum :=
  JSNum.min
    (JSNum.div
      (JSNum.div
        (JSNum.mul (JSNum.mul (formulaA H V tests) (JSNum.ofNat (formulaM V tests))) oracleScore)
        (.fin 100))
      (JSNum.ofNat (keys V).length))
    (.fin 1)

/-- The keyword passes the condition of `findMatchedKeywords` on the document. -/
def matchesAny (H : Host) (document : JSVal) (keyword : String) : Bool :=
  match matchesDocument H document keyword with
  | .ok b => b
  | .error _ => false

/-- The value of the property `k` of an event, `undefined` where it cannot be read. -/
def propOf (e : JSVal) (k : String) : JSVal :=
  match getProp e k with
  | .ok v => v
  | .error _ => .undefined

/-- The elements `forEach` visits: those of an array, none for another value. -/
def arrayElems : JSVal → List JSVal
  | .arr xs => xs
  | _ => []

/-- The list `files` of `extractKeywords`: `contextData.files` when it is an
array, else the one element `contextData.file`. -/
def effectiveFiles (file filesProp : JSVal) : List JSVal :=
  match filesProp with
  | .arr xs => xs
  | _ => [file]

/-- The list `files` of `extractKeywords` for an event. -/
def filesOf (e : JSVal) : List JSVal :=
  effectiveFiles (propOf e "file") (propOf e "files")

/-- The keywords one command string yields: the stems of the tokens of the
lower-cased command that are longer than 2 and pass `isStopWord`, then the
catalogue names that occur in the command. -/
def commandKeywords (H : Host) (text : String) : List String :=
  ((H.tokenize (toLowerCase H text)).filter
      (fun token => decide (token.length > 2) && !isStopWord H token)).map H.stem
    ++ devopsPatterns.filter (fun pattern => includes text pattern)

/-- The keywords one element of `commands` yields. -/
def commandContribution (H : Host) : JSVal → List String
  | .str text => commandKeywords H text
  | _ => []

/-- The text after the last dot of a path segment. -/
def extensionOf (segment : String) : String := (split segment '.').getLastD ""

/-- The keywords one path yields: for each non-empty segment, its extension when it
contains a dot, then the lower-cased segment. -/
def pathKeywords (H : Host) (path : String) : List String :=
  ((split path '/').filter (fun segment => segment.length > 0)).flatMap fun segment =>
    (if includes segment "." then [extensionOf segment] else []) ++ [toLowerCase H segment]

/-- The keywords one element of `files` yields. -/
def fileContribution (H : Host) : JSVal → List String
  | .str path => pathKeywords H path
  | _ => []

/-- The text of a command string before its first space. -/
def beforeFirstSpace (command : String) : String := (split command ' ').headD ""

/-- The keywords one element of `processes` yields. -/
def processContribution (H : Host) (process : JSVal) : List String :=
  match getProp process "command" with
  | .ok (.str command) =>
    if command ≠ "" then [toLowerCase H (beforeFirstSpace command)] else []
  | _ => []

/-- Some error pattern matches the message, whatever the case of ASCII letters. -/
def messageMatches (message : String) : Bool :=
  errorPatterns.any fun pattern => matchesIgnoreCase message pattern

/-- The keywords one element of `entries` yields. -/
def entryContribution (entry : JSVal) : List String :=
  match getProp entry "message" with
  | .ok (.str message) => if messageMatches message then ["troubleshooting", "error"] else []
  | _ => []

/-- Whitespace as `String.prototype.trim` and the class `\s` know it, among the
ASCII code units: tab, line feed, vertical tab, form feed, carriage return, space. -/
def isSpaceChar (c : Char) : Bool :=
  c = ' ' || c = Char.ofNat 9 || c = Char.ofNat 10 || c = Char.ofNat 11
    || c = Char.ofNat 12 || c = Char.ofNat 13

/-- The first whitespace-delimited token of a string as the specification words
it: leading whitespace is skipped, the token ends at the next whitespace. -/
def firstWhitespaceToken (s : String) : String :=
  ⟨(s.data.dropWhile isSpaceChar).takeWhile (fun c => !isSpaceChar c)⟩

/-- The block `// Extract from commands` of `extractKeywords`. -/
def commandsStage (H : Host) (commands : JSVal) (keywords : List String) :
    Js (List String) :=
  if truthy commands then do
    let xs ← asArray commands
    xs.foldlM (extractFromCommand H) keywords
  else pure keywords

/-- The block `// Extract from file paths` of `extractKeywords`. -/
def filesStage (H : Host) (file filesProp : JSVal) (keywords : List String) :
    Js (List String) :=
  if truthy file || truthy filesProp then
    let files := match filesProp with
      | .arr xs => xs
      | _ => [file]
    files.foldlM (extractFromFile H) keywords
  else pure keywords

/-- The block `// Extract from processes` of `extractKeywords`. -/
def processesStage (H : Host) (processes : JSVal) (keywords : List String) :
    Js (List String) :=
  if truthy processes then do
    let xs ← asArray processes
    xs.foldlM (extractFromProcess H) keywords
  else pure keywords

/-- The block `// Extract from log entries` of `extractKeywords`. -/
def entriesStage (entries : JSVal) (keywords : List String) : Js (List String) :=
  if truthy entries then do
    let xs ← asArray entries
    xs.foldlM extractFromEntry keywords
  else pure keywords

/-- The properties of an event that `extractKeywords` reads. -/
def readFields : List String := ["commands", "file", "files", "processes", "entries"]

/-- The cache key of a call, for the calls made on the cache. -/
def Call.cacheKey : Call → Option String
  | .redisGet key => some key
  | .redisSet key _ _ => some key
  | _ => none

/-- The keys of the cache calls among the calls, in order. -/
def cacheKeysOf (calls : List Call) : List String := calls.filterMap Call.cacheKey

/-- No call of the request rejects. -/
def noFaults : Faults := ⟨false, false, fun _ => false, false⟩

/-- A context with one long command, the reading of the log file of the given
part: the part stands after the first 100 code units of the JSON text. -/
def tailContext (part : String) : JSVal :=
  .obj [("commands", .arr [.str ("tail -n 200 /var/log/applications/payments/2024-01-15/"
    ++ "worker-eu-west-1/instance-0042/stdout-part-" ++ part ++ ".log")])]

/-- The request of the user `u1` with that context. -/
def tailRequest (part : String) : JSVal :=
  .obj [("contextData", tailContext part), ("userId", .str "u1")]

/-! ## Lemmas on strings and on JSON text -/

theorem includes_iff (s t : String) : includes s t = true ↔ t.data <:+: s.data := by
  simp [includes]

theorem lowerFrom_ascii (H : Host) (t : List Char) (ht : ∀ c ∈ t, c.val < 128)
    (b q : List Char) :
    lowerFrom H b (t ++ q) = t.map Char.toLower ++ lowerFrom H (b ++ t) q := by
  induction t generalizing b with
  | nil => simp
  | cons c t ih =>
    have hc : c.val < 128 := ht c (List.mem_cons_self _ _)
    have ht2 : ∀ d ∈ t, d.val < 128 := fun d hd => ht d (List.mem_cons_of_mem _ hd)
    simp [lowerFrom, hc, ih ht2]

theorem lowerFrom_occurs (H : Host) (t : List Char) (ht : ∀ c ∈ t, c.val < 128)
    (p q b : List Char) :
    t.map Char.toLower <:+: lowerFrom H b (p ++ (t ++ q)) := by
  induction p generalizing b with
  | nil =>
    rw [List.nil_append, lowerFrom_ascii H t ht]
    exact ⟨[], lowerFrom H (b ++ t) q, by simp⟩
  | cons c p ih =>
    rw [List.cons_append, lowerFrom]
    exact List.IsInfix.trans (ih (b ++ [c])) (List.suffix_append _ _).isInfix

/-- Lower-casing keeps an occurrence of ASCII text, lower-cased. -/
theorem toLowerCase_occurs (H : Host) (s : String) (t : List Char)
    (ht : ∀ c ∈ t, c.val < 128) (h : t <:+: s.data) :
    t.map Char.toLower <:+: (toLowerCase H s).data := by
  obtain ⟨p, q, hpq⟩ := h
  have := lowerFrom_occurs H t ht p q []
  simpa [toLowerCase, ← hpq, List.append_assoc] using this

/-- Quoting keeps an occurrence of text none of whose code units is escaped. -/
theorem quote_occurs (s : String) (t : List Char)
    (ht : ∀ c ∈ t, quoteChar c = [c]) (h : t <:+: s.data) :
    t <:+: (quote s).data := by
  obtain ⟨p, q, hpq⟩ := h
  have ht2 : t.flatMap quoteChar = t := by
    clear hpq
    induction t with
    | nil => rfl
    | cons c t ih =>
      rw [List.flatMap_cons, ht c (List.mem_cons_self _ _),
        ih (fun d hd => ht d (List.mem_cons_of_mem _ hd))]
      rfl
  refine ⟨Char.ofNat 34 :: p.flatMap quoteChar, q.flatMap quoteChar ++ [Char.ofNat 34], ?_⟩
  simp [quote, ← hpq, List.flatMap_append, ht2]

theorem joinWith_occurs (sep : String) (xs : List String) (x : String) (hx : x ∈ xs) :
    x.data <:+: (joinWith sep xs).data := by
  induction xs with
  | nil => cases hx
  | cons y ys ih =>
    cases ys with
    | nil =>
      simp only [List.mem_singleton] at hx
      subst hx
      exact List.infix_refl _
    | cons z zs =>
      rw [joinWith]
      simp only [String.data_append]
      rcases List.mem_cons.mp hx with h | h
      · subst h
        exact List.IsInfix.trans (List.prefix_append _ _).isInfix
          (List.prefix_append _ _).isInfix
      · exact List.IsInfix.trans (ih h) (List.suffix_append _ _).isInfix

theorem stringifyElems_mem (H : Host) (xs : List JSVal) (v : JSVal) (t : String)
    (hv : v ∈ xs) (ht : stringify H v = some t) : t ∈ stringifyElems H xs := by
  induction xs with
  | nil => cases hv
  | cons y ys ih =>
    rw [stringifyElems]
    rcases List.mem_cons.mp hv with h | h
    · subst h
      simp [ht]
    · exact List.mem_cons_of_mem _ (ih h)

theorem stringifyProps_mem (H : Host) (props : List (String × JSVal)) (k : String)
    (v : JSVal) (t : String) (hv : lookupProp k props = some v)
    (ht : stringify H v = some t) : (quote k ++ ":" ++ t) ∈ stringifyProps H props := by
  induction props with
  | nil => simp [lookupProp] at hv
  | cons p rest ih =>
    obtain ⟨k1, v1⟩ := p
    rw [lookupProp] at hv
    by_cases hk : k1 = k
    · rw [if_pos hk] at hv
      cases hv
      subst hk
      simp [stringifyProps, ht]
    · rw [if_neg hk] at hv
      have := ih hv
      rw [stringifyProps]
      cases hs : stringify H v1 with
      | none => simpa using this
      | some t1 => exact List.mem_cons_of_mem _ this

/-- The JSON text of an object holds the JSON text of each of its properties. -/
theorem stringify_obj_occurs (H : Host) (props : List (String × JSVal)) (k : String)
    (v : JSVal) (t : String) (hv : lookupProp k props = some v)
    (ht : stringify H v = some t) :
    ∃ text, stringify H (.obj props) = some text ∧ t.data <:+: text.data := by
  refine ⟨_, by rw [stringify], ?_⟩
  have h1 := joinWith_occurs "," _ _ (stringifyProps_mem H props k v t hv ht)
  simp only [String.data_append] at h1 ⊢
  have h2 : t.data <:+: (joinWith "," (stringifyProps H props)).data :=
    List.IsInfix.trans (List.suffix_append _ _).isInfix h1
  exact List.IsInfix.trans h2
    (List.IsInfix.trans (List.suffix_append _ _).isInfix (List.prefix_append _ _).isInfix)

/-- The JSON text of an array holds the JSON text of each of its elements. -/
theorem stringify_arr_occurs (H : Host) (xs : List JSVal) (v : JSVal) (t : String)
    (hv : v ∈ xs) (ht : stringify H v = some t) :
    ∃ text, stringify H (.arr xs) = some text ∧ t.data <:+: text.data := by
  refine ⟨_, by rw [stringify], ?_⟩
  have h1 := joinWith_occurs "," _ _ (stringifyElems_mem H xs v t hv ht)
  simp only [String.data_append]
  exact List.IsInfix.trans h1
    (List.IsInfix.trans (List.suffix_append _ _).isInfix (List.prefix_append _ _).isInfix)

/-! ## The rule engine -/

theorem containsKeywords_ok (H : Host) (e : JSVal) (text : String)
    (hs : stringify H e = some text) (kws : List String) :
    containsKeywords H e kws = .ok (textContains H text kws) := by
  simp [containsKeywords, hs, textContains]

/-- On an event with a JSON text the rule engine returns, and what it returns is
fixed by the five containment tests. -/
theorem getRuleBasedSuggestions_ok (H : Host) (e : JSVal) (text : String)
    (hs : stringify H e = some text) :
    getRuleBasedSuggestions H e = .ok
      ((if textContains H text ["kubectl", "kubernetes", "k8s"] then [ruleK8s] else [])
        ++ (if textContains H text ["docker"] && textContains H text ["error", "failed"]
            then [ruleDocker] else [])
        ++ (if textContains H text ["ssh"]
              && textContains H text ["connection", "refused", "timeout"]
            then [ruleSsh] else [])) := by
  simp only [getRuleBasedSuggestions, containsKeywords_ok H e text hs, bind, Except.bind,
    pure, Except.pure]
  cases textContains H text ["kubectl", "kubernetes", "k8s"] <;>
  cases textContains H text ["docker"] <;>
  cases textContains H text ["error", "failed"] <;>
  cases textContains H text ["ssh"] <;>
  cases textContains H text ["connection", "refused", "timeout"] <;> rfl

/-- A keyword in lower-case ASCII is found in the lower-cased text as soon as the
text holds it in some mix of ASCII cases. -/
theorem textContains_of_occurs (H : Host) (text : String) (kws : List String)
    (kw : String) (hk : kw ∈ kws) (t : List Char) (ht : ∀ c ∈ t, c.val < 128)
    (hlow : t.map Char.toLower = (toLowerCase H kw).data) (hin : t <:+: text.data) :
    textContains H text kws = true := by
  simp only [textContains, List.any_eq_true]
  refine ⟨kw, hk, ?_⟩
  rw [includes_iff, ← hlow]
  exact toLowerCase_occurs H text t ht hin

/-- The JSON text of an event holds the JSON text of each string of its `commands`. -/
theorem command_in_text (H : Host) (props : List (String × JSVal))
    (commands : List JSVal) (c : String)
    (hc : lookupProp "commands" props = some (.arr commands))
    (hm : JSVal.str c ∈ commands) :
    ∃ text, stringify H (.obj props) = some text ∧ (quote c).data <:+: text.data := by
  obtain ⟨t1, h1, i1⟩ := stringify_arr_occurs H commands (.str c) (quote c) hm (by rw [stringify])
  obtain ⟨text, h2, i2⟩ := stringify_obj_occurs H props "commands" _ t1 hc h1
  exact ⟨text, h2, List.IsInfix.trans i1 i2⟩

/-- C4. For every event whose `commands` include the string "kubectl get pods",
`getRuleBasedSuggestions` returns a list that holds a rule-based suggestion whose
`relevanceScore` is 0.9 and whose `matchedKeywords` hold "kubectl". -/
theorem kubectl_rule_fires (H : Host) (props : List (String × JSVal))
    (commands : List JSVal)
    (hc : lookupProp "commands" props = some (.arr commands))
    (hm : JSVal.str "kubectl get pods" ∈ commands) :
    ∃ l, getRuleBasedSuggestions H (.obj props) = .ok l ∧
      ∃ s ∈ l, s.type = some "rule-based" ∧ s.relevanceScore = .fin 0.9 ∧
        "kubectl" ∈ s.matchedKeywords := by
  obtain ⟨text, hs, hin⟩ := command_in_text H props commands _ hc hm
  have hk : textContains H text ["kubectl", "kubernetes", "k8s"] = true := by
    refine textContains_of_occurs H text _ "kubectl" (by simp) "kubectl".data (by decide) rfl ?_
    exact List.IsInfix.trans (by decide) hin
  refine ⟨_, getRuleBasedSuggestions_ok H _ text hs, ruleK8s, ?_, rfl, rfl, by decide⟩
  simp [hk]

/-- C4 at the event `{ commands: ["kubectl get pods"] }`. -/
theorem kubectl_rule_fires_witness :
    ∃ l, getRuleBasedSuggestions asciiHost
        (.obj [("commands", .arr [.str "kubectl get pods"])]) = .ok l ∧
      ∃ s ∈ l, s.type = some "rule-based" ∧ s.relevanceScore = .fin 0.9 ∧
        "kubectl" ∈ s.matchedKeywords :=
  kubectl_rule_fires asciiHost _ [.str "kubectl get pods"] rfl (List.mem_cons_self _ _)

/-- The JSON text of an event holds the JSON text of the `message` of each object
of its `entries`. -/
theorem message_in_text (H : Host) (props : List (String × JSVal))
    (entries : List JSVal) (entryProps : List (String × JSVal)) (message : String)
    (he : lookupProp "entries" props = some (.arr entries))
    (hm : JSVal.obj entryProps ∈ entries)
    (hmsg : lookupProp "message" entryProps = some (.str message)) :
    ∃ text, stringify H (.obj props) = some text ∧ (quote message).data <:+: text.data := by
  obtain ⟨t0, h0, i0⟩ :=
    stringify_obj_occurs H entryProps "message" _ (quote message) hmsg (by rw [stringify])
  obtain ⟨t1, h1, i1⟩ := stringify_arr_occurs H entries (.obj entryProps) t0 hm h0
  obtain ⟨text, h2, i2⟩ := stringify_obj_occurs H props "entries" _ t1 he h1
  exact ⟨text, h2, List.IsInfix.trans i0 (List.IsInfix.trans i1 i2)⟩

/-- C5, as stated, fails: the JSON text of the event
`{ commands: ["docker build"], entries: [{ message: "ERROR" }] }` contains neither
"error" nor "failed", and `getRuleBasedSuggestions` returns the docker-error
suggestion for it, since `containsKeywords` searches the lower-cased text. -/
theorem docker_rule_upper_case_error :
    (∀ H : Host, includes (jsonText H
        (.obj [("commands", .arr [.str "docker build"]),
               ("entries", .arr [.obj [("message", .str "ERROR")]])])) "error" = false ∧
      includes (jsonText H
        (.obj [("commands", .arr [.str "docker build"]),
               ("entries", .arr [.obj [("message", .str "ERROR")]])])) "failed" = false) ∧
    (∀ H : Host, getRuleBasedSuggestions H
        (.obj [("commands", .arr [.str "docker build"]),
               ("entries", .arr [.obj [("message", .str "ERROR")]])]) = .ok [ruleDocker]) :=
  ⟨fun _ => ⟨rfl, rfl⟩, fun _ => rfl⟩

/-- C5, amended. The docker-error rule is a conjunction. For every event whose
JSON text contains "docker build": (1) if the lower-cased JSON text of the event
(the text `containsKeywords` searches) contains neither "error" nor "failed",
`getRuleBasedSuggestions` returns a list without the docker-error suggestion;
(2) if the `entries` of the event include a log entry whose `message` contains
"Error: failed", `getRuleBasedSuggestions` returns a list that holds the
docker-error suggestion, whose `relevanceScore` is 0.85. -/
theorem docker_rule_conjunction (H : Host) (props : List (String × JSVal))
    (hd : includes (jsonText H (.obj props)) "docker build" = true) :
    (includes (toLowerCase H (jsonText H (.obj props))) "error" = false →
      includes (toLowerCase H (jsonText H (.obj props))) "failed" = false →
      ∃ l, getRuleBasedSuggestions H (.obj props) = .ok l ∧
        ∀ s ∈ l, s.id ≠ .str "rule-docker-errors") ∧
    (∀ (entries : List JSVal) (entryProps : List (String × JSVal)) (message : String),
      lookupProp "entries" props = some (.arr entries) →
      JSVal.obj entryProps ∈ entries →
      lookupProp "message" entryProps = some (.str message) →
      includes message "Error: failed" = true →
      ∃ l, getRuleBasedSuggestions H (.obj props) = .ok l ∧
        ∃ s ∈ l, s.id = .str "rule-docker-errors" ∧ s.relevanceScore = .fin 0.85) := by
  obtain ⟨text, hs⟩ : ∃ text, stringify H (.obj props) = some text := ⟨_, by rw [stringify]⟩
  have htext : jsonText H (.obj props) = text := by simp [jsonText, hs]
  rw [htext] at hd ⊢
  constructor
  · intro h1 h2
    refine ⟨_, getRuleBasedSuggestions_ok H _ text hs, ?_⟩
    have h3 : toLowerCase H "error" = "error" := rfl
    have h4 : toLowerCase H "failed" = "failed" := rfl
    have hno : textContains H text ["error", "failed"] = false := by
      simp [textContains, h3, h4, h1, h2]
    intro s hmem
    rw [hno, Bool.and_false] at hmem
    simp only [List.mem_append] at hmem
    rcases hmem with (hmem | hmem) | hmem
    · split at hmem
      · rw [List.mem_singleton] at hmem
        subst hmem
        simp [ruleK8s]
      · cases hmem
    · simp at hmem
    · split at hmem
      · rw [List.mem_singleton] at hmem
        subst hmem
        simp [ruleSsh]
      · cases hmem
  · intro entries entryProps message he hme hmsg hcontains
    obtain ⟨text2, hs2, hin2⟩ := message_in_text H props entries entryProps message he hme hmsg
    have heq : text2 = text := by
      rw [hs] at hs2
      exact (Option.some.inj hs2).symm
    subst heq
    have hdocker : textContains H text2 ["docker"] = true := by
      refine textContains_of_occurs H text2 _ "docker" (by simp) "docker".data (by decide) rfl ?_
      exact List.IsInfix.trans (by decide) ((includes_iff _ _).mp hd)
    have herror : textContains H text2 ["error", "failed"] = true := by
      refine textContains_of_occurs H text2 _ "error" (by simp) "Error".data (by decide) rfl ?_
      have h1 : "Error".data <:+: message.data :=
        List.IsInfix.trans (by decide) ((includes_iff _ _).mp hcontains)
      exact List.IsInfix.trans (quote_occurs message _ (by decide) h1) hin2
    refine ⟨_, getRuleBasedSuggestions_ok H _ text2 hs, ruleDocker, ?_, rfl, rfl⟩
    simp [hdocker, herror]

/-- C5, amended, at the event `{ commands: ["docker build"] }` for part (1) and at
the event `{ commands: ["docker build"], entries: [{ message: "Error: failed" }] }`
for part (2). -/
theorem docker_rule_conjunction_witness :
    (∃ l, getRuleBasedSuggestions asciiHost
        (.obj [("commands", .arr [.str "docker build"])]) = .ok l ∧
      ∀ s ∈ l, s.id ≠ .str "rule-docker-errors") ∧
    (∃ l, getRuleBasedSuggestions asciiHost
        (.obj [("commands", .arr [.str "docker build"]),
               ("entries", .arr [.obj [("message", .str "Error: failed")]])]) = .ok l ∧
      ∃ s ∈ l, s.id = .str "rule-docker-errors" ∧ s.relevanceScore = .fin 0.85) :=
  ⟨(docker_rule_conjunction asciiHost [("commands", .arr [.str "docker build"])]
      (by decide)).1 (by decide) (by decide),
   (docker_rule_conjunction asciiHost
      [("commands", .arr [.str "docker build"]),
       ("entries", .arr [.obj [("message", .str "Error: failed")]])] (by decide)).2
      [.obj [("message", .str "Error: failed")]] [("message", .str "Error: failed")]
      "Error: failed" rfl (List.mem_cons_self _ _) rfl (by decide)⟩

/-! ## Scores -/

/-- C1. With the empty context vector `calculateRelevanceScore` returns `NaN`,
whatever the document and the oracle score: the score and the match count stay 0,
and the last division is `0 / 0`. `NaN` is not in the interval from 0 to 1. -/
theorem empty_vector_score_is_nan (H : Host) (document : JSVal) (elasticScore : JSNum) :
    calculateRelevanceScore H [] document elasticScore = .ok .nan ∧
      ¬ JSNum.inUnit .nan := by
  constructor
  · cases elasticScore <;>
      simp [calculateRelevanceScore, keys, JSNum.mul, JSNum.div, JSNum.min, JSNum.ofNat,
        bind, Except.bind, pure, Except.pure]
  · simp [JSNum.inUnit, JSNum.le]

/-- C7. For the keyword `constructor` the expression `weights[keyword] || 1` is
the function the table inherits from `Object.prototype`, not a number, and that
is the weight stored; for the keyword `__proto__` the assignment stores nothing,
so the keyword is not a key of the vector. -/
theorem inherited_names_break_vector :
    buildContextVector ["constructor"] = [("constructor", .builtin "constructor")] ∧
      keys (buildContextVector ["__proto__"]) = [] :=
  ⟨rfl, rfl⟩

/-! ## The ranker -/

/-- C3, as stated, fails: with an oracle that throws, `findRelevantDocumentation`
returns the empty list for the event `{ commands: ["kubectl get pods"] }`, while
the rule engine returns the Kubernetes suggestion for it; `analyzeContext`
returns no suggestion either. -/
theorem oracle_failure_drops_rules :
    (∀ (H : Host) (v : ContextVector),
      findRelevantDocumentation H (fun _ => .error .external) v
        (.obj [("commands", .arr [.str "kubectl get pods"])]) = []) ∧
    (∀ H : Host, getRuleBasedSuggestions H
        (.obj [("commands", .arr [.str "kubectl get pods"])]) = .ok [ruleK8s]) ∧
    (∀ (H : Host) (parsed : JSNum), ∃ a,
      analyzeContext H (fun _ => .error .external) parsed
        (.obj [("commands", .arr [.str "kubectl get pods"])]) = .ok a ∧ a.suggestions = []) :=
  ⟨fun _ _ => rfl, fun _ => rfl, fun _ _ => ⟨_, rfl, rfl⟩⟩

/-- C3, amended. If the search oracle throws on every query, then for every
vector and every event `findRelevantDocumentation` returns the empty list (the
`catch` block; the rules are not evaluated), and `analyzeContext` returns, as
soon as keyword extraction returns, an analysis whose suggestions are empty. -/
theorem oracle_failure_returns_empty (H : Host) (oracle : Oracle) (parsed : JSNum)
    (v : ContextVector) (e : JSVal) (hfail : ∀ q, ∃ err, oracle q = .error err) :
    findRelevantDocumentation H oracle v e = [] ∧
    analyzeContext H oracle parsed e =
      (extractKeywords H e).map fun ks => ⟨ks, buildContextVector ks, []⟩ := by
  have h : ∀ v, findRelevantDocumentation H oracle v e = [] := by
    intro v
    obtain ⟨err, herr⟩ := hfail (joinWith " " (keys v))
    simp [findRelevantDocumentation, findRelevantDocumentationTry, herr, bind, Except.bind]
  refine ⟨h v, ?_⟩
  cases hk : extractKeywords H e with
  | error err => simp [analyzeContext, hk, bind, Except.bind, Except.map]
  | ok ks => simp [analyzeContext, hk, h, bind, Except.bind, Except.map, pure, Except.pure]

/-- C3, amended, at the event `{ commands: ["kubectl get pods"] }`. -/
theorem oracle_failure_returns_empty_witness :
    findRelevantDocumentation asciiHost (fun _ => .error .external)
        (buildContextVector ["kubectl", "get", "pods"])
        (.obj [("commands", .arr [.str "kubectl get pods"])]) = [] ∧
    analyzeContext asciiHost (fun _ => .error .external) .nan
        (.obj [("commands", .arr [.str "kubectl get pods"])]) =
      (extractKeywords asciiHost (.obj [("commands", .arr [.str "kubectl get pods"])])).map
        fun ks => ⟨ks, buildContextVector ks, []⟩ :=
  oracle_failure_returns_empty asciiHost (fun _ => .error .external) .nan _ _
    (fun _ => ⟨_, rfl⟩)

/-- C2. For the event `{ file: "k8s/constructor" }` the extracted keywords are
`k8s` and `constructor`; the weight of `constructor` is the inherited function, so
a hit whose title contains "constructor" gets the score `NaN`. (1) With that one
hit the rule engine adds the Kubernetes suggestion at 0.9, and the list
`findRelevantDocumentation` returns has the scores `NaN`, 0.9. (2) With three
hits, the second of which is that one, `findRelevantDocumentation` returns the
scores 0.72, `NaN`, 0.96, 0.9 and `analyzeContext` the scores 0.72, 0.96, 0.9
(evaluated on `asciiHost`; the event and the hits are ASCII text). Neither list
is in non-increasing order. -/
theorem nan_score_breaks_order (H : Host) :
    extractKeywords H (.obj [("file", .str "k8s/constructor")])
      = .ok ["k8s", "constructor"] ∧
    (findRelevantDocumentation H
      (fun _ => .ok (some [⟨.str "doc-2",
        .obj [("title", .str "Constructor injection"),
              ("content", .str "How a constructor receives its dependencies")],
        .fin 2⟩]))
      (buildContextVector ["k8s", "constructor"])
      (.obj [("file", .str "k8s/constructor")])).map (fun s => s.relevanceScore)
      = [.nan, .fin 0.9] ∧
    ¬ nonIncreasing (findRelevantDocumentation H
      (fun _ => .ok (some [⟨.str "doc-2",
        .obj [("title", .str "Constructor injection"),
              ("content", .str "How a constructor receives its dependencies")],
        .fin 2⟩]))
      (buildContextVector ["k8s", "constructor"])
      (.obj [("file", .str "k8s/constructor")])) ∧
    (analyzeContext asciiHost
      (fun _ => .ok (some [
        ⟨.str "doc-1", .obj [("title", .str "k8s basics"), ("content", .str "k8s"),
            ("keywords", .arr [.str "k8s"]), ("tags", .arr [.str "k8s"])], .fin 12⟩,
        ⟨.str "doc-2", .obj [("title", .str "Constructor injection"),
            ("content", .str "How a constructor receives its dependencies")], .fin 2⟩,
        ⟨.str "doc-3", .obj [("title", .str "k8s in depth"), ("content", .str "k8s"),
            ("keywords", .arr [.str "k8s"]), ("tags", .arr [.str "k8s"])], .fin 16⟩]))
      .nan (.obj [("file", .str "k8s/constructor")])).toOption.map
        (fun a => a.suggestions.map (fun s => s.relevanceScore))
      = some [.fin (18 / 25), .fin (24 / 25), .fin (9 / 10)] ∧
    JSNum.ge (.fin (18 / 25)) (.fin (24 / 25)) = false := by
  refine ⟨rfl, rfl, ?_, by decide!, by decide!⟩
  intro h
  have h2 := List.Chain'.rel_head h
  exact absurd (h2.symm.trans (rfl : _ = false)) (by decide)

/-- C6. For every event on which keyword extraction returns, `analyzeContext`
returns, and its `suggestions` are the ranked list of `findRelevantDocumentation`
filtered by `relevanceScore >= suggestionThreshold`: a sublist of the ranked list,
in the same order, that holds a ranked suggestion exactly when its score is at or
above the threshold. The threshold is 0.7 when the environment sets none. -/
theorem analyzeContext_filters (H : Host) (oracle : Oracle) (parsed : JSNum)
    (e : JSVal) (ks : List String) (hk : extractKeywords H e = .ok ks) :
    ∃ a, analyzeContext H oracle parsed e = .ok a ∧
      a.suggestions = (findRelevantDocumentation H oracle (buildContextVector ks) e).filter
        (fun s => JSNum.ge s.relevanceScore (suggestionThreshold parsed)) ∧
      a.suggestions.Sublist (findRelevantDocumentation H oracle (buildContextVector ks) e) ∧
      (∀ s, s ∈ a.suggestions ↔
        s ∈ findRelevantDocumentation H oracle (buildContextVector ks) e ∧
          JSNum.ge s.relevanceScore (suggestionThreshold parsed) = true) ∧
      suggestionThreshold .nan = .fin 0.7 := by
  refine ⟨_, by simp [analyzeContext, hk, bind, Except.bind, pure, Except.pure]; rfl,
    rfl, List.filter_sublist _, ?_, rfl⟩
  intro s
  simp [List.mem_filter]

/-- C6 at the event `{ commands: ["kubectl get pods"] }` with an oracle without hits. -/
theorem analyzeContext_filters_witness :
    ∃ a, analyzeContext asciiHost (fun _ => .ok (some [])) .nan
        (.obj [("commands", .arr [.str "kubectl get pods"])]) = .ok a ∧
      a.suggestions = (findRelevantDocumentation asciiHost (fun _ => .ok (some []))
        (buildContextVector ["kubectl", "get", "pods"])
        (.obj [("commands", .arr [.str "kubectl get pods"])])).filter
        (fun s => JSNum.ge s.relevanceScore (suggestionThreshold .nan)) ∧
      a.suggestions.Sublist (findRelevantDocumentation asciiHost (fun _ => .ok (some []))
        (buildContextVector ["kubectl", "get", "pods"])
        (.obj [("commands", .arr [.str "kubectl get pods"])])) ∧
      (∀ s, s ∈ a.suggestions ↔
        s ∈ findRelevantDocumentation asciiHost (fun _ => .ok (some []))
          (buildContextVector ["kubectl", "get", "pods"])
          (.obj [("commands", .arr [.str "kubectl get pods"])]) ∧
          JSNum.ge s.relevanceScore (suggestionThreshold .nan) = true) ∧
      suggestionThreshold .nan = .fin 0.7 :=
  analyzeContext_filters asciiHost (fun _ => .ok (some [])) .nan _
    ["kubectl", "get", "pods"] (by decide)

/-! ## The routes -/

mutual
/-- Storing a value in the cache and reading it back does not change its JSON text. -/
theorem stringify_jsonClone (H : Host) : ∀ v, stringify H (jsonClone v) = stringify H v
  | .undefined => rfl
  | .builtin _ => rfl
  | .null => rfl
  | .bool _ => rfl
  | .num (.fin _) => rfl
  | .num .posInf => rfl
  | .num .negInf => rfl
  | .num .nan => rfl
  | .str _ => rfl
  | .arr xs => by
    rw [jsonClone, stringify, stringify, stringifyElems_jsonClone H xs]
  | .obj props => by
    rw [jsonClone, stringify, stringify, stringifyProps_jsonClone H props]
theorem stringifyElems_jsonClone (H : Host) :
    ∀ xs, stringifyElems H (jsonCloneElems xs) = stringifyElems H xs
  | [] => rfl
  | x :: xs => by
    have ih := stringifyElems_jsonClone H xs
    have ihx := stringify_jsonClone H x
    cases x with
    | num y => cases y <;> simp_all [jsonCloneElems, stringifyElems, jsonClone, stringify]
    | _ => simp_all [jsonCloneElems, stringifyElems, jsonClone, stringify]
theorem stringifyProps_jsonClone (H : Host) :
    ∀ props, stringifyProps H (jsonCloneProps props) = stringifyProps H props
  | [] => rfl
  | (k, v) :: rest => by
    have ih := stringifyProps_jsonClone H rest
    have ihv := stringify_jsonClone H v
    cases v with
    | num y => cases y <;> simp_all [jsonCloneProps, stringifyProps, jsonClone, stringify]
    | _ => simp_all [jsonCloneProps, stringifyProps, jsonClone, stringify]
end

theorem storeSuggestions_redis (F : Faults) (w : World) (stmts : List DbStatement) :
    (storeSuggestions F w stmts).2.redis = w.redis := by
  induction stmts generalizing w with
  | nil => rfl
  | cons st rest ih =>
    simp only [storeSuggestions, Database.query]
    split <;> simp [ih, World.call]

theorem lookup_getD_truthy (key : String) (entries : List (String × JSVal))
    (h : truthy ((entries.lookup key).getD .null) = true) :
    ∃ v, entries.lookup key = some v ∧ truthy v = true := by
  cases hl : entries.lookup key with
  | none => simp [hl, truthy] at h
  | some v => exact ⟨v, rfl, by simpa [hl] using h⟩

theorem lookup_head (k : String) (v : JSVal) (l : List (String × JSVal)) :
    List.lookup k ((k, v) :: l) = some v := by
  simp [List.lookup]

theorem generateTry_ok (H : Host) (oracle : Oracle) (parsed : JSNum) (F : Faults)
    (now : Nat) (w w1 : World) (userId contextData : JSVal) (text : String) (r : Response)
    (ht : stringify H contextData = some text)
    (h : generateTry H oracle parsed F now w userId contextData = (.ok r, w1)) :
    r.status = 200 ∧ ∃ v, w1.redis.lookup (generateCacheKey H userId text) = some v ∧
      truthy v = true ∧ stringify H v = stringify H (r.field "suggestions") := by
  unfold generateTry at h
  simp only [ht, RedisClient.get] at h
  by_cases hg : F.redisGet = true
  · simp [hg] at h
  · simp only [hg, Bool.false_eq_true, if_false] at h
    split at h
    · rename_i hcached
      obtain ⟨v, hv, htr⟩ := lookup_getD_truthy _ _ hcached
      simp only [Prod.mk.injEq, Except.ok.injEq] at h
      obtain ⟨hr, hw⟩ := h
      subst hr; subst hw
      refine ⟨rfl, v, by simpa [World.call] using hv, htr, ?_⟩
      simp [Response.field, getOwn, lookupProp, hv]
    · split at h
      · simp at h
      · split at h
        · simp at h
        · simp only [Database.query] at h
          split at h
          · simp at h
          · rename_i hdb
            split at h
            · simp at h
            · rename_i w4 hstore
              simp only [RedisClient.set] at h
              split at h
              · simp at h
              · rename_i hset
                simp only [Prod.mk.injEq, Except.ok.injEq] at h
                obtain ⟨hr, hw⟩ := h
                subst hr; subst hw
                by_cases hs : F.redisSet = true
                · simp [hs] at hset
                · simp only [hs, Bool.false_eq_true, if_false, Prod.mk.injEq] at hset
                  have hw5 := hset.2
                  subst hw5
                  refine ⟨rfl, _, lookup_head _ _ _, by simp [jsonClone, truthy], ?_⟩
                  rw [stringify_jsonClone]
                  simp [Response.field, getOwn, lookupProp]

/-- A request whose key has a truthy cache entry is answered from the cache. -/
theorem generate_cached (H : Host) (oracle : Oracle) (parsed : JSNum) (F : Faults)
    (now : Nat) (w : World) (body userId contextData v : JSVal) (text : String)
    (hu : getProp body "userId" = .ok userId)
    (hc : getProp body "contextData" = .ok contextData)
    (htr : truthy contextData = true)
    (ht : stringify H contextData = some text)
    (hl : w.redis.lookup (generateCacheKey H userId text) = some v)
    (hv : truthy v = true) (hget : F.redisGet = false) :
    generate H oracle parsed F now w body =
      (⟨200, .obj [("suggestions", v), ("cached", .bool true),
                   ("timestamp", .num (JSNum.ofNat now))]⟩,
       w.call (.redisGet (generateCacheKey H userId text))) := by
  simp [generate, hu, hc, htr, generateTry, ht, RedisClient.get, hget, hl, hv]

/-- C8. Idempotence of the generate operation. If a generate request is answered
with status 200 and the same request is made again while the cache holds, under
the key of the request, the entry it held after the first request, and the cache
can be read, then the second response has status 200 and `cached = true`, and
its `suggestions` have the same JSON text as the `suggestions` of the first
response, whatever the oracle would now answer. -/
theorem generate_idempotent (H : Host) (oracle1 oracle2 : Oracle) (parsed1 parsed2 : JSNum)
    (F1 F2 : Faults) (now1 now2 : Nat) (w w2 : World) (body userId contextData : JSVal)
    (text : String)
    (hu : getProp body "userId" = .ok userId)
    (hc : getProp body "contextData" = .ok contextData)
    (ht : stringify H contextData = some text)
    (h1 : (generate H oracle1 parsed1 F1 now1 w body).1.status = 200)
    (hkeep : w2.redis.lookup (generateCacheKey H userId text) =
      (generate H oracle1 parsed1 F1 now1 w body).2.redis.lookup (generateCacheKey H userId text))
    (hget : F2.redisGet = false) :
    (generate H oracle2 parsed2 F2 now2 w2 body).1.status = 200 ∧
    (generate H oracle2 parsed2 F2 now2 w2 body).1.field "cached" = .bool true ∧
    stringify H ((generate H oracle2 parsed2 F2 now2 w2 body).1.field "suggestions") =
      stringify H ((generate H oracle1 parsed1 F1 now1 w body).1.field "suggestions") := by
  by_cases htr : truthy contextData = true
  · cases hg : generateTry H oracle1 parsed1 F1 now1 w userId contextData with
    | mk res w1 =>
      cases res with
      | error err => simp [generate, hu, hc, htr, hg, errorResponse] at h1
      | ok r =>
        have hgen : generate H oracle1 parsed1 F1 now1 w body = (r, w1) := by
          simp [generate, hu, hc, htr, hg]
        obtain ⟨_, v, hv, hvt, hvs⟩ :=
          generateTry_ok H oracle1 parsed1 F1 now1 w w1 userId contextData text r ht hg
        rw [hgen] at hkeep ⊢
        rw [generate_cached H oracle2 parsed2 F2 now2 w2 body userId contextData v text hu hc htr
          ht (hkeep.trans hv) hvt hget]
        refine ⟨rfl, rfl, ?_⟩
        rw [← hvs]
        rfl
  · simp [generate, hu, hc, htr, errorResponse] at h1

/-- C8 at the request `{ contextData: { commands: ["kubectl get pods"] }, userId: "u1" }`
made twice on an empty cache, with an oracle without hits. -/
theorem generate_idempotent_witness :
    (generate asciiHost (fun _ => .ok (some [])) .nan ⟨false, false, fun _ => false, false⟩ 2
      (generate asciiHost (fun _ => .ok (some [])) .nan ⟨false, false, fun _ => false, false⟩ 1
        ⟨[], [], [], []⟩
        (.obj [("contextData", .obj [("commands", .arr [.str "kubectl get pods"])]),
               ("userId", .str "u1")])).2
      (.obj [("contextData", .obj [("commands", .arr [.str "kubectl get pods"])]),
             ("userId", .str "u1")])).1.status = 200 ∧
    (generate asciiHost (fun _ => .ok (some [])) .nan ⟨false, false, fun _ => false, false⟩ 2
      (generate asciiHost (fun _ => .ok (some [])) .nan ⟨false, false, fun _ => false, false⟩ 1
        ⟨[], [], [], []⟩
        (.obj [("contextData", .obj [("commands", .arr [.str "kubectl get pods"])]),
               ("userId", .str "u1")])).2
      (.obj [("contextData", .obj [("commands", .arr [.str "kubectl get pods"])]),
             ("userId", .str "u1")])).1.field "cached" = .bool true ∧
    stringify asciiHost
      ((generate asciiHost (fun _ => .ok (some [])) .nan ⟨false, false, fun _ => false, false⟩ 2
        (generate asciiHost (fun _ => .ok (some [])) .nan ⟨false, false, fun _ => false, false⟩ 1
          ⟨[], [], [], []⟩
          (.obj [("contextData", .obj [("commands", .arr [.str "kubectl get pods"])]),
                 ("userId", .str "u1")])).2
        (.obj [("contextData", .obj [("commands", .arr [.str "kubectl get pods"])]),
               ("userId", .str "u1")])).1.field "suggestions") =
    stringify asciiHost
      ((generate asciiHost (fun _ => .ok (some [])) .nan ⟨false, false, fun _ => false, false⟩ 1
        ⟨[], [], [], []⟩
        (.obj [("contextData", .obj [("commands", .arr [.str "kubectl get pods"])]),
               ("userId", .str "u1")])).1.field "suggestions") :=
  generate_idempotent asciiHost _ _ .nan .nan ⟨false, false, fun _ => false, false⟩
    ⟨false, false, fun _ => false, false⟩ 1 2 ⟨[], [], [], []⟩ _ _ (.str "u1")
    (.obj [("commands", .arr [.str "kubectl get pods"])]) _ rfl rfl rfl (by decide!) rfl rfl

/-- A value whose property can be read lets every property be read. -/
theorem getProp_ok_of_ok (v : JSVal) (k k2 : String) (x : JSVal)
    (h : getProp v k = .ok x) : ∃ y, getProp v k2 = .ok y := by
  cases v <;> simp [getProp] at h ⊢
  rename_i props
  cases lookupProp k2 props <;> simp

/-- C9. For every feedback request whose body can be read and whose verdict is
none of `helpful`, `not_helpful`, `irrelevant` (a missing verdict included), the
response has status 400 and the world is unchanged: no statement is sent to the
store, no cache entry is written, no call is made. -/
theorem feedback_invalid_rejected (F : Faults) (now : Nat) (w : World)
    (suggestionId : String) (body verdict : JSVal)
    (hv : getProp body "feedback" = .ok verdict)
    (h1 : verdict ≠ .str "helpful") (h2 : verdict ≠ .str "not_helpful")
    (h3 : verdict ≠ .str "irrelevant") :
    feedback F now w suggestionId body = (errorResponse 400 "Invalid feedback value", w) ∧
      (errorResponse 400 "Invalid feedback value").status = 400 := by
  obtain ⟨userId, hu⟩ := getProp_ok_of_ok body "feedback" "userId" verdict hv
  have hbad : validFeedback verdict = false := by
    cases verdict <;> simp [validFeedback] at h1 h2 h3 ⊢
    exact ⟨h1, h2, h3⟩
  simp [feedback, hv, hu, hbad, errorResponse]

/-- C9 at the verdict `maybe`. -/
theorem feedback_invalid_rejected_witness :
    feedback ⟨false, false, fun _ => false, false⟩ 1 ⟨[], [], [], []⟩ "42"
        (.obj [("feedback", .str "maybe"), ("userId", .str "u1")]) =
      (errorResponse 400 "Invalid feedback value", ⟨[], [], [], []⟩) ∧
      (errorResponse 400 "Invalid feedback value").status = 400 :=
  feedback_invalid_rejected _ 1 _ "42" _ (.str "maybe") rfl (by simp) (by simp) (by simp)

/-- C10. For every generate request and every context-update request whose body
can be read and whose `contextData` is missing or falsy, the response has status
400 and the world is unchanged: no activity is inserted, the cache is neither
read nor written, nothing is indexed and `analyzeContext` is not called. -/
theorem no_context_rejected (H : Host) (oracle : Oracle) (parsed : JSNum) (F : Faults)
    (now : Nat) (w : World) (body contextData : JSVal)
    (hc : getProp body "contextData" = .ok contextData)
    (hfalsy : truthy contextData = false) :
    generate H oracle parsed F now w body = (errorResponse 400 "Context data is required", w) ∧
    update H F now w body = (errorResponse 400 "Context data is required", w) ∧
      (errorResponse 400 "Context data is required").status = 400 := by
  obtain ⟨userId, hu⟩ := getProp_ok_of_ok body "contextData" "userId" contextData hc
  simp [generate, update, hc, hu, hfalsy, errorResponse]

/-- C10 at the body `{ userId: "u1" }`, which has no `contextData`. -/
theorem no_context_rejected_witness :
    generate asciiHost (fun _ => .ok (some [])) .nan ⟨false, false, fun _ => false, false⟩ 1
        ⟨[], [], [], []⟩ (.obj [("userId", .str "u1")]) =
      (errorResponse 400 "Context data is required", ⟨[], [], [], []⟩) ∧
    update asciiHost ⟨false, false, fun _ => false, false⟩ 1 ⟨[], [], [], []⟩
        (.obj [("userId", .str "u1")]) =
      (errorResponse 400 "Context data is required", ⟨[], [], [], []⟩) ∧
      (errorResponse 400 "Context data is required").status = 400 :=
  no_context_rejected asciiHost _ .nan _ 1 _ _ .undefined rfl rfl

/-! ## The rules, one by one -/

theorem textContains_single (H : Host) (text kw : String) (hk : toLowerCase H kw = kw) :
    textContains H text [kw] = includes (toLowerCase H text) kw := by
  simp [textContains, hk]

/-- C19. For every event object, `getRuleBasedSuggestions` returns, and the list
it returns holds a suggestion with the id of the SSH-connection rule if and only
if the lower-cased JSON text of the event contains "ssh" and at least one of
"connection", "refused", "timeout"; such a suggestion is the fixed suggestion of
the rule, whose `relevanceScore` is 0.8. -/
theorem ssh_rule_iff (H : Host) (props : List (String × JSVal)) :
    ∃ l, getRuleBasedSuggestions H (.obj props) = .ok l ∧
      ((∃ s ∈ l, s.id = .str "rule-ssh-connection") ↔
        (includes (toLowerCase H (jsonText H (.obj props))) "ssh" = true ∧
          (includes (toLowerCase H (jsonText H (.obj props))) "connection" = true ∨
           includes (toLowerCase H (jsonText H (.obj props))) "refused" = true ∨
           includes (toLowerCase H (jsonText H (.obj props))) "timeout" = true))) ∧
      (∀ s ∈ l, s.id = .str "rule-ssh-connection" →
        s = ruleSsh ∧ s.relevanceScore = .fin 0.8) := by
  obtain ⟨text, hs⟩ : ∃ text, stringify H (.obj props) = some text := ⟨_, by rw [stringify]⟩
  have htext : jsonText H (.obj props) = text := by simp [jsonText, hs]
  rw [htext]
  have h1 : textContains H text ["ssh"] = includes (toLowerCase H text) "ssh" :=
    textContains_single H text "ssh" rfl
  have h2 : textContains H text ["connection", "refused", "timeout"] =
      (includes (toLowerCase H text) "connection" || includes (toLowerCase H text) "refused"
        || includes (toLowerCase H text) "timeout") := by
    have a1 : toLowerCase H "connection" = "connection" := rfl
    have a2 : toLowerCase H "refused" = "refused" := rfl
    have a3 : toLowerCase H "timeout" = "timeout" := rfl
    simp [textContains, a1, a2, a3, Bool.or_assoc]
  refine ⟨_, getRuleBasedSuggestions_ok H _ text hs, ?_, ?_⟩
  · rw [h1, h2]
    cases textContains H text ["kubectl", "kubernetes", "k8s"] <;>
    cases (textContains H text ["docker"] && textContains H text ["error", "failed"]) <;>
    cases includes (toLowerCase H text) "ssh" <;>
    cases includes (toLowerCase H text) "connection" <;>
    cases includes (toLowerCase H text) "refused" <;>
    cases includes (toLowerCase H text) "timeout" <;>
    simp [ruleK8s, ruleDocker, ruleSsh]
  · intro s hmem hid
    simp only [List.mem_append] at hmem
    have : s = ruleSsh := by
      rcases hmem with (hmem | hmem) | hmem
      · split at hmem
        · rw [List.mem_singleton] at hmem
          subst hmem
          simp [ruleK8s] at hid
        · cases hmem
      · split at hmem
        · rw [List.mem_singleton] at hmem
          subst hmem
          simp [ruleDocker] at hid
        · cases hmem
      · split at hmem
        · exact List.mem_singleton.mp hmem
        · cases hmem
    subst this
    exact ⟨rfl, rfl⟩

theorem mem_sortInsert (cmp : Suggestion → Suggestion → JSNum) (x s : Suggestion)
    (l : List Suggestion) : s ∈ sortInsert cmp x l ↔ s = x ∨ s ∈ l := by
  induction l with
  | nil => simp [sortInsert]
  | cons y ys ih =>
    rw [sortInsert]
    split
    · simp only [List.mem_cons, ih]
      tauto
    · simp only [List.mem_cons]

theorem mem_sortWith (cmp : Suggestion → Suggestion → JSNum) (s : Suggestion)
    (l : List Suggestion) : s ∈ sortWith cmp l ↔ s ∈ l := by
  induction l with
  | nil => simp [sortWith]
  | cons y ys ih =>
    have : sortWith cmp (y :: ys) = sortInsert cmp y (sortWith cmp ys) := rfl
    rw [this, mem_sortInsert, ih, List.mem_cons]

theorem length_sortInsert (cmp : Suggestion → Suggestion → JSNum) (x : Suggestion)
    (l : List Suggestion) : (sortInsert cmp x l).length = l.length + 1 := by
  induction l with
  | nil => rfl
  | cons y ys ih =>
    rw [sortInsert]
    split <;> simp [ih]

theorem length_sortWith (cmp : Suggestion → Suggestion → JSNum) (l : List Suggestion) :
    (sortWith cmp l).length = l.length := by
  induction l with
  | nil => rfl
  | cons y ys ih =>
    have : sortWith cmp (y :: ys) = sortInsert cmp y (sortWith cmp ys) := rfl
    rw [this, length_sortInsert, ih, List.length_cons]

/-- What `mapM` returns holds only results of the function. -/
theorem mapM_ok_mem {α β : Type} (f : α → Js β) (xs : List α) (l : List β)
    (h : xs.mapM f = .ok l) : ∀ y ∈ l, ∃ x ∈ xs, f x = .ok y := by
  induction xs generalizing l with
  | nil =>
    rw [List.mapM_nil] at h
    cases h
    simp
  | cons x xs ih =>
    rw [List.mapM_cons] at h
    cases hx : f x with
    | error err =>
      rw [hx] at h
      cases h
    | ok y0 =>
      cases hxs : xs.mapM f with
      | error err =>
        rw [hx, hxs] at h
        cases h
      | ok l0 =>
        rw [hx, hxs] at h
        cases h
        intro y hy
        rcases List.mem_cons.mp hy with rfl | hy
        · exact ⟨x, List.mem_cons_self _ _, hx⟩
        · obtain ⟨x1, hx1, hf⟩ := ih l0 hxs y hy
          exact ⟨x1, List.mem_cons_of_mem _ hx1, hf⟩

theorem suggestionOfHit_type (H : Host) (v : ContextVector) (hit : Hit) (s : Suggestion)
    (h : suggestionOfHit H v hit = .ok s) : s.type = none := by
  unfold suggestionOfHit at h
  cases h1 : calculateRelevanceScore H v hit._source hit._score <;>
  cases h2 : getProp hit._source "title" <;>
  cases h3 : getProp hit._source "content" <;>
  simp only [h1, h2, h3, bind, Except.bind, pure, Except.pure] at h <;>
  try cases h
  rename_i content
  cases h4 : asString content <;>
  cases h5 : getProp hit._source "source" <;>
  cases h6 : getProp hit._source "category" <;>
  cases h7 : getProp hit._source "tags" <;>
  cases h8 : findMatchedKeywords H v hit._source <;>
  simp only [h4, h5, h6, h7, h8] at h <;>
  cases h
  rfl

/-- The rule engine throws on a value without JSON text. -/
theorem getRuleBasedSuggestions_text (H : Host) (e : JSVal) (l : List Suggestion)
    (h : getRuleBasedSuggestions H e = .ok l) : ∃ text, stringify H e = some text := by
  cases hs : stringify H e with
  | some text => exact ⟨text, rfl⟩
  | none =>
    simp [getRuleBasedSuggestions, containsKeywords, hs, bind, Except.bind] at h

/-- A member of the list of the three rules is the suggestion of a rule that fired. -/
theorem rule_list_mem (a b c : Bool) (s : Suggestion)
    (h : s ∈ (if a then [ruleK8s] else []) ++ (if b then [ruleDocker] else [])
      ++ (if c then [ruleSsh] else [])) :
    (a = true ∧ s = ruleK8s) ∨ (b = true ∧ s = ruleDocker) ∨ (c = true ∧ s = ruleSsh) := by
  cases a <;> cases b <;> cases c <;> simp at h ⊢ <;> tauto

theorem getRuleBasedSuggestions_mem (H : Host) (e : JSVal) (l : List Suggestion)
    (s : Suggestion) (h : getRuleBasedSuggestions H e = .ok l) (hs : s ∈ l) :
    s = ruleK8s ∨ s = ruleDocker ∨ s = ruleSsh := by
  obtain ⟨text, ht⟩ := getRuleBasedSuggestions_text H e l h
  rw [getRuleBasedSuggestions_ok H e text ht] at h
  cases h
  rcases rule_list_mem _ _ _ s hs with h1 | h1 | h1
  · exact Or.inl h1.2
  · exact Or.inr (Or.inl h1.2)
  · exact Or.inr (Or.inr h1.2)

/-- A suggestion `findRelevantDocumentation` returns was built from a hit, and
then has no `type`, or was returned by the rule engine. -/
theorem findRelevantDocumentation_mem (H : Host) (o : Oracle) (v : ContextVector)
    (e : JSVal) (s : Suggestion) (h : s ∈ findRelevantDocumentation H o v e) :
    s.type = none ∨ ∃ l, getRuleBasedSuggestions H e = .ok l ∧ s ∈ l := by
  unfold findRelevantDocumentation at h
  cases ht : findRelevantDocumentationTry H o v e with
  | error err => simp [ht] at h
  | ok out =>
    simp only [ht] at h
    unfold findRelevantDocumentationTry at ht
    cases ho : o (joinWith " " (keys v)) with
    | error err => simp [ho, bind, Except.bind] at ht
    | ok res =>
      cases hr : getRuleBasedSuggestions H e with
      | error err =>
        cases res with
        | none => simp [ho, hr, bind, Except.bind, pure, Except.pure] at ht
        | some hits =>
          cases hm : hits.mapM (suggestionOfHit H v) <;>
            simp only [ho, hr, hm, bind, Except.bind, pure, Except.pure] at ht <;>
            cases ht
      | ok rules =>
        have key : ∀ fromHits : List Suggestion, (∀ x ∈ fromHits, x.type = none) →
            s ∈ (sortWith compareSuggestions (fromHits ++ rules)).take 10 →
            s.type = none ∨ s ∈ rules := by
          intro fromHits hall hmem
          have h1 := List.mem_of_mem_take hmem
          rw [mem_sortWith, List.mem_append] at h1
          rcases h1 with h1 | h1
          · exact Or.inl (hall s h1)
          · exact Or.inr h1
        cases res with
        | none =>
          simp only [ho, hr, bind, Except.bind, pure, Except.pure] at ht
          cases ht
          exact (key [] (by simp) h).imp id (fun hmem => ⟨rules, rfl, hmem⟩)
        | some hits =>
          cases hm : hits.mapM (suggestionOfHit H v) with
          | error err =>
            simp only [ho, hr, hm, bind, Except.bind, pure, Except.pure] at ht
            cases ht
          | ok fromHits =>
            simp only [ho, hr, hm, bind, Except.bind, pure, Except.pure] at ht
            cases ht
            refine (key fromHits ?_ h).imp id (fun hmem => ⟨rules, rfl, hmem⟩)
            intro x hx
            obtain ⟨hit, _, hf⟩ := mapM_ok_mem _ hits fromHits hm x hx
            exact suggestionOfHit_type H v hit x hf

/-- With an oracle that has no hit, `findRelevantDocumentation` returns the
suggestions of the rule engine, sorted. -/
theorem findRelevantDocumentation_no_hits (H : Host) (v : ContextVector) (e : JSVal)
    (l : List Suggestion) (h : getRuleBasedSuggestions H e = .ok l) :
    findRelevantDocumentation H (fun _ => .ok (some [])) v e
      = sortWith compareSuggestions l := by
  obtain ⟨text, ht⟩ := getRuleBasedSuggestions_text H e l h
  have hlen : l.length ≤ 10 := by
    rw [getRuleBasedSuggestions_ok H e text ht] at h
    cases h
    cases textContains H text ["kubectl", "kubernetes", "k8s"] <;>
    cases (textContains H text ["docker"] && textContains H text ["error", "failed"]) <;>
    cases (textContains H text ["ssh"]
      && textContains H text ["connection", "refused", "timeout"]) <;> simp
  simp only [findRelevantDocumentation, findRelevantDocumentationTry, h, bind, Except.bind,
    pure, Except.pure, List.mapM_nil, List.nil_append]
  exact List.take_of_length_le (by rw [length_sortWith]; exact hlen)

/-- C20. Rule-based suggestions carry a fixed score. For every event: (1) a
suggestion of type `rule-based` in the output of `findRelevantDocumentation`, for
whatever vector and oracle, is one of the three fixed rule suggestions; (2) two
such suggestions with the same id, out of two outputs for two vectors and two
oracles, have the same `relevanceScore`; (3) the scores are 0.9, 0.85 and 0.8;
(4) on an event with a JSON text the rule engine returns, each rule suggestion is
in the list exactly when the predicate of its own rule holds, and when all three
predicates hold the list is the three suggestions; (5) with an oracle without
hits every suggestion of the rule engine is in the output. -/
theorem rule_scores_fixed (H : Host) (e : JSVal) :
    (∀ (o : Oracle) (v : ContextVector) (s : Suggestion),
      s ∈ findRelevantDocumentation H o v e → s.type = some "rule-based" →
      s = ruleK8s ∨ s = ruleDocker ∨ s = ruleSsh) ∧
    (∀ (o1 o2 : Oracle) (v1 v2 : ContextVector) (s1 s2 : Suggestion),
      s1 ∈ findRelevantDocumentation H o1 v1 e → s2 ∈ findRelevantDocumentation H o2 v2 e →
      s1.type = some "rule-based" → s2.type = some "rule-based" → s1.id = s2.id →
      s1.relevanceScore = s2.relevanceScore) ∧
    (ruleK8s.relevanceScore = .fin 0.9 ∧ ruleDocker.relevanceScore = .fin 0.85 ∧
      ruleSsh.relevanceScore = .fin 0.8) ∧
    (∀ text, stringify H e = some text →
      ∃ l, getRuleBasedSuggestions H e = .ok l ∧
        (ruleK8s ∈ l ↔ containsKeywords H e ["kubectl", "kubernetes", "k8s"] = .ok true) ∧
        (ruleDocker ∈ l ↔ (containsKeywords H e ["docker"] = .ok true ∧
          containsKeywords H e ["error", "failed"] = .ok true)) ∧
        (ruleSsh ∈ l ↔ (containsKeywords H e ["ssh"] = .ok true ∧
          containsKeywords H e ["connection", "refused", "timeout"] = .ok true)) ∧
        (containsKeywords H e ["kubectl", "kubernetes", "k8s"] = .ok true →
          containsKeywords H e ["docker"] = .ok true →
          containsKeywords H e ["error", "failed"] = .ok true →
          containsKeywords H e ["ssh"] = .ok true →
          containsKeywords H e ["connection", "refused", "timeout"] = .ok true →
          l = [ruleK8s, ruleDocker, ruleSsh])) ∧
    (∀ (v : ContextVector) (l : List Suggestion), getRuleBasedSuggestions H e = .ok l →
      ∀ s ∈ l, s ∈ findRelevantDocumentation H (fun _ => .ok (some [])) v e) := by
  have hrule : ∀ (o : Oracle) (v : ContextVector) (s : Suggestion),
      s ∈ findRelevantDocumentation H o v e → s.type = some "rule-based" →
      s = ruleK8s ∨ s = ruleDocker ∨ s = ruleSsh := by
    intro o v s hs ht
    rcases findRelevantDocumentation_mem H o v e s hs with hnone | ⟨l, hl, hmem⟩
    · rw [hnone] at ht
      cases ht
    · exact getRuleBasedSuggestions_mem H e l s hl hmem
  refine ⟨hrule, ?_, ⟨rfl, rfl, rfl⟩, ?_, ?_⟩
  · intro o1 o2 v1 v2 s1 s2 h1 h2 t1 t2 hid
    rcases hrule o1 v1 s1 h1 t1 with rfl | rfl | rfl <;>
    rcases hrule o2 v2 s2 h2 t2 with rfl | rfl | rfl <;>
    first
      | rfl
      | (simp [ruleK8s, ruleDocker, ruleSsh] at hid)
  · intro text ht
    refine ⟨_, getRuleBasedSuggestions_ok H e text ht, ?_⟩
    simp only [containsKeywords_ok H e text ht, Except.ok.injEq]
    cases textContains H text ["kubectl", "kubernetes", "k8s"] <;>
    cases textContains H text ["docker"] <;>
    cases textContains H text ["error", "failed"] <;>
    cases textContains H text ["ssh"] <;>
    cases textContains H text ["connection", "refused", "timeout"] <;>
    simp [ruleK8s, ruleDocker, ruleSsh]
  · intro v l hl s hs
    rw [findRelevantDocumentation_no_hits H v e l hl, mem_sortWith]
    exact hs

/-! ## The scoring formula -/

theorem strings_any (ks : List String) (kw : String) :
    (ks.map JSVal.str).any (fun x => match x with
      | .str s => decide (s = kw)
      | _ => false) = decide (kw ∈ ks) := by
  induction ks with
  | nil => simp
  | cons k ks ih =>
    simp only [List.map_cons, List.any_cons, ih, List.mem_cons]
    by_cases h : k = kw
    · simp [h]
    · have h2 : ¬ kw = k := fun e => h e.symm
      simp [h, h2]

theorem truthy_str (s : String) : truthy (.str s) = decide (s ≠ "") := by
  cases s with
  | mk data =>
    cases data with
    | nil => rfl
    | cons c cs =>
      simp only [truthy, ne_eq, reduceCtorEq, not_false_eq_true, decide_True]
      have : (String.mk (c :: cs)) ≠ "" := by
        intro h
        have := congrArg String.data h
        simp at this
      simp [this]

theorem getProp_entry_title (d : DocumentationEntry) :
    getProp d.toJSVal "title" = .ok (.str d.title) := rfl

theorem getProp_entry_content (d : DocumentationEntry) :
    getProp d.toJSVal "content" = .ok (.str d.content) := rfl

theorem getProp_entry_tags (d : DocumentationEntry) :
    getProp d.toJSVal "tags" = .ok (nullable strings d.tags) := rfl

theorem getProp_entry_keywords (d : DocumentationEntry) :
    getProp d.toJSVal "keywords" = .ok (nullable strings d.keywords) := rfl

theorem getProp_entry_source (d : DocumentationEntry) :
    getProp d.toJSVal "source" = .ok (.str d.source) := rfl

theorem getProp_entry_category (d : DocumentationEntry) :
    getProp d.toJSVal "category" = .ok (nullable JSVal.str d.category) := rfl

theorem includesVal_nullable (xs : Option (List String)) (kw : String) :
    (if truthy (nullable strings xs) then includesVal (nullable strings xs) kw
      else (pure false : Js Bool)) = .ok (decide (kw ∈ xs.getD [])) := by
  cases xs with
  | none => simp [nullable, truthy, pure, Except.pure]
  | some ks => simp [nullable, strings, truthy, includesVal, strings_any]

theorem fieldIncludes_keywords (d : DocumentationEntry) (kw : String) :
    fieldIncludes d.toJSVal "keywords" kw = .ok (decide (kw ∈ d.keywords.getD [])) := by
  simp only [fieldIncludes, getProp_entry_keywords, bind, Except.bind]
  exact includesVal_nullable d.keywords kw

theorem fieldIncludes_tags (d : DocumentationEntry) (kw : String) :
    fieldIncludes d.toJSVal "tags" kw = .ok (decide (kw ∈ d.tags.getD [])) := by
  simp only [fieldIncludes, getProp_entry_tags, bind, Except.bind]
  exact includesVal_nullable d.tags kw

theorem lowerIncludes_str (H : Host) (s kw : String) :
    (if truthy (.str s) then
        (do let text ← asString (.str s); pure (includes (toLowerCase H text) kw))
      else (pure false : Js Bool))
      = .ok (decide (s ≠ "") && includes (toLowerCase H s) kw) := by
  rw [truthy_str]
  by_cases h : s = "" <;> simp [h, asString, bind, Except.bind, pure, Except.pure]

theorem fieldLowerIncludes_title (H : Host) (d : DocumentationEntry) (kw : String) :
    fieldLowerIncludes H d.toJSVal "title" kw
      = .ok (decide (d.title ≠ "") && includes (toLowerCase H d.title) kw) := by
  simp only [fieldLowerIncludes, getProp_entry_title, bind, Except.bind]
  exact lowerIncludes_str H d.title kw

theorem fieldLowerIncludes_content (H : Host) (d : DocumentationEntry) (kw : String) :
    fieldLowerIncludes H d.toJSVal "content" kw
      = .ok (decide (d.content ≠ "") && includes (toLowerCase H d.content) kw) := by
  simp only [fieldLowerIncludes, getProp_entry_content, bind, Except.bind]
  exact lowerIncludes_str H d.content kw

/-- One turn of the scoring loop on an indexed document: the score grows by the
weight times the coefficient of each test that holds, the count by their number. -/
theorem scoreKeyword_entry (H : Host) (V : ContextVector) (d : DocumentationEntry)
    (acc : JSNum × Nat) (kw : String) :
    scoreKeyword H V d.toJSVal acc kw = .ok
      ((fieldTests H d kw).foldl (fun a t =>
          if t.1 then JSNum.add a (JSNum.mul (toNumber H (getOwn V kw)) (.fin t.2)) else a)
          acc.1,
       acc.2 + ((fieldTests H d kw).filter (fun t => t.1)).length) := by
  simp only [scoreKeyword, fieldIncludes_keywords, fieldIncludes_tags,
    fieldLowerIncludes_title, fieldLowerIncludes_content, bind, Except.bind, pure,
    Except.pure, fieldTests]
  generalize decide (kw ∈ d.keywords.getD []) = b1
  generalize decide (kw ∈ d.tags.getD []) = b2
  generalize (decide (d.title ≠ "") && includes (toLowerCase H d.title) kw) = b3
  generalize (decide (d.content ≠ "") && includes (toLowerCase H d.content) kw) = b4
  cases b1 <;> cases b2 <;> cases b3 <;> cases b4 <;> simp [Nat.add_assoc]

/-- The scoring loop on an indexed document returns the sum `A` and the count `M`
of the formula, started from any pair. -/
theorem scoreLoop_entry (H : Host) (V : ContextVector) (d : DocumentationEntry)
    (ks : List String) (acc : JSNum × Nat) :
    ks.foldlM (scoreKeyword H V d.toJSVal) acc = .ok
      (ks.foldl (fun a keyword =>
          (fieldTests H d keyword).foldl (fun a t =>
            if t.1 then JSNum.add a (JSNum.mul (toNumber H (getOwn V keyword)) (.fin t.2))
            else a) a) acc.1,
       ks.foldl (fun m keyword =>
          m + ((fieldTests H d keyword).filter (fun t => t.1)).length) acc.2) := by
  induction ks generalizing acc with
  | nil => rfl
  | cons k ks ih =>
    rw [List.foldlM_cons, scoreKeyword_entry]
    simp only [bind, Except.bind]
    rw [ih]
    rfl

/-- C11, amended. On an indexed document `calculateRelevanceScore` returns the
value of the formula `min(((A * M * oracleScore) / 100) / |V|, 1)`, where `A` adds,
over the keywords of the vector, the weight times 0.4 if the keyword is in the
document's keywords, times 0.3 if it is in its tags, times 0.2 if the title is not
empty and its lower-cased text contains the keyword, times 0.1 if the content is
not empty and its lower-cased text contains the keyword, `M` counts those field
matches and `|V|` is the number of keywords of the vector. -/
theorem relevance_formula (H : Host) (V : ContextVector) (d : DocumentationEntry)
    (oracleScore : JSNum) :
    calculateRelevanceScore H V d.toJSVal oracleScore
      = .ok (formulaScore H V (fieldTests H d) oracleScore) := by
  simp only [calculateRelevanceScore, scoreLoop_entry, bind, Except.bind, pure, Except.pure]
  rfl

/-- C11, as stated, fails. (1) For the vector `{ docker: 3 }`, a document whose
content is "Docker build errors" and the oracle score 100, the content does not
contain "docker", so the stated formula gives 0, while `calculateRelevanceScore`
lower-cases the content and returns 0.3. (2) For the vector with the empty keyword
(the extension of a path segment that ends in a dot), a document with an empty
title and the oracle score 100, the stated formula counts the title and gives 0.6,
while `calculateRelevanceScore` skips the empty title and returns 0.1. -/
theorem stated_formula_differs :
    (calculateRelevanceScore asciiHost [("docker", .num (.fin 3))]
        (DocumentationEntry.toJSVal
          ⟨"Containers", "Docker build errors", none, none, none, 5, "wiki", "2024-01-01"⟩)
        (.fin 100) = .ok (.fin (3 / 10)) ∧
      formulaScore asciiHost [("docker", .num (.fin 3))]
        (statedFieldTests asciiHost
          ⟨"Containers", "Docker build errors", none, none, none, 5, "wiki", "2024-01-01"⟩)
        (.fin 100) = .fin 0) ∧
    (calculateRelevanceScore asciiHost [("", .num (.fin 1))]
        (DocumentationEntry.toJSVal
          ⟨"", "notes", none, none, none, 5, "wiki", "2024-01-01"⟩)
        (.fin 100) = .ok (.fin (1 / 10)) ∧
      formulaScore asciiHost [("", .num (.fin 1))]
        (statedFieldTests asciiHost
          ⟨"", "notes", none, none, none, 5, "wiki", "2024-01-01"⟩)
        (.fin 100) = .fin (3 / 5)) := by
  refine ⟨⟨?_, ?_⟩, ?_, ?_⟩ <;> decide!

/-! ## The matched keywords -/

/-- When a turn of the scoring loop returns, the condition of `findMatchedKeywords`
returns too, and it holds exactly when the turn raised the match count. -/
theorem scoreKeyword_matches (H : Host) (V : ContextVector) (doc : JSVal)
    (acc acc2 : JSNum × Nat) (kw : String)
    (h : scoreKeyword H V doc acc kw = .ok acc2) :
    matchesDocument H doc kw = .ok (matchesAny H doc kw) ∧ acc.2 ≤ acc2.2 ∧
      (matchesAny H doc kw = true ↔ acc.2 < acc2.2) := by
  unfold scoreKeyword at h
  unfold matchesAny matchesDocument
  cases h1 : fieldIncludes doc "keywords" kw with
  | error e1 => simp [h1, bind, Except.bind] at h
  | ok b1 =>
    cases h2 : fieldIncludes doc "tags" kw with
    | error e2 => cases b1 <;> simp [h1, h2, bind, Except.bind, pure, Except.pure] at h
    | ok b2 =>
      cases h3 : fieldLowerIncludes H doc "title" kw with
      | error e3 =>
        cases b1 <;> cases b2 <;> simp [h1, h2, h3, bind, Except.bind, pure, Except.pure] at h
      | ok b3 =>
        cases h4 : fieldLowerIncludes H doc "content" kw with
        | error e4 =>
          cases b1 <;> cases b2 <;> cases b3 <;>
            simp [h1, h2, h3, h4, bind, Except.bind, pure, Except.pure] at h
        | ok b4 =>
          cases b1 <;> cases b2 <;> cases b3 <;> cases b4 <;>
            simp [h1, h2, h3, h4, bind, Except.bind, pure, Except.pure] at h ⊢ <;>
            (subst h; simp) <;> omega

/-- When the scoring loop returns on a list of keywords, the loop of
`findMatchedKeywords` returns the keywords that pass its condition, and the match
count grew exactly if there is one. -/
theorem scoreLoop_matches (H : Host) (V : ContextVector) (doc : JSVal)
    (ks : List String) (acc acc2 : JSNum × Nat)
    (h : ks.foldlM (scoreKeyword H V doc) acc = .ok acc2) :
    (∀ matched : List String,
      ks.foldlM (fun matched keyword => do
          if ← matchesDocument H doc keyword then pure (matched ++ [keyword])
          else pure matched) matched
        = .ok (matched ++ ks.filter (matchesAny H doc))) ∧
      acc.2 ≤ acc2.2 ∧ (ks.filter (matchesAny H doc) ≠ [] ↔ acc.2 < acc2.2) := by
  induction ks generalizing acc with
  | nil =>
    rw [List.foldlM_nil] at h
    cases h
    simp [pure, Except.pure]
  | cons k ks ih =>
    rw [List.foldlM_cons] at h
    cases hk : scoreKeyword H V doc acc k with
    | error err =>
      rw [hk] at h
      cases h
    | ok acc1 =>
      rw [hk] at h
      obtain ⟨hm, hle, hiff⟩ := scoreKeyword_matches H V doc acc acc1 k hk
      obtain ⟨ih1, ih2, ih3⟩ := ih acc1 h
      refine ⟨?_, Nat.le_trans hle ih2, ?_⟩
      · intro matched
        rw [List.foldlM_cons, hm]
        cases hb : matchesAny H doc k
        · refine (ih1 matched).trans ?_
          simp [List.filter_cons, hb]
        · refine (ih1 (matched ++ [k])).trans ?_
          simp [List.filter_cons, hb]
      · cases hb : matchesAny H doc k
        · have : ¬ acc.2 < acc1.2 := fun hlt => by
            have := hiff.mpr hlt
            rw [hb] at this
            cases this
          simp only [List.filter_cons, hb, Bool.false_eq_true, if_false]
          rw [ih3]
          omega
        · have := hiff.mp hb
          simp only [List.filter_cons, hb, if_true]
          constructor
          · intro _
            omega
          · intro _
            simp

/-- C12. (1) For every vector and every document on which the scoring loop of
`calculateRelevanceScore` returns a score and a match count, `findMatchedKeywords`
returns the keywords of the vector that pass its condition, in the order of the
vector, and that list is non-empty exactly when the match count is positive.
(2) On an indexed document the scoring loop returns, and a keyword passes the
condition exactly when it is in the document's keywords, or in its tags, or the
non-empty lower-cased title contains it, or the non-empty lower-cased content
contains it. (3) The keywords of a vector being distinct, each keyword is
returned once. -/
theorem matched_keywords_exact (H : Host) (V : ContextVector) :
    (∀ (doc : JSVal) (score : JSNum) (matchCount : Nat),
      (keys V).foldlM (scoreKeyword H V doc) (JSNum.fin 0, 0) = .ok (score, matchCount) →
      findMatchedKeywords H V doc = .ok ((keys V).filter (matchesAny H doc)) ∧
        ((keys V).filter (matchesAny H doc) ≠ [] ↔ 0 < matchCount)) ∧
    (∀ d : DocumentationEntry,
      (keys V).foldlM (scoreKeyword H V d.toJSVal) (JSNum.fin 0, 0)
        = .ok (formulaA H V (fieldTests H d), formulaM V (fieldTests H d)) ∧
      ∀ kw, matchesAny H d.toJSVal kw = true ↔
        (kw ∈ d.keywords.getD [] ∨ kw ∈ d.tags.getD [] ∨
          (d.title ≠ "" ∧ includes (toLowerCase H d.title) kw = true) ∨
          (d.content ≠ "" ∧ includes (toLowerCase H d.content) kw = true))) ∧
    ((keys V).Nodup → ∀ doc : JSVal, ((keys V).filter (matchesAny H doc)).Nodup) := by
  refine ⟨?_, ?_, ?_⟩
  · intro doc score matchCount h
    obtain ⟨h1, _, h3⟩ := scoreLoop_matches H V doc (keys V) _ _ h
    refine ⟨?_, h3⟩
    have := h1 []
    simpa [findMatchedKeywords] using this
  · intro d
    refine ⟨scoreLoop_entry H V d (keys V) _, ?_⟩
    intro kw
    simp only [matchesAny, matchesDocument, fieldIncludes_keywords, fieldIncludes_tags,
      fieldLowerIncludes_title, fieldLowerIncludes_content, bind, Except.bind, pure,
      Except.pure]
    by_cases h1 : kw ∈ d.keywords.getD [] <;> by_cases h2 : kw ∈ d.tags.getD [] <;>
      by_cases h3 : d.title = "" <;> by_cases h4 : d.content = "" <;>
      cases includes (toLowerCase H d.title) kw <;>
      cases includes (toLowerCase H d.content) kw <;> simp [h1, h2, h3, h4]
  · intro hnd doc
    exact hnd.filter _

/-! ## Keyword extraction -/

theorem mem_addKeyword (ks : List String) (k kw : String) :
    kw ∈ addKeyword ks k ↔ kw ∈ ks ∨ kw = k := by
  unfold addKeyword
  split
  · constructor
    · exact Or.inl
    · rintro (h | h)
      · exact h
      · subst h
        assumption
  · simp

/-- A pure loop whose turns add keywords that depend on the element only adds,
over the list, the keywords of its elements. -/
theorem foldl_contrib {α : Type} (g : List String → α → List String)
    (c : α → List String)
    (hg : ∀ ks x kw, kw ∈ g ks x ↔ kw ∈ ks ∨ kw ∈ c x)
    (xs : List α) (ks : List String) (kw : String) :
    kw ∈ xs.foldl g ks ↔ kw ∈ ks ∨ ∃ x ∈ xs, kw ∈ c x := by
  induction xs generalizing ks with
  | nil => simp
  | cons x xs ih =>
    rw [List.foldl_cons, ih, hg]
    simp only [List.mem_cons, exists_eq_or_imp]
    tauto

/-- The same for a loop whose turns may throw, when the loop returns. -/
theorem foldlM_contrib {α : Type} (g : List String → α → Js (List String))
    (c : α → List String)
    (hg : ∀ ks x ks2, g ks x = .ok ks2 → ∀ kw, kw ∈ ks2 ↔ kw ∈ ks ∨ kw ∈ c x)
    (xs : List α) (ks ks2 : List String) (h : xs.foldlM g ks = .ok ks2) (kw : String) :
    kw ∈ ks2 ↔ kw ∈ ks ∨ ∃ x ∈ xs, kw ∈ c x := by
  induction xs generalizing ks with
  | nil =>
    rw [List.foldlM_nil] at h
    cases h
    simp
  | cons x xs ih =>
    rw [List.foldlM_cons] at h
    cases hx : g ks x with
    | error err =>
      rw [hx] at h
      cases h
    | ok ks1 =>
      rw [hx] at h
      rw [ih ks1 h, hg ks x ks1 hx]
      simp only [List.mem_cons, exists_eq_or_imp]
      tauto

/-- A loop whose turns return on every element of the list returns. -/
theorem foldlM_returns {α : Type} (g : List String → α → Js (List String))
    (xs : List α) (hg : ∀ x ∈ xs, ∀ ks, ∃ ks2, g ks x = .ok ks2) (ks : List String) :
    ∃ ks2, xs.foldlM g ks = .ok ks2 := by
  induction xs generalizing ks with
  | nil => exact ⟨ks, rfl⟩
  | cons x xs ih =>
    obtain ⟨ks1, h1⟩ := hg x (List.mem_cons_self _ _) ks
    obtain ⟨ks2, h2⟩ := ih (fun y hy => hg y (List.mem_cons_of_mem _ hy)) ks1
    refine ⟨ks2, ?_⟩
    rw [List.foldlM_cons, h1]
    exact h2

/-- Lower-casing leaves each name of the catalogue as it is. -/
theorem toLowerCase_pattern (H : Host) (p : String) (hp : p ∈ devopsPatterns) :
    toLowerCase H p = p := by
  simp only [devopsPatterns, List.mem_cons, List.mem_singleton, List.not_mem_nil,
    or_false] at hp
  rcases hp with h | h | h | h | h | h | h | h | h | h | h | h | h | h | h | h | h | h | h | h <;>
    (subst h; rfl)

theorem mem_commandKeywords (H : Host) (text kw : String) :
    kw ∈ commandKeywords H text ↔
      (∃ token ∈ H.tokenize (toLowerCase H text),
        token.length > 2 ∧ isStopWord H token = false ∧ kw = H.stem token) ∨
      (kw ∈ devopsPatterns ∧ includes text kw = true) := by
  simp only [commandKeywords, List.mem_append, List.mem_map, List.mem_filter,
    Bool.and_eq_true, decide_eq_true_eq, Bool.not_eq_true']
  constructor
  · rintro (⟨t, ⟨ht, h1, h2⟩, rfl⟩ | h)
    · exact Or.inl ⟨t, ht, h1, h2, rfl⟩
    · exact Or.inr h
  · rintro (⟨t, ht, h1, h2, rfl⟩ | h)
    · exact Or.inl ⟨t, ⟨ht, h1, h2⟩, rfl⟩
    · exact Or.inr h

/-- What a turn of the loop over `commands` adds. -/
theorem extractFromCommand_contrib (H : Host) (ks : List String) (x : JSVal)
    (ks2 : List String) (h : extractFromCommand H ks x = .ok ks2) (kw : String) :
    kw ∈ ks2 ↔ kw ∈ ks ∨ kw ∈ commandContribution H x := by
  cases x with
  | str text =>
    simp only [extractFromCommand, asString, bind, Except.bind, pure, Except.pure,
      Except.ok.injEq] at h
    subst h
    rw [foldl_contrib _ (fun p => if includes text p then [toLowerCase H p] else []),
      foldl_contrib _ (fun t => if decide (t.length > 2) && !isStopWord H t
        then [H.stem t] else [])]
    · simp only [commandContribution, mem_commandKeywords]
      constructor
      · rintro ((h | ⟨t, ht, hk⟩) | ⟨p, hp, hk⟩)
        · exact Or.inl h
        · split at hk
          · rename_i hc
            simp only [Bool.and_eq_true, decide_eq_true_eq, Bool.not_eq_true'] at hc
            exact Or.inr (Or.inl ⟨t, ht, hc.1, hc.2, List.mem_singleton.mp hk⟩)
          · cases hk
        · split at hk
          · rename_i hc
            have := List.mem_singleton.mp hk
            rw [toLowerCase_pattern H p hp] at this
            subst this
            exact Or.inr (Or.inr ⟨hp, hc⟩)
          · cases hk
      · rintro (h | ⟨t, ht, h1, h2, rfl⟩ | ⟨hp, hc⟩)
        · exact Or.inl (Or.inl h)
        · refine Or.inl (Or.inr ⟨t, ht, ?_⟩)
          simp [h1, h2]
        · refine Or.inr ⟨kw, hp, ?_⟩
          simp [hc, toLowerCase_pattern H kw hp]
    · intro ks x kw
      split <;> simp [mem_addKeyword]
    · intro ks x kw
      split <;> simp [mem_addKeyword]
  | _ => simp [extractFromCommand, asString, bind, Except.bind] at h

theorem extractFromPathToken_contrib (H : Host) (ks : List String) (segment kw : String) :
    kw ∈ extractFromPathToken H ks segment ↔ kw ∈ ks ∨
      kw ∈ (if includes segment "." then [extensionOf segment] else [])
        ++ [toLowerCase H segment] := by
  unfold extractFromPathToken
  split <;> simp [mem_addKeyword, extensionOf, or_assoc]

/-- What a turn of the loop over `files` adds. -/
theorem extractFromFile_contrib (H : Host) (ks : List String) (x : JSVal)
    (ks2 : List String) (h : extractFromFile H ks x = .ok ks2) (kw : String) :
    kw ∈ ks2 ↔ kw ∈ ks ∨ kw ∈ fileContribution H x := by
  unfold extractFromFile at h
  by_cases ht : truthy x = true
  · cases x with
    | str path =>
      simp only [ht, if_true, asString, bind, Except.bind, pure, Except.pure,
        Except.ok.injEq] at h
      subst h
      rw [foldl_contrib _ _ (extractFromPathToken_contrib H)]
      simp [fileContribution, pathKeywords, List.mem_flatMap]
    | _ => simp [ht, asString, bind, Except.bind] at h
  · simp only [ht, Bool.false_eq_true, if_false, pure, Except.pure, Except.ok.injEq] at h
    subst h
    cases x with
    | str path =>
      have hp : path = "" := by
        rw [truthy_str] at ht
        simpa using ht
      subst hp
      simp [fileContribution, pathKeywords, split, splitChars]
    | _ => simp [fileContribution]

/-- What a turn of the loop over `processes` adds. -/
theorem extractFromProcess_contrib (H : Host) (ks : List String) (x : JSVal)
    (ks2 : List String) (h : extractFromProcess H ks x = .ok ks2) (kw : String) :
    kw ∈ ks2 ↔ kw ∈ ks ∨ kw ∈ processContribution H x := by
  unfold extractFromProcess at h
  unfold processContribution
  cases hc : getProp x "command" with
  | error err => simp [hc, bind, Except.bind] at h
  | ok command =>
    simp only [hc, bind, Except.bind] at h
    by_cases ht : truthy command = true
    · cases command with
      | str text =>
        have hne : text ≠ "" := by
          rw [truthy_str] at ht
          simpa using ht
        simp only [ht, if_true, asString, pure, Except.pure, Except.ok.injEq] at h
        subst h
        simp [mem_addKeyword, hne, beforeFirstSpace]
      | _ => simp [ht, asString] at h
    · simp only [ht, Bool.false_eq_true, if_false, pure, Except.pure, Except.ok.injEq] at h
      subst h
      cases command with
      | str text =>
        have hp : text = "" := by
          rw [truthy_str] at ht
          simpa using ht
        simp [hp]
      | _ => simp

/-- What a turn of the loop over `entries` adds. -/
theorem extractFromEntry_contrib (ks : List String) (x : JSVal)
    (ks2 : List String) (h : extractFromEntry ks x = .ok ks2) (kw : String) :
    kw ∈ ks2 ↔ kw ∈ ks ∨ kw ∈ entryContribution x := by
  unfold extractFromEntry at h
  unfold entryContribution
  cases hc : getProp x "message" with
  | error err => simp [hc, bind, Except.bind] at h
  | ok message =>
    simp only [hc, bind, Except.bind] at h
    by_cases ht : truthy message = true
    · cases message with
      | str text =>
        simp only [ht, if_true, asString, pure, Except.pure, Except.ok.injEq] at h
        subst h
        rw [foldl_contrib _ (fun p => if matchesIgnoreCase text p
          then ["troubleshooting", "error"] else [])]
        · simp only [messageMatches, List.any_eq_true]
          constructor
          · rintro (h | ⟨p, hp, hk⟩)
            · exact Or.inl h
            · split at hk
              · rename_i hm
                rw [if_pos ⟨p, hp, hm⟩]
                exact Or.inr hk
              · cases hk
          · rintro (h | h)
            · exact Or.inl h
            · split at h
              · rename_i hm
                obtain ⟨p, hp, hpm⟩ := hm
                exact Or.inr ⟨p, hp, by rw [if_pos hpm]; exact h⟩
              · cases h
        · intro ks x kw
          split <;> simp [mem_addKeyword, or_assoc]
      | _ => simp [ht, asString] at h
    · simp only [ht, Bool.false_eq_true, if_false, pure, Except.pure, Except.ok.injEq] at h
      subst h
      cases message with
      | str text =>
        have hp : text = "" := by
          rw [truthy_str] at ht
          simpa using ht
        subst hp
        have : messageMatches "" = false := by
          simp only [messageMatches, matchesIgnoreCase, String.map_eq]
          decide
        simp [this]
      | _ => simp

theorem bind_ite {α β : Type} (c : Prop) [Decidable c] (a b : Js α) (k : α → Js β) :
    (if c then a else b) >>= k = if c then a >>= k else b >>= k := by
  split <;> rfl

/-- The method `extractKeywords` is its four blocks in sequence. -/
theorem extractKeywords_stages (H : Host) (e : JSVal) :
    extractKeywords H e = (do
      let commands ← getProp e "commands"
      let ks ← commandsStage H commands []
      let file ← getProp e "file"
      let filesProp ← getProp e "files"
      let ks ← filesStage H file filesProp ks
      let processes ← getProp e "processes"
      let ks ← processesStage H processes ks
      let entries ← getProp e "entries"
      entriesStage entries ks) := by
  simp only [extractKeywords, commandsStage, filesStage, processesStage, entriesStage,
    bind_ite, bind_assoc, pure_bind]

/-- A block of the form `if (v) v.forEach(...)`, when it returns, adds the
keywords of the elements of `v`. -/
theorem forEach_contrib (g : List String → JSVal → Js (List String))
    (c : JSVal → List String)
    (hg : ∀ ks x ks2, g ks x = .ok ks2 → ∀ kw, kw ∈ ks2 ↔ kw ∈ ks ∨ kw ∈ c x)
    (v : JSVal) (ks ks2 : List String)
    (h : (if truthy v then (do let xs ← asArray v; xs.foldlM g ks) else pure ks) = .ok ks2)
    (kw : String) : kw ∈ ks2 ↔ kw ∈ ks ∨ ∃ x ∈ arrayElems v, kw ∈ c x := by
  by_cases ht : truthy v = true
  · cases v with
    | arr xs =>
      simp only [ht, if_true, asArray, bind, Except.bind] at h
      exact foldlM_contrib g c hg xs ks ks2 h kw
    | _ => simp [ht, asArray, bind, Except.bind] at h
  · simp only [ht, Bool.false_eq_true, if_false, pure, Except.pure, Except.ok.injEq] at h
    subst h
    cases v <;> first
      | (simp [truthy] at ht; done)
      | simp [arrayElems]

theorem fileContribution_falsy (H : Host) (x : JSVal) (h : truthy x = false) :
    fileContribution H x = [] := by
  cases x with
  | str path =>
    have hp : path = "" := by
      rw [truthy_str] at h
      simpa using h
    subst hp
    simp [fileContribution, pathKeywords, split, splitChars]
  | _ => rfl

theorem filesStage_contrib (H : Host) (file filesProp : JSVal) (ks ks2 : List String)
    (h : filesStage H file filesProp ks = .ok ks2) (kw : String) :
    kw ∈ ks2 ↔ kw ∈ ks ∨ ∃ x ∈ effectiveFiles file filesProp, kw ∈ fileContribution H x := by
  unfold filesStage at h
  by_cases ht : (truthy file || truthy filesProp) = true
  · simp only [ht, if_true] at h
    exact foldlM_contrib _ _ (extractFromFile_contrib H) _ ks ks2 h kw
  · simp only [ht, Bool.false_eq_true, if_false, pure, Except.pure, Except.ok.injEq] at h
    subst h
    simp only [Bool.or_eq_true, not_or, Bool.not_eq_true] at ht
    cases filesProp <;> first
      | (simp [truthy] at ht; done)
      | simp [effectiveFiles, fileContribution_falsy H file ht.1]

/-- When `extractKeywords` returns, a keyword is in the list exactly when an
element of `commands`, of the files, of `processes` or of `entries` yields it. -/
theorem extractKeywords_contrib (H : Host) (e : JSVal) (ks : List String)
    (h : extractKeywords H e = .ok ks) (kw : String) :
    kw ∈ ks ↔
      (∃ x ∈ arrayElems (propOf e "commands"), kw ∈ commandContribution H x) ∨
      (∃ x ∈ filesOf e, kw ∈ fileContribution H x) ∨
      (∃ x ∈ arrayElems (propOf e "processes"), kw ∈ processContribution H x) ∨
      (∃ x ∈ arrayElems (propOf e "entries"), kw ∈ entryContribution x) := by
  rw [extractKeywords_stages] at h
  cases h1 : getProp e "commands" with
  | error err => simp [h1, bind, Except.bind] at h
  | ok commands =>
  cases h2 : commandsStage H commands [] with
  | error err => simp [h1, h2, bind, Except.bind] at h
  | ok ks1 =>
  cases h3 : getProp e "file" with
  | error err => simp [h1, h2, h3, bind, Except.bind] at h
  | ok file =>
  cases h4 : getProp e "files" with
  | error err => simp [h1, h2, h3, h4, bind, Except.bind] at h
  | ok filesProp =>
  cases h5 : filesStage H file filesProp ks1 with
  | error err => simp [h1, h2, h3, h4, h5, bind, Except.bind] at h
  | ok ks2 =>
  cases h6 : getProp e "processes" with
  | error err => simp [h1, h2, h3, h4, h5, h6, bind, Except.bind] at h
  | ok processes =>
  cases h7 : processesStage H processes ks2 with
  | error err => simp [h1, h2, h3, h4, h5, h6, h7, bind, Except.bind] at h
  | ok ks3 =>
  cases h8 : getProp e "entries" with
  | error err => simp [h1, h2, h3, h4, h5, h6, h7, h8, bind, Except.bind] at h
  | ok entries =>
  simp only [h1, h2, h3, h4, h5, h6, h7, h8, bind, Except.bind] at h
  have c1 := forEach_contrib _ _ (extractFromCommand_contrib H) commands [] ks1 h2 kw
  have c2 := filesStage_contrib H file filesProp ks1 ks2 h5 kw
  have c3 := forEach_contrib _ _ (extractFromProcess_contrib H) processes ks2 ks3 h7 kw
  have c4 := forEach_contrib _ _ extractFromEntry_contrib entries ks3 ks h kw
  have hf : filesOf e = effectiveFiles file filesProp := by
    simp only [filesOf, propOf, h3, h4]
  rw [c4, c3, c2, c1, hf]
  simp only [propOf, h1, h6, h8, List.not_mem_nil, false_or]
  constructor
  · rintro (((h | h) | h) | h)
    · exact Or.inl h
    · exact Or.inr (Or.inl h)
    · exact Or.inr (Or.inr (Or.inl h))
    · exact Or.inr (Or.inr (Or.inr h))
  · rintro (h | h | h | h)
    · exact Or.inl (Or.inl (Or.inl h))
    · exact Or.inl (Or.inl (Or.inr h))
    · exact Or.inl (Or.inr h)
    · exact Or.inr h

theorem getProp_obj (props : List (String × JSVal)) (k : String) :
    getProp (.obj props) k = .ok (propOf (.obj props) k) := by
  simp only [propOf, getProp]
  cases lookupProp k props <;> rfl

theorem propOf_obj_some (props : List (String × JSVal)) (k : String) (v : JSVal)
    (h : lookupProp k props = some v) : propOf (.obj props) k = v := by
  simp [propOf, getProp, h]

theorem propOf_obj_none (props : List (String × JSVal)) (k : String)
    (h : lookupProp k props = none) (hk : k ∉ objectProtoNames) :
    propOf (.obj props) k = .undefined := by
  simp [propOf, getProp, h, hk]

/-- On an event object `extractKeywords` is its four blocks on the values of the
five properties it reads. -/
theorem extractKeywords_obj (H : Host) (props : List (String × JSVal)) :
    extractKeywords H (.obj props) = (do
      let ks ← commandsStage H (propOf (.obj props) "commands") []
      let ks ← filesStage H (propOf (.obj props) "file") (propOf (.obj props) "files") ks
      let ks ← processesStage H (propOf (.obj props) "processes") ks
      entriesStage (propOf (.obj props) "entries") ks) := by
  rw [extractKeywords_stages]
  simp only [getProp_obj, bind, Except.bind]

theorem commandsStage_returns (H : Host) (cmds : List JSVal) (ks : List String)
    (h : ∀ x ∈ cmds, ∃ text, x = .str text) :
    ∃ ks2, commandsStage H (.arr cmds) ks = .ok ks2 := by
  simp only [commandsStage, truthy, if_true, asArray, bind, Except.bind]
  refine foldlM_returns _ cmds ?_ ks
  intro x hx ks1
  obtain ⟨text, rfl⟩ := h x hx
  exact ⟨_, rfl⟩

theorem processesStage_returns (H : Host) (ps : List JSVal) (ks : List String)
    (h : ∀ x ∈ ps, ∃ v, getProp x "command" = .ok v ∧ (truthy v = false ∨ ∃ c, v = .str c)) :
    ∃ ks2, processesStage H (.arr ps) ks = .ok ks2 := by
  simp only [processesStage, truthy, if_true, asArray, bind, Except.bind]
  refine foldlM_returns _ ps ?_ ks
  intro x hx ks1
  obtain ⟨v, hv, hcase⟩ := h x hx
  rcases hcase with hf | ⟨c, rfl⟩
  · exact ⟨ks1, by simp [extractFromProcess, hv, hf, bind, Except.bind, pure, Except.pure]⟩
  · by_cases ht : truthy (.str c) = true
    · simp only [extractFromProcess, hv, ht, asString, bind, Except.bind, if_true]
      exact ⟨_, rfl⟩
    · exact ⟨ks1, by simp [extractFromProcess, hv, ht, bind, Except.bind, pure, Except.pure]⟩

theorem entriesStage_returns (es : List JSVal) (ks : List String)
    (h : ∀ x ∈ es, ∃ v, getProp x "message" = .ok v ∧ (truthy v = false ∨ ∃ m, v = .str m)) :
    ∃ ks2, entriesStage (.arr es) ks = .ok ks2 := by
  simp only [entriesStage, truthy, if_true, asArray, bind, Except.bind]
  refine foldlM_returns _ es ?_ ks
  intro x hx ks1
  obtain ⟨v, hv, hcase⟩ := h x hx
  rcases hcase with hf | ⟨c, rfl⟩
  · exact ⟨ks1, by simp [extractFromEntry, hv, hf, bind, Except.bind, pure, Except.pure]⟩
  · by_cases ht : truthy (.str c) = true
    · simp only [extractFromEntry, hv, ht, asString, bind, Except.bind, if_true]
      exact ⟨_, rfl⟩
    · exact ⟨ks1, by simp [extractFromEntry, hv, ht, bind, Except.bind, pure, Except.pure]⟩

theorem filesStage_returns (H : Host) (file filesProp : JSVal) (ks : List String)
    (h : ∀ x ∈ effectiveFiles file filesProp, truthy x = false ∨ ∃ p, x = .str p) :
    ∃ ks2, filesStage H file filesProp ks = .ok ks2 := by
  unfold filesStage
  split
  · refine foldlM_returns _ _ ?_ ks
    intro x hx ks1
    rcases h x hx with hf | ⟨p, rfl⟩
    · exact ⟨ks1, by simp [extractFromFile, hf, pure, Except.pure]⟩
    · by_cases ht : truthy (.str p) = true
      · simp only [extractFromFile, ht, asString, bind, Except.bind, if_true]
        exact ⟨_, rfl⟩
      · exact ⟨ks1, by simp [extractFromFile, ht, pure, Except.pure]⟩
  · exact ⟨ks, rfl⟩

theorem propOf_readField_none (props : List (String × JSVal)) (k : String)
    (hk : k ∈ readFields) (h : lookupProp k props = none) :
    propOf (.obj props) k = .undefined := by
  refine propOf_obj_none props k h ?_
  simp only [readFields, List.mem_cons, List.mem_singleton, List.not_mem_nil, or_false] at hk
  rcases hk with h | h | h | h | h <;> (subst h; decide)

/-- An event with one property has no other. -/
theorem single_property (field : String) (v : JSVal) (fields : List String) :
    ∀ k ∈ fields, k ≠ field → lookupProp k [(field, v)] = none := by
  intro k _ hne
  simp [lookupProp, Ne.symm hne]

theorem fileContribution_undefined (H : Host) (kw : String) :
    ¬ ∃ x ∈ effectiveFiles .undefined .undefined, kw ∈ fileContribution H x := by
  simp [effectiveFiles, fileContribution]

/-- The keywords of an event whose only read property is the array `commands`. -/
theorem commands_only_mem (H : Host) (props : List (String × JSVal)) (cmds : List JSVal)
    (hc : lookupProp "commands" props = some (.arr cmds))
    (hrest : ∀ k ∈ readFields, k ≠ "commands" → lookupProp k props = none)
    (ks : List String) (h : extractKeywords H (.obj props) = .ok ks) (kw : String) :
    kw ∈ ks ↔ ∃ text, JSVal.str text ∈ cmds ∧ kw ∈ commandKeywords H text := by
  have hcmd : propOf (.obj props) "commands" = .arr cmds := propOf_obj_some _ _ _ hc
  have hfile := propOf_readField_none props "file" (by decide) (hrest _ (by decide) (by decide))
  have hfiles := propOf_readField_none props "files" (by decide) (hrest _ (by decide) (by decide))
  have hproc := propOf_readField_none props "processes" (by decide)
    (hrest _ (by decide) (by decide))
  have hent := propOf_readField_none props "entries" (by decide)
    (hrest _ (by decide) (by decide))
  rw [extractKeywords_contrib H _ ks h kw, hcmd, hproc, hent, filesOf, hfile, hfiles]
  simp only [arrayElems, List.not_mem_nil, false_and, exists_false, or_false]
  constructor
  · rintro (⟨x, hx, hkw⟩ | hf)
    · cases x with
      | str text => exact ⟨text, hx, hkw⟩
      | _ => simp [commandContribution] at hkw
    · exact absurd hf (fileContribution_undefined H kw)
  · rintro ⟨text, hx, hkw⟩
    exact Or.inl ⟨_, hx, hkw⟩

theorem commands_only_returns (H : Host) (props : List (String × JSVal)) (cmds : List JSVal)
    (hc : lookupProp "commands" props = some (.arr cmds))
    (hrest : ∀ k ∈ readFields, k ≠ "commands" → lookupProp k props = none)
    (hall : ∀ x ∈ cmds, ∃ text, x = .str text) :
    ∃ ks, extractKeywords H (.obj props) = .ok ks := by
  have hcmd : propOf (.obj props) "commands" = .arr cmds := propOf_obj_some _ _ _ hc
  have hfile := propOf_readField_none props "file" (by decide) (hrest _ (by decide) (by decide))
  have hfiles := propOf_readField_none props "files" (by decide) (hrest _ (by decide) (by decide))
  have hproc := propOf_readField_none props "processes" (by decide)
    (hrest _ (by decide) (by decide))
  have hent := propOf_readField_none props "entries" (by decide)
    (hrest _ (by decide) (by decide))
  obtain ⟨ks, hks⟩ := commandsStage_returns H cmds [] hall
  refine ⟨ks, ?_⟩
  rw [extractKeywords_obj, hcmd, hfile, hfiles, hproc, hent, hks]
  rfl

/-- C13. For an event whose only read property is the array `commands`, a keyword
is returned exactly when it is, for some command of the array, the stem of a token
of the lower-cased command that is longer than 2 and is no stop word, or a name of
the tool catalogue that occurs in the command; shorter tokens and stop words give
nothing.  The call returns when every command is a string. -/
theorem commands_only_keywords (H : Host) (props : List (String × JSVal))
    (cmds : List JSVal)
    (hc : lookupProp "commands" props = some (.arr cmds))
    (hrest : ∀ k ∈ readFields, k ≠ "commands" → lookupProp k props = none) :
    (∀ ks, extractKeywords H (.obj props) = .ok ks → ∀ kw, kw ∈ ks ↔
      ∃ text, JSVal.str text ∈ cmds ∧
        ((∃ token ∈ H.tokenize (toLowerCase H text),
            token.length > 2 ∧ isStopWord H token = false ∧ kw = H.stem token) ∨
          (kw ∈ devopsPatterns ∧ includes text kw = true))) ∧
    ((∀ x ∈ cmds, ∃ text, x = .str text) →
      ∃ ks, extractKeywords H (.obj props) = .ok ks) := by
  refine ⟨?_, commands_only_returns H props cmds hc hrest⟩
  intro ks h kw
  rw [commands_only_mem H props cmds hc hrest ks h kw]
  simp only [mem_commandKeywords]

/-- C13 at the event `{ commands: ["kubectl get pods"] }`. -/
theorem commands_only_keywords_witness :
    (∀ ks, extractKeywords asciiHost (.obj [("commands", .arr [.str "kubectl get pods"])])
        = .ok ks → ∀ kw, kw ∈ ks ↔
      ∃ text, JSVal.str text ∈ [JSVal.str "kubectl get pods"] ∧
        ((∃ token ∈ asciiHost.tokenize (toLowerCase asciiHost text),
            token.length > 2 ∧ isStopWord asciiHost token = false ∧
              kw = asciiHost.stem token) ∨
          (kw ∈ devopsPatterns ∧ includes text kw = true))) ∧
    ((∀ x ∈ [JSVal.str "kubectl get pods"], ∃ text, x = .str text) →
      ∃ ks, extractKeywords asciiHost
        (.obj [("commands", .arr [.str "kubectl get pods"])]) = .ok ks) :=
  commands_only_keywords asciiHost _ [.str "kubectl get pods"] rfl (single_property _ _ _)

/-- C14. When a command of an event contains a name of the tool catalogue, every
keyword list `extractKeywords` returns for the event holds that name as it is
written; the call returns a list when the commands are strings and the event has
no other property that is read. -/
theorem catalogue_name_extracted (H : Host) (props : List (String × JSVal))
    (cmds : List JSVal) (command name : String)
    (hc : lookupProp "commands" props = some (.arr cmds))
    (hmem : JSVal.str command ∈ cmds)
    (hname : name ∈ devopsPatterns)
    (hin : includes command name = true) :
    devopsPatterns =
      ["kubectl", "docker", "terraform", "ansible", "jenkins", "nginx", "apache", "mysql",
       "postgres", "redis", "kubernetes", "k8s", "aws", "azure", "gcp", "git", "ssh",
       "systemctl", "service", "cron"] ∧
    (∀ ks, extractKeywords H (.obj props) = .ok ks → name ∈ ks) ∧
    ((∀ x ∈ cmds, ∃ text, x = .str text) →
      (∀ k ∈ readFields, k ≠ "commands" → lookupProp k props = none) →
      ∃ ks, extractKeywords H (.obj props) = .ok ks ∧ name ∈ ks) := by
  have hcmd : propOf (.obj props) "commands" = .arr cmds := propOf_obj_some _ _ _ hc
  have key : ∀ ks, extractKeywords H (.obj props) = .ok ks → name ∈ ks := by
    intro ks h
    rw [extractKeywords_contrib H _ ks h name, hcmd]
    refine Or.inl ⟨_, hmem, ?_⟩
    simp only [commandContribution, mem_commandKeywords]
    exact Or.inr ⟨hname, hin⟩
  refine ⟨rfl, key, ?_⟩
  intro hall hrest
  obtain ⟨ks, hks⟩ := commands_only_returns H props cmds hc hrest hall
  exact ⟨ks, hks, key ks hks⟩

/-- C14 at the event `{ commands: ["kubectl get pods"] }` and the name `kubectl`. -/
theorem catalogue_name_extracted_witness :
    devopsPatterns =
      ["kubectl", "docker", "terraform", "ansible", "jenkins", "nginx", "apache", "mysql",
       "postgres", "redis", "kubernetes", "k8s", "aws", "azure", "gcp", "git", "ssh",
       "systemctl", "service", "cron"] ∧
    (∀ ks, extractKeywords asciiHost (.obj [("commands", .arr [.str "kubectl get pods"])])
        = .ok ks → "kubectl" ∈ ks) ∧
    ((∀ x ∈ [JSVal.str "kubectl get pods"], ∃ text, x = .str text) →
      (∀ k ∈ readFields, k ≠ "commands" →
        lookupProp k [("commands", JSVal.arr [.str "kubectl get pods"])] = none) →
      ∃ ks, extractKeywords asciiHost
        (.obj [("commands", .arr [.str "kubectl get pods"])]) = .ok ks ∧ "kubectl" ∈ ks) :=
  catalogue_name_extracted asciiHost _ [.str "kubectl get pods"] "kubectl get pods" "kubectl"
    rfl (List.mem_cons_self _ _) (by decide) (by decide)

theorem mem_pathKeywords (H : Host) (path kw : String) :
    kw ∈ pathKeywords H path ↔
      ∃ segment ∈ split path '/', segment ≠ "" ∧
        (kw = toLowerCase H segment ∨ (includes segment "." = true ∧ kw = extensionOf segment)) := by
  have hlen : ∀ s : String, s.length > 0 ↔ s ≠ "" := by
    intro s
    cases s with
    | mk d => cases d <;> simp [String.length, String.ext_iff]
  simp only [pathKeywords, List.mem_flatMap, List.mem_filter, decide_eq_true_eq, hlen,
    List.mem_append, List.mem_singleton]
  constructor
  · rintro ⟨segment, ⟨hs, hne⟩, h | h⟩
    · split at h
      · next hdot => exact ⟨segment, hs, hne, Or.inr ⟨hdot, List.mem_singleton.mp h⟩⟩
      · cases h
    · exact ⟨segment, hs, hne, Or.inl h⟩
  · rintro ⟨segment, hs, hne, h | ⟨hdot, h⟩⟩
    · exact ⟨segment, ⟨hs, hne⟩, Or.inr h⟩
    · exact ⟨segment, ⟨hs, hne⟩, Or.inl (by rw [if_pos hdot]; exact List.mem_singleton.mpr h)⟩

/-- C15, as stated, fails: for the event `{ file: "docs/README.md" }` the keywords
are `docs`, `md` and `readme.md`, so the segment `README.md` is not emitted; and for
`{ file: "b.txt", files: ["a"] }` the path of `file` gives no keyword. -/
theorem file_segment_is_lowercased :
    (∀ H : Host, extractKeywords H (.obj [("file", .str "docs/README.md")])
      = .ok ["docs", "md", "readme.md"]) ∧
    "README.md" ∈ split "docs/README.md" '/' ∧
    "README.md" ∉ ["docs", "md", "readme.md"] ∧
    (∀ H : Host, extractKeywords H (.obj [("file", .str "b.txt"), ("files", .arr [.str "a"])])
      = .ok ["a"]) :=
  ⟨fun _ => rfl, by decide, by decide, fun _ => rfl⟩

/-- C15, amended. For every path the engine reads from an event (the strings of
`files` when it is an array, else `file`), each returned keyword list holds the
lower-cased text of each non-empty segment of the path and, for a segment with a
dot, the text after its last dot; for an event whose only read property is `file`
the call returns and the list holds nothing else. -/
theorem file_path_keywords (H : Host) (props : List (String × JSVal)) (path : String)
    (hpath : JSVal.str path ∈ filesOf (.obj props)) :
    (∀ ks, extractKeywords H (.obj props) = .ok ks →
      ∀ segment ∈ split path '/', segment ≠ "" →
        toLowerCase H segment ∈ ks ∧
        (includes segment "." = true → (split segment '.').getLastD "" ∈ ks)) ∧
    (lookupProp "file" props = some (.str path) →
      (∀ k ∈ readFields, k ≠ "file" → lookupProp k props = none) →
      ∃ ks, extractKeywords H (.obj props) = .ok ks ∧
        ∀ kw, kw ∈ ks ↔ ∃ segment ∈ split path '/', segment ≠ "" ∧
          (kw = toLowerCase H segment ∨
            (includes segment "." = true ∧ kw = (split segment '.').getLastD ""))) := by
  constructor
  · intro ks h segment hs hne
    constructor
    · rw [extractKeywords_contrib H _ ks h]
      refine Or.inr (Or.inl ⟨_, hpath, ?_⟩)
      simp only [fileContribution, mem_pathKeywords]
      exact ⟨segment, hs, hne, Or.inl rfl⟩
    · intro hdot
      rw [extractKeywords_contrib H _ ks h]
      refine Or.inr (Or.inl ⟨_, hpath, ?_⟩)
      simp only [fileContribution, mem_pathKeywords]
      exact ⟨segment, hs, hne, Or.inr ⟨hdot, rfl⟩⟩
  · intro hf hrest
    have hfile : propOf (.obj props) "file" = .str path := propOf_obj_some _ _ _ hf
    have hcmd := propOf_readField_none props "commands" (by decide)
      (hrest _ (by decide) (by decide))
    have hfiles := propOf_readField_none props "files" (by decide)
      (hrest _ (by decide) (by decide))
    have hproc := propOf_readField_none props "processes" (by decide)
      (hrest _ (by decide) (by decide))
    have hent := propOf_readField_none props "entries" (by decide)
      (hrest _ (by decide) (by decide))
    obtain ⟨ks, hks⟩ := filesStage_returns H (.str path) .undefined []
      (fun x hx => Or.inr ⟨path, by simpa [effectiveFiles] using hx⟩)
    have hret : extractKeywords H (.obj props) = .ok ks := by
      rw [extractKeywords_obj, hcmd, hfile, hfiles, hproc, hent]
      show (filesStage H (.str path) .undefined [] >>= fun ks => _) = _
      rw [hks]
      rfl
    refine ⟨ks, hret, fun kw => ?_⟩
    rw [extractKeywords_contrib H _ ks hret kw, hcmd, hproc, hent, filesOf, hfile, hfiles]
    simp only [arrayElems, List.not_mem_nil, false_and, exists_false, or_false, false_or,
      effectiveFiles, List.mem_singleton, exists_eq_left, fileContribution, mem_pathKeywords,
      extensionOf]

/-- C15, amended, at the event `{ file: "docs/README.md" }`. -/
theorem file_path_keywords_witness :
    (∀ ks, extractKeywords asciiHost (.obj [("file", .str "docs/README.md")]) = .ok ks →
      ∀ segment ∈ split "docs/README.md" '/', segment ≠ "" →
        toLowerCase asciiHost segment ∈ ks ∧
        (includes segment "." = true → (split segment '.').getLastD "" ∈ ks)) ∧
    (lookupProp "file" [("file", JSVal.str "docs/README.md")] = some (.str "docs/README.md") →
      (∀ k ∈ readFields, k ≠ "file" →
        lookupProp k [("file", JSVal.str "docs/README.md")] = none) →
      ∃ ks, extractKeywords asciiHost (.obj [("file", .str "docs/README.md")]) = .ok ks ∧
        ∀ kw, kw ∈ ks ↔ ∃ segment ∈ split "docs/README.md" '/', segment ≠ "" ∧
          (kw = toLowerCase asciiHost segment ∨
            (includes segment "." = true ∧ kw = (split segment '.').getLastD ""))) :=
  file_path_keywords asciiHost [("file", .str "docs/README.md")] "docs/README.md"
    (List.mem_singleton.mpr rfl)

theorem splitChars_head (sep : Char) (cs : List Char) :
    ∃ rest, splitChars sep cs = cs.takeWhile (fun c => decide (c ≠ sep)) :: rest := by
  induction cs with
  | nil => exact ⟨[], rfl⟩
  | cons c cs ih =>
    obtain ⟨rest, h⟩ := ih
    by_cases hc : c = sep
    · exact ⟨cs.takeWhile (fun c => decide (c ≠ sep)) :: rest, by
        simp [splitChars, h, hc]⟩
    · exact ⟨rest, by simp [splitChars, h, hc]⟩

/-- The text before the first space is the longest initial piece without a space. -/
theorem beforeFirstSpace_eq (command : String) :
    beforeFirstSpace command = ⟨command.data.takeWhile (fun c => decide (c ≠ ' '))⟩ := by
  obtain ⟨rest, h⟩ := splitChars_head ' ' command.data
  simp [beforeFirstSpace, split, h]

theorem mem_processContribution (H : Host) (process : JSVal) (kw : String) :
    kw ∈ processContribution H process ↔
      ∃ command, getProp process "command" = .ok (.str command) ∧ command ≠ "" ∧
        kw = toLowerCase H (beforeFirstSpace command) := by
  unfold processContribution
  cases hc : getProp process "command" with
  | error err => simp
  | ok v =>
    cases v with
    | str command =>
      by_cases hne : command = ""
      · simp [hne]
      · simp [hne]
    | _ => simp

/-- C16, as stated, fails: the command `node<TAB>server.js` yields the whole string
and not its first token `node`; the command ` nginx -g` with a leading space yields
the empty keyword and not `nginx`; the command `Java -jar app.jar` yields `java` and
not its first token `Java`. -/
theorem process_name_splits_on_space :
    (∀ H : Host, extractKeywords H
        (.obj [("processes", .arr [.obj [("command", .str "node\tserver.js")]])])
      = .ok ["node\tserver.js"]) ∧
    firstWhitespaceToken "node\tserver.js" = "node" ∧
    (∀ H : Host, extractKeywords H
        (.obj [("processes", .arr [.obj [("command", .str " nginx -g")]])])
      = .ok [""]) ∧
    firstWhitespaceToken " nginx -g" = "nginx" ∧
    (∀ H : Host, extractKeywords H
        (.obj [("processes", .arr [.obj [("command", .str "Java -jar app.jar")]])])
      = .ok ["java"]) ∧
    firstWhitespaceToken "Java -jar app.jar" = "Java" :=
  ⟨fun _ => rfl, by decide, fun _ => rfl, by decide, fun _ => rfl, by decide⟩

/-- C16, amended. For every process entry of an event whose command string is
non-empty, each returned keyword list holds the lower-cased text of the command
before its first space character (the whole command when it has no space, the
empty text when it starts with a space); for an event whose only read property is
`processes`, with a command string in every entry, the call returns and the list
holds nothing else. -/
theorem process_name_keyword (H : Host) (props : List (String × JSVal))
    (processes : List JSVal) (process : JSVal) (command : String)
    (hp : lookupProp "processes" props = some (.arr processes))
    (hmem : process ∈ processes)
    (hcmd : getProp process "command" = .ok (.str command))
    (hne : command ≠ "") :
    (∀ ks, extractKeywords H (.obj props) = .ok ks →
      toLowerCase H ⟨command.data.takeWhile (fun c => decide (c ≠ ' '))⟩ ∈ ks) ∧
    (split command ' ').headD "" = ⟨command.data.takeWhile (fun c => decide (c ≠ ' '))⟩ ∧
    ((∀ k ∈ readFields, k ≠ "processes" → lookupProp k props = none) →
      (∀ p ∈ processes, ∃ c, getProp p "command" = .ok (.str c)) →
      ∃ ks, extractKeywords H (.obj props) = .ok ks ∧
        ∀ kw, kw ∈ ks ↔ ∃ p ∈ processes, ∃ c, getProp p "command" = .ok (.str c) ∧ c ≠ "" ∧
          kw = toLowerCase H ⟨c.data.takeWhile (fun c => decide (c ≠ ' '))⟩) := by
  have hproc : propOf (.obj props) "processes" = .arr processes := propOf_obj_some _ _ _ hp
  refine ⟨?_, beforeFirstSpace_eq command, ?_⟩
  · intro ks h
    rw [extractKeywords_contrib H _ ks h, hproc]
    refine Or.inr (Or.inr (Or.inl ⟨process, hmem, ?_⟩))
    rw [mem_processContribution]
    exact ⟨command, hcmd, hne, by rw [beforeFirstSpace_eq]⟩
  · intro hrest hall
    have hcmds := propOf_readField_none props "commands" (by decide)
      (hrest _ (by decide) (by decide))
    have hfile := propOf_readField_none props "file" (by decide)
      (hrest _ (by decide) (by decide))
    have hfiles := propOf_readField_none props "files" (by decide)
      (hrest _ (by decide) (by decide))
    have hent := propOf_readField_none props "entries" (by decide)
      (hrest _ (by decide) (by decide))
    obtain ⟨ks, hks⟩ := processesStage_returns H processes []
      (fun x hx => by
        obtain ⟨c, hc⟩ := hall x hx
        exact ⟨_, hc, Or.inr ⟨c, rfl⟩⟩)
    have hret : extractKeywords H (.obj props) = .ok ks := by
      rw [extractKeywords_obj, hcmds, hfile, hfiles, hproc, hent]
      show (processesStage H (.arr processes) [] >>= fun ks => _) = _
      rw [hks]
      rfl
    refine ⟨ks, hret, fun kw => ?_⟩
    rw [extractKeywords_contrib H _ ks hret kw, hcmds, hproc, hent, filesOf, hfile, hfiles]
    simp only [arrayElems, List.not_mem_nil, false_and, exists_false, or_false, false_or,
      mem_processContribution, beforeFirstSpace_eq]
    constructor
    · rintro (hf | h)
      · exact absurd hf (fileContribution_undefined H kw)
      · exact h
    · exact Or.inr

/-- C16, amended, at the event `{ processes: [{ command: "Java -jar app.jar" }] }`. -/
theorem process_name_keyword_witness :
    (∀ ks, extractKeywords asciiHost
        (.obj [("processes", .arr [.obj [("command", .str "Java -jar app.jar")]])]) = .ok ks →
      toLowerCase asciiHost
        ⟨"Java -jar app.jar".data.takeWhile (fun c => decide (c ≠ ' '))⟩ ∈ ks) ∧
    (split "Java -jar app.jar" ' ').headD ""
      = ⟨"Java -jar app.jar".data.takeWhile (fun c => decide (c ≠ ' '))⟩ ∧
    ((∀ k ∈ readFields, k ≠ "processes" → lookupProp k
        [("processes", JSVal.arr [.obj [("command", .str "Java -jar app.jar")]])] = none) →
      (∀ p ∈ [JSVal.obj [("command", .str "Java -jar app.jar")]],
        ∃ c, getProp p "command" = .ok (.str c)) →
      ∃ ks, extractKeywords asciiHost
        (.obj [("processes", .arr [.obj [("command", .str "Java -jar app.jar")]])]) = .ok ks ∧
        ∀ kw, kw ∈ ks ↔ ∃ p ∈ [JSVal.obj [("command", .str "Java -jar app.jar")]],
          ∃ c, getProp p "command" = .ok (.str c) ∧ c ≠ "" ∧
            kw = toLowerCase asciiHost ⟨c.data.takeWhile (fun c => decide (c ≠ ' '))⟩) :=
  process_name_keyword asciiHost _ [.obj [("command", .str "Java -jar app.jar")]]
    (.obj [("command", .str "Java -jar app.jar")]) "Java -jar app.jar"
    rfl (List.mem_cons_self _ _) rfl (by decide)

theorem mem_entryContribution (entry : JSVal) (kw : String) :
    kw ∈ entryContribution entry ↔
      (kw = "troubleshooting" ∨ kw = "error") ∧
      ∃ message, getProp entry "message" = .ok (.str message) ∧
        ∃ pattern ∈ errorPatterns, matchesIgnoreCase message pattern = true := by
  unfold entryContribution
  cases hc : getProp entry "message" with
  | error err => simp
  | ok v =>
    cases v with
    | str message =>
      by_cases hm : messageMatches message = true
      · have hex : ∃ pattern ∈ errorPatterns, matchesIgnoreCase message pattern = true := by
          simpa [messageMatches, List.any_eq_true] using hm
        simp [hm, hex]
      · have hex : ¬ ∃ pattern ∈ errorPatterns, matchesIgnoreCase message pattern = true := by
          simpa [messageMatches, List.any_eq_true] using hm
        simp [hm, hex]
    | _ => simp

/-- C17. For an event with the array `entries`: when the message of some entry
contains, whatever the case of its letters, one of the nine error patterns, each
returned keyword list holds both `error` and `troubleshooting`; when no message
does, the list holds only what the commands, files and processes give; for an event
whose only read property is `entries`, with a message string in every entry, the
call returns, and its list holds these two keywords and no other in the first case
and is empty in the second. -/
theorem log_entries_keywords (H : Host) (props : List (String × JSVal))
    (entries : List JSVal)
    (he : lookupProp "entries" props = some (.arr entries)) :
    errorPatterns =
      ["error", "failed", "exception", "timeout", "connection refused",
       "permission denied", "not found", "cannot", "unable"] ∧
    (∀ ks, extractKeywords H (.obj props) = .ok ks →
      ((∃ entry ∈ entries, ∃ message, getProp entry "message" = .ok (.str message) ∧
          ∃ pattern ∈ errorPatterns, matchesIgnoreCase message pattern = true) →
        "error" ∈ ks ∧ "troubleshooting" ∈ ks) ∧
      ((¬ ∃ entry ∈ entries, ∃ message, getProp entry "message" = .ok (.str message) ∧
          ∃ pattern ∈ errorPatterns, matchesIgnoreCase message pattern = true) →
        ∀ kw, kw ∈ ks ↔
          (∃ x ∈ arrayElems (propOf (.obj props) "commands"), kw ∈ commandContribution H x) ∨
          (∃ x ∈ filesOf (.obj props), kw ∈ fileContribution H x) ∨
          (∃ x ∈ arrayElems (propOf (.obj props) "processes"),
            kw ∈ processContribution H x))) ∧
    ((∀ k ∈ readFields, k ≠ "entries" → lookupProp k props = none) →
      (∀ entry ∈ entries, ∃ m, getProp entry "message" = .ok (.str m)) →
      ∃ ks, extractKeywords H (.obj props) = .ok ks ∧
        ∀ kw, kw ∈ ks ↔ (kw = "troubleshooting" ∨ kw = "error") ∧
          ∃ entry ∈ entries, ∃ message, getProp entry "message" = .ok (.str message) ∧
            ∃ pattern ∈ errorPatterns, matchesIgnoreCase message pattern = true) := by
  have hent : propOf (.obj props) "entries" = .arr entries := propOf_obj_some _ _ _ he
  refine ⟨rfl, ?_, ?_⟩
  · intro ks h
    constructor
    · rintro ⟨entry, hmem, hmsg⟩
      constructor
      · rw [extractKeywords_contrib H _ ks h, hent]
        exact Or.inr (Or.inr (Or.inr ⟨entry, hmem,
          (mem_entryContribution entry _).mpr ⟨Or.inr rfl, hmsg⟩⟩))
      · rw [extractKeywords_contrib H _ ks h, hent]
        exact Or.inr (Or.inr (Or.inr ⟨entry, hmem,
          (mem_entryContribution entry _).mpr ⟨Or.inl rfl, hmsg⟩⟩))
    · intro hno kw
      rw [extractKeywords_contrib H _ ks h, hent]
      constructor
      · rintro (h1 | h2 | h3 | ⟨entry, hmem, hkw⟩)
        · exact Or.inl h1
        · exact Or.inr (Or.inl h2)
        · exact Or.inr (Or.inr h3)
        · exact absurd ⟨entry, hmem, ((mem_entryContribution entry kw).mp hkw).2⟩ hno
      · rintro (h1 | h2 | h3)
        · exact Or.inl h1
        · exact Or.inr (Or.inl h2)
        · exact Or.inr (Or.inr (Or.inl h3))
  · intro hrest hall
    have hcmds := propOf_readField_none props "commands" (by decide)
      (hrest _ (by decide) (by decide))
    have hfile := propOf_readField_none props "file" (by decide)
      (hrest _ (by decide) (by decide))
    have hfiles := propOf_readField_none props "files" (by decide)
      (hrest _ (by decide) (by decide))
    have hproc := propOf_readField_none props "processes" (by decide)
      (hrest _ (by decide) (by decide))
    obtain ⟨ks, hks⟩ := entriesStage_returns entries []
      (fun x hx => by
        obtain ⟨c, hc⟩ := hall x hx
        exact ⟨_, hc, Or.inr ⟨c, rfl⟩⟩)
    have hret : extractKeywords H (.obj props) = .ok ks := by
      rw [extractKeywords_obj, hcmds, hfile, hfiles, hproc, hent]
      exact hks
    refine ⟨ks, hret, fun kw => ?_⟩
    rw [extractKeywords_contrib H _ ks hret kw, hcmds, hproc, hent, filesOf, hfile, hfiles]
    simp only [arrayElems, List.not_mem_nil, false_and, exists_false, or_false, false_or,
      mem_entryContribution]
    constructor
    · rintro (hf | ⟨entry, hmem, hkw, hmsg⟩)
      · exact absurd hf (fileContribution_undefined H kw)
      · exact ⟨hkw, entry, hmem, hmsg⟩
    · rintro ⟨hkw, entry, hmem, hmsg⟩
      exact Or.inr ⟨entry, hmem, hkw, hmsg⟩

/-- C17 at the event `{ entries: [{ message: "Connection REFUSED by host" }] }`. -/
theorem log_entries_keywords_witness :
    errorPatterns =
      ["error", "failed", "exception", "timeout", "connection refused",
       "permission denied", "not found", "cannot", "unable"] ∧
    (∀ ks, extractKeywords asciiHost
        (.obj [("entries", .arr [.obj [("message", .str "Connection REFUSED by host")]])])
        = .ok ks →
      ((∃ entry ∈ [JSVal.obj [("message", .str "Connection REFUSED by host")]],
          ∃ message, getProp entry "message" = .ok (.str message) ∧
          ∃ pattern ∈ errorPatterns, matchesIgnoreCase message pattern = true) →
        "error" ∈ ks ∧ "troubleshooting" ∈ ks) ∧
      ((¬ ∃ entry ∈ [JSVal.obj [("message", .str "Connection REFUSED by host")]],
          ∃ message, getProp entry "message" = .ok (.str message) ∧
          ∃ pattern ∈ errorPatterns, matchesIgnoreCase message pattern = true) →
        ∀ kw, kw ∈ ks ↔
          (∃ x ∈ arrayElems (propOf (.obj [("entries",
              .arr [.obj [("message", .str "Connection REFUSED by host")]])]) "commands"),
            kw ∈ commandContribution asciiHost x) ∨
          (∃ x ∈ filesOf (.obj [("entries",
              .arr [.obj [("message", .str "Connection REFUSED by host")]])]),
            kw ∈ fileContribution asciiHost x) ∨
          (∃ x ∈ arrayElems (propOf (.obj [("entries",
              .arr [.obj [("message", .str "Connection REFUSED by host")]])]) "processes"),
            kw ∈ processContribution asciiHost x))) ∧
    ((∀ k ∈ readFields, k ≠ "entries" → lookupProp k
        [("entries", JSVal.arr [.obj [("message", .str "Connection REFUSED by host")]])]
        = none) →
      (∀ entry ∈ [JSVal.obj [("message", .str "Connection REFUSED by host")]],
        ∃ m, getProp entry "message" = .ok (.str m)) →
      ∃ ks, extractKeywords asciiHost
        (.obj [("entries", .arr [.obj [("message", .str "Connection REFUSED by host")]])])
        = .ok ks ∧
        ∀ kw, kw ∈ ks ↔ (kw = "troubleshooting" ∨ kw = "error") ∧
          ∃ entry ∈ [JSVal.obj [("message", .str "Connection REFUSED by host")]],
            ∃ message, getProp entry "message" = .ok (.str message) ∧
            ∃ pattern ∈ errorPatterns, matchesIgnoreCase message pattern = true) :=
  log_entries_keywords asciiHost _
    [.obj [("message", .str "Connection REFUSED by host")]] rfl

/-- C18, as stated, fails: an event of the unknown kind `custom_event` with the
property `file` yields the keywords of the path, and with a string for `commands`
it is not accepted: the call throws a `TypeError`. -/
theorem unknown_kind_yields_keywords :
    (∀ H : Host, extractKeywords H
        (.obj [("type", .str "custom_event"), ("file", .str "etc/nginx")])
      = .ok ["etc", "nginx"]) ∧
    (∀ H : Host, extractKeywords H
        (.obj [("type", .str "custom_event"), ("commands", .str "docker ps")])
      = .error .typeError) :=
  ⟨fun _ => rfl, fun _ => rfl⟩

/-- C18, amended. `extractKeywords` does not read the kind of an event: two events
that agree on the properties `commands`, `file`, `files`, `processes` and `entries`
give the same result, whatever their kinds and other properties; an event with none
of these five properties is accepted and gives the empty keyword list. -/
theorem kind_is_not_read (H : Host) (props1 props2 : List (String × JSVal)) :
    ((∀ k ∈ readFields, lookupProp k props1 = lookupProp k props2) →
      extractKeywords H (.obj props1) = extractKeywords H (.obj props2)) ∧
    ((∀ k ∈ readFields, lookupProp k props1 = none) →
      extractKeywords H (.obj props1) = .ok []) ∧
    "type" ∉ readFields := by
  refine ⟨?_, ?_, by decide⟩
  · intro hagree
    have hp : ∀ k ∈ readFields, propOf (.obj props1) k = propOf (.obj props2) k := by
      intro k hk
      simp only [propOf, getProp, hagree k hk]
    rw [extractKeywords_obj, extractKeywords_obj, hp _ (by decide), hp _ (by decide),
      hp _ (by decide), hp _ (by decide), hp _ (by decide)]
  · intro hnone
    rw [extractKeywords_obj,
      propOf_readField_none props1 "commands" (by decide) (hnone _ (by decide)),
      propOf_readField_none props1 "file" (by decide) (hnone _ (by decide)),
      propOf_readField_none props1 "files" (by decide) (hnone _ (by decide)),
      propOf_readField_none props1 "processes" (by decide) (hnone _ (by decide)),
      propOf_readField_none props1 "entries" (by decide) (hnone _ (by decide))]
    rfl

theorem storeSuggestions_calls (F : Faults) (w : World) (stmts : List DbStatement) :
    ∃ rest, (storeSuggestions F w stmts).2.calls = w.calls ++ rest ∧ cacheKeysOf rest = [] := by
  induction stmts generalizing w with
  | nil => exact ⟨[], by simp [storeSuggestions], rfl⟩
  | cons st sts ih =>
    obtain ⟨rest, h1, h2⟩ := ih (Database.query F w st).2
    refine ⟨.dbQuery st :: rest, ?_, ?_⟩
    · simp only [storeSuggestions]
      rw [h1]
      simp only [Database.query]
      split <;> simp [World.call]
    · simpa [cacheKeysOf, Call.cacheKey] using h2

theorem query_calls (F : Faults) (w : World) (st : DbStatement) :
    (Database.query F w st).2.calls = w.calls ++ [.dbQuery st] := by
  simp only [Database.query]
  split <;> rfl

theorem set_calls (F : Faults) (w : World) (key : String) (v : JSVal) (n : Nat) :
    (RedisClient.set F w key v n).2.calls = w.calls ++ [.redisSet key v n] := by
  simp only [RedisClient.set]
  split <;> rfl

/-- The cache calls of the `try` block of the generate route: a read under the key
of the request, then at most a write under the same key. -/
theorem generateTry_calls (H : Host) (oracle : Oracle) (parsed : JSNum) (F : Faults)
    (now : Nat) (w : World) (userId contextData : JSVal) (text : String)
    (ht : stringify H contextData = some text) :
    ∃ rest, (generateTry H oracle parsed F now w userId contextData).2.calls
        = w.calls ++ .redisGet (generateCacheKey H userId text) :: rest ∧
      ∀ k ∈ cacheKeysOf rest, k = generateCacheKey H userId text := by
  unfold generateTry
  simp only [ht, RedisClient.get]
  by_cases hg : F.redisGet = true
  · exact ⟨[], by simp [hg, World.call], by simp [cacheKeysOf]⟩
  · simp only [hg, Bool.false_eq_true, if_false]
    split
    · exact ⟨[], by simp [World.call], by simp [cacheKeysOf]⟩
    · cases analyzeContext H oracle parsed contextData with
      | error e =>
        exact ⟨[.analyzeContext contextData], by simp [World.call],
          by simp [cacheKeysOf, Call.cacheKey]⟩
      | ok analysis =>
        cases getProp contextData "type" with
        | error e =>
          exact ⟨[.analyzeContext contextData], by simp [World.call],
            by simp [cacheKeysOf, Call.cacheKey]⟩
        | ok activityType =>
          simp only []
          generalize hw2 : ((w.call (.redisGet (generateCacheKey H userId text))).call
            (.analyzeContext contextData)) = w2
          have hc2 : w2.calls = w.calls ++ [.redisGet (generateCacheKey H userId text),
              .analyzeContext contextData] := by
            rw [← hw2]
            simp [World.call]
          generalize hst : DbStatement.insertActivity (orElse userId (.num (.fin 1)))
            (orElse activityType (.str "unknown")) contextData = st
          have hq := query_calls F w2 st
          cases hq3 : Database.query F w2 st with
          | mk r3 w3 =>
            rw [hq3] at hq
            cases r3 with
            | error e =>
              refine ⟨[.analyzeContext contextData, .dbQuery st], ?_, ?_⟩
              · simp only [] at hq ⊢
                rw [hq, hc2]
                simp
              · simp [cacheKeysOf, Call.cacheKey]
            | ok u =>
              simp only [] at hq ⊢
              generalize hstmts : (analysis.suggestions.map fun suggestion =>
                DbStatement.insertSuggestion (orElse userId (.num (.fin 1))) suggestion.id
                  contextData suggestion.relevanceScore) = stmts
              obtain ⟨rest4, h4, hk4⟩ := storeSuggestions_calls F w3 stmts
              cases hs4 : storeSuggestions F w3 stmts with
              | mk ok4 w4 =>
                rw [hs4] at h4
                simp only [] at h4
                cases ok4 with
                | false =>
                  refine ⟨[.analyzeContext contextData, .dbQuery st] ++ rest4, ?_, ?_⟩
                  · simp only []
                    rw [h4, hq, hc2]
                    simp
                  · simp only [cacheKeysOf] at hk4
                    simp [cacheKeysOf, Call.cacheKey, List.filterMap_append, hk4]
                | true =>
                  simp only []
                  generalize hsug : JSVal.arr (analysis.suggestions.map Suggestion.toJSVal) = sug
                  have h5 := set_calls F w4 (generateCacheKey H userId text) sug 300
                  cases hs5 : RedisClient.set F w4 (generateCacheKey H userId text) sug 300 with
                  | mk r5 w5 =>
                    rw [hs5] at h5
                    simp only [] at h5
                    refine ⟨[.analyzeContext contextData, .dbQuery st] ++ rest4 ++
                      [.redisSet (generateCacheKey H userId text) sug 300], ?_, ?_⟩
                    · cases r5 <;>
                      · simp only []
                        rw [h5, h4, hq, hc2]
                        simp
                    · simp only [cacheKeysOf] at hk4
                      simp [cacheKeysOf, Call.cacheKey, List.filterMap_append, hk4]

/-- The cache calls of the generate route on a request with a context: a read under
the key of the request, then at most a write under the same key. -/
theorem generate_calls (H : Host) (oracle : Oracle) (parsed : JSNum) (F : Faults)
    (now : Nat) (w : World) (body userId contextData : JSVal) (text : String)
    (hu : getProp body "userId" = .ok userId)
    (hc : getProp body "contextData" = .ok contextData)
    (htr : truthy contextData = true)
    (ht : stringify H contextData = some text) :
    ∃ rest, (generate H oracle parsed F now w body).2.calls
        = w.calls ++ .redisGet (generateCacheKey H userId text) :: rest ∧
      ∀ k ∈ cacheKeysOf rest, k = generateCacheKey H userId text := by
  obtain ⟨rest, h1, h2⟩ := generateTry_calls H oracle parsed F now w userId contextData text ht
  refine ⟨rest, ?_, h2⟩
  simp only [generate, hu, hc, htr, Bool.not_true, Bool.false_eq_true, if_false]
  cases hg : generateTry H oracle parsed F now w userId contextData with
  | mk r w1 =>
    rw [hg] at h1
    cases r <;> exact h1

/-- C21, as stated, fails: `SuggestionEngine.cacheSuggestions`, called for the same
user and the same suggestions at the times 1000 and 2000, builds the keys
`suggestions:u1:1000` and `suggestions:u1:2000`, which differ. -/
theorem suggestions_key_depends_on_time :
    (∀ H : Host, (cacheSuggestions H noFaults 1000 ⟨[], [], [], []⟩ (.str "u1") (.arr [])).1
      = .ok "suggestions:u1:1000") ∧
    (∀ H : Host, (cacheSuggestions H noFaults 2000 ⟨[], [], [], []⟩ (.str "u1") (.arr [])).1
      = .ok "suggestions:u1:2000") ∧
    "suggestions:u1:1000" ≠ "suggestions:u1:2000" :=
  ⟨fun _ => rfl, fun _ => rfl, by decide⟩

/-- C21, amended. The key of the generate route is built from the subject id and
the JSON text of the context only: two requests with the same `userId` and the same
`contextData`, made at any times, on any states of the cache and with any faults,
read the cache under the same key `context:<userId>:<first 100 code units of the
text>` and make no cache call under another key. The key of
`SuggestionEngine.cacheSuggestions` is `suggestions:<userId>:<time>`, built from the
subject id and the time of the call, and its one cache call is the write under it. -/
theorem generate_key_from_content (H : Host) (oracle1 oracle2 : Oracle)
    (parsed1 parsed2 : JSNum) (F1 F2 : Faults) (now1 now2 : Nat) (w1 w2 : World)
    (body1 body2 userId contextData : JSVal) (text : String)
    (hu1 : getProp body1 "userId" = .ok userId)
    (hc1 : getProp body1 "contextData" = .ok contextData)
    (hu2 : getProp body2 "userId" = .ok userId)
    (hc2 : getProp body2 "contextData" = .ok contextData)
    (htr : truthy contextData = true)
    (ht : stringify H contextData = some text) :
    (∃ rest1 rest2,
      (generate H oracle1 parsed1 F1 now1 w1 body1).2.calls
        = w1.calls ++ .redisGet ("context:" ++ toStringJS H userId ++ ":"
            ++ substring0 text 100) :: rest1 ∧
      (generate H oracle2 parsed2 F2 now2 w2 body2).2.calls
        = w2.calls ++ .redisGet ("context:" ++ toStringJS H userId ++ ":"
            ++ substring0 text 100) :: rest2 ∧
      (∀ k ∈ cacheKeysOf rest1,
        k = "context:" ++ toStringJS H userId ++ ":" ++ substring0 text 100) ∧
      (∀ k ∈ cacheKeysOf rest2,
        k = "context:" ++ toStringJS H userId ++ ":" ++ substring0 text 100)) ∧
    (∀ (F : Faults) (now : Nat) (w : World) (suggestions : JSVal),
      (cacheSuggestions H F now w userId suggestions).2.calls
        = w.calls ++ [.redisSet ("suggestions:" ++ toStringJS H userId ++ ":" ++ toString now)
            suggestions 300] ∧
      (F.redisSet = false → (cacheSuggestions H F now w userId suggestions).1
        = .ok ("suggestions:" ++ toStringJS H userId ++ ":" ++ toString now))) := by
  constructor
  · obtain ⟨rest1, h1, k1⟩ :=
      generate_calls H oracle1 parsed1 F1 now1 w1 body1 userId contextData text hu1 hc1 htr ht
    obtain ⟨rest2, h2, k2⟩ :=
      generate_calls H oracle2 parsed2 F2 now2 w2 body2 userId contextData text hu2 hc2 htr ht
    exact ⟨rest1, rest2, h1, h2, k1, k2⟩
  · intro F now w suggestions
    constructor
    · have h := set_calls F w (suggestionsCacheKey H userId now) suggestions 300
      simp only [cacheSuggestions]
      cases hs : RedisClient.set F w (suggestionsCacheKey H userId now) suggestions 300 with
      | mk r w5 =>
        rw [hs] at h
        cases r <;> exact h
    · intro hF
      simp [cacheSuggestions, RedisClient.set, hF, suggestionsCacheKey]

/-- C21, amended, at two requests `{ contextData: { commands: ["kubectl get pods"] },
userId: "u1" }` made at the times 1 and 2 on an empty and on a filled cache. -/
theorem generate_key_from_content_witness :
    (∃ rest1 rest2,
      (generate asciiHost (fun _ => .ok (some [])) .nan noFaults 1 ⟨[], [], [], []⟩
        (.obj [("contextData", .obj [("commands", .arr [.str "kubectl get pods"])]),
               ("userId", .str "u1")])).2.calls
        = [] ++ .redisGet ("context:" ++ toStringJS asciiHost (.str "u1") ++ ":" ++ substring0
            (String.mk [Char.ofNat 123] ++ "\"commands\":[\"kubectl get pods\"]"
              ++ String.mk [Char.ofNat 125]) 100) :: rest1 ∧
      (generate asciiHost (fun _ => .error .external) (.fin 1) noFaults 2
        ⟨[("context:u2:x", .null)], [], [], []⟩
        (.obj [("userId", .str "u1"),
               ("contextData", .obj [("commands", .arr [.str "kubectl get pods"])])])).2.calls
        = [] ++ .redisGet ("context:" ++ toStringJS asciiHost (.str "u1") ++ ":" ++ substring0
            (String.mk [Char.ofNat 123] ++ "\"commands\":[\"kubectl get pods\"]"
              ++ String.mk [Char.ofNat 125]) 100) :: rest2 ∧
      (∀ k ∈ cacheKeysOf rest1,
        k = "context:" ++ toStringJS asciiHost (.str "u1") ++ ":" ++ substring0
            (String.mk [Char.ofNat 123] ++ "\"commands\":[\"kubectl get pods\"]"
              ++ String.mk [Char.ofNat 125]) 100) ∧
      (∀ k ∈ cacheKeysOf rest2,
        k = "context:" ++ toStringJS asciiHost (.str "u1") ++ ":" ++ substring0
            (String.mk [Char.ofNat 123] ++ "\"commands\":[\"kubectl get pods\"]"
              ++ String.mk [Char.ofNat 125]) 100)) ∧
    (∀ (F : Faults) (now : Nat) (w : World) (suggestions : JSVal),
      (cacheSuggestions asciiHost F now w (.str "u1") suggestions).2.calls
        = w.calls ++ [.redisSet ("suggestions:" ++ toStringJS asciiHost (.str "u1") ++ ":"
            ++ toString now) suggestions 300] ∧
      (F.redisSet = false → (cacheSuggestions asciiHost F now w (.str "u1") suggestions).1
        = .ok ("suggestions:" ++ toStringJS asciiHost (.str "u1") ++ ":" ++ toString now))) :=
  generate_key_from_content asciiHost _ _ .nan (.fin 1) noFaults noFaults 1 2
    ⟨[], [], [], []⟩ ⟨[("context:u2:x", .null)], [], [], []⟩ _ _ (.str "u1")
    (.obj [("commands", .arr [.str "kubectl get pods"])]) _ rfl rfl rfl rfl rfl (by decide)

theorem lookup_filter_ne (key k : String) (l : List (String × JSVal)) (h : k ≠ key) :
    (l.filter (fun e => e.1 ≠ key)).lookup k = l.lookup k := by
  induction l with
  | nil => rfl
  | cons e l ih =>
    obtain ⟨k1, v1⟩ := e
    simp only [ne_eq, decide_not] at ih ⊢
    by_cases h1 : k1 = key
    · subst h1
      have hne : (k == k1) = false := by simpa using h
      simp [List.filter, List.lookup, hne, ih]
    · by_cases h2 : k = k1
      · subst h2
        simp [List.filter, h1, List.lookup]
      · have hne : (k == k1) = false := by simpa using h2
        simp [List.filter, h1, List.lookup, hne, ih]

/-- A write under a key leaves the entry under every other key as it was. -/
theorem set_lookup_ne (F : Faults) (w : World) (key k : String) (v : JSVal) (n : Nat)
    (h : k ≠ key) :
    (RedisClient.set F w key v n).2.redis.lookup k = w.redis.lookup k := by
  simp only [RedisClient.set]
  split
  · rfl
  · have hne : (k == key) = false := by simpa using h
    simp only [World.call, List.lookup, hne]
    exact lookup_filter_ne key k w.redis h

theorem context_ne_feedback (rest suggestionId : String) :
    "context:" ++ rest ≠ "feedback:" ++ suggestionId := by
  intro h
  have := congrArg String.data h
  simp [String.data_append] at this

theorem user_ne_feedback (rest suggestionId : String) :
    "user:" ++ rest ≠ "feedback:" ++ suggestionId := by
  intro h
  have := congrArg String.data h
  simp [String.data_append] at this

/-- C22. A feedback request with a valid verdict leaves the suggestion cache as it
was: the entry under every key other than `feedback:<suggestionId>` is the same
before and after, so is every entry under a key `context:...` and under a key
`user:...` (the live context); the one cache call the request can make is the write
under `feedback:<suggestionId>`; when no call rejects, the response has status 200,
the store has executed the update of `feedback` and `status` and the cache holds
the feedback record under that key. -/
theorem feedback_keeps_cache (F : Faults) (now : Nat) (w : World) (suggestionId : String)
    (body verdict : JSVal)
    (hv : getProp body "feedback" = .ok verdict)
    (hvalid : validFeedback verdict = true) :
    (∀ k, k ≠ "feedback:" ++ suggestionId →
      (feedback F now w suggestionId body).2.redis.lookup k = w.redis.lookup k) ∧
    (∀ rest, (feedback F now w suggestionId body).2.redis.lookup ("context:" ++ rest)
      = w.redis.lookup ("context:" ++ rest)) ∧
    (∀ rest, (feedback F now w suggestionId body).2.redis.lookup ("user:" ++ rest)
      = w.redis.lookup ("user:" ++ rest)) ∧
    (∃ rest, (feedback F now w suggestionId body).2.calls = w.calls ++ rest ∧
      ∀ k ∈ cacheKeysOf rest, k = "feedback:" ++ suggestionId) ∧
    (F.db (.updateFeedback verdict "reviewed" suggestionId) = false → F.redisSet = false →
      ∃ userId, getProp body "userId" = .ok userId ∧
        (feedback F now w suggestionId body).1.status = 200 ∧
        (feedback F now w suggestionId body).2.db
          = w.db ++ [.updateFeedback verdict "reviewed" suggestionId] ∧
        (feedback F now w suggestionId body).2.redis.lookup ("feedback:" ++ suggestionId)
          = some (jsonClone (.obj [("suggestionId", .str suggestionId),
              ("feedback", verdict), ("userId", userId),
              ("timestamp", .num (JSNum.ofNat now))]))) := by
  obtain ⟨userId, hu⟩ := getProp_ok_of_ok body "feedback" "userId" verdict hv
  have key : ∀ k, k ≠ "feedback:" ++ suggestionId →
      (feedback F now w suggestionId body).2.redis.lookup k = w.redis.lookup k := by
    intro k hk
    simp only [feedback, hv, hu, hvalid, Bool.not_true, Bool.false_eq_true, if_false]
    cases hq : Database.query F w (.updateFeedback verdict "reviewed" suggestionId) with
    | mk r1 w1 =>
      have hr1 : w1.redis = w.redis := by
        have := congrArg (fun p => p.2.redis) hq
        simp only [Database.query] at this
        split at this <;> exact this.symm
      cases r1 with
      | error e => simpa using congrArg (fun l => List.lookup k l) hr1
      | ok u =>
        simp only []
        have hs := set_lookup_ne F w1 ("feedback:" ++ suggestionId) k
          (.obj [("suggestionId", .str suggestionId), ("feedback", verdict),
            ("userId", userId), ("timestamp", .num (JSNum.ofNat now))]) 86400 hk
        cases hset : RedisClient.set F w1 ("feedback:" ++ suggestionId)
          (.obj [("suggestionId", .str suggestionId), ("feedback", verdict),
            ("userId", userId), ("timestamp", .num (JSNum.ofNat now))]) 86400 with
        | mk r2 w2 =>
          rw [hset] at hs
          cases r2 <;> simpa [hr1] using hs
  refine ⟨key, fun rest => key _ (context_ne_feedback rest suggestionId),
    fun rest => key _ (user_ne_feedback rest suggestionId), ?_, ?_⟩
  · simp only [feedback, hv, hu, hvalid, Bool.not_true, Bool.false_eq_true, if_false]
    have hq1 := query_calls F w (.updateFeedback verdict "reviewed" suggestionId)
    cases hq : Database.query F w (.updateFeedback verdict "reviewed" suggestionId) with
    | mk r1 w1 =>
      rw [hq] at hq1
      cases r1 with
      | error e => exact ⟨_, hq1, by simp [cacheKeysOf, Call.cacheKey]⟩
      | ok u =>
        simp only [] at hq1 ⊢
        have hs := set_calls F w1 ("feedback:" ++ suggestionId)
          (.obj [("suggestionId", .str suggestionId), ("feedback", verdict),
            ("userId", userId), ("timestamp", .num (JSNum.ofNat now))]) 86400
        cases hset : RedisClient.set F w1 ("feedback:" ++ suggestionId)
          (.obj [("suggestionId", .str suggestionId), ("feedback", verdict),
            ("userId", userId), ("timestamp", .num (JSNum.ofNat now))]) 86400 with
        | mk r2 w2 =>
          rw [hset] at hs
          refine ⟨[.dbQuery (.updateFeedback verdict "reviewed" suggestionId),
            .redisSet ("feedback:" ++ suggestionId)
              (.obj [("suggestionId", .str suggestionId), ("feedback", verdict),
                ("userId", userId), ("timestamp", .num (JSNum.ofNat now))]) 86400], ?_, ?_⟩
          · cases r2 <;>
            · simp only [] at hs ⊢
              rw [hs, hq1]
              simp
          · simp [cacheKeysOf, Call.cacheKey]
  · intro hdb hset
    refine ⟨userId, hu, ?_⟩
    simp [feedback, hv, hu, hvalid, Database.query, hdb, RedisClient.set, hset, World.call,
      List.lookup]

/-- C22 at the verdict `helpful` for the suggestion 42 on a cache that holds one
`context:` entry. -/
theorem feedback_keeps_cache_witness :
    (∀ k, k ≠ "feedback:" ++ "42" →
      (feedback noFaults 7 ⟨[("context:u1:x", .arr [])], [], [], []⟩ "42"
        (.obj [("feedback", .str "helpful"), ("userId", .str "u1")])).2.redis.lookup k
        = (World.mk [("context:u1:x", .arr [])] [] [] []).redis.lookup k) ∧
    (∀ rest, (feedback noFaults 7 ⟨[("context:u1:x", .arr [])], [], [], []⟩ "42"
        (.obj [("feedback", .str "helpful"), ("userId", .str "u1")])).2.redis.lookup
          ("context:" ++ rest)
      = (World.mk [("context:u1:x", .arr [])] [] [] []).redis.lookup ("context:" ++ rest)) ∧
    (∀ rest, (feedback noFaults 7 ⟨[("context:u1:x", .arr [])], [], [], []⟩ "42"
        (.obj [("feedback", .str "helpful"), ("userId", .str "u1")])).2.redis.lookup
          ("user:" ++ rest)
      = (World.mk [("context:u1:x", .arr [])] [] [] []).redis.lookup ("user:" ++ rest)) ∧
    (∃ rest, (feedback noFaults 7 ⟨[("context:u1:x", .arr [])], [], [], []⟩ "42"
        (.obj [("feedback", .str "helpful"), ("userId", .str "u1")])).2.calls
        = (World.mk [("context:u1:x", .arr [])] [] [] []).calls ++ rest ∧
      ∀ k ∈ cacheKeysOf rest, k = "feedback:" ++ "42") ∧
    (noFaults.db (.updateFeedback (.str "helpful") "reviewed" "42") = false →
      noFaults.redisSet = false →
      ∃ userId, getProp (.obj [("feedback", .str "helpful"), ("userId", .str "u1")]) "userId"
          = .ok userId ∧
        (feedback noFaults 7 ⟨[("context:u1:x", .arr [])], [], [], []⟩ "42"
          (.obj [("feedback", .str "helpful"), ("userId", .str "u1")])).1.status = 200 ∧
        (feedback noFaults 7 ⟨[("context:u1:x", .arr [])], [], [], []⟩ "42"
          (.obj [("feedback", .str "helpful"), ("userId", .str "u1")])).2.db
          = (World.mk [("context:u1:x", .arr [])] [] [] []).db
            ++ [.updateFeedback (.str "helpful") "reviewed" "42"] ∧
        (feedback noFaults 7 ⟨[("context:u1:x", .arr [])], [], [], []⟩ "42"
          (.obj [("feedback", .str "helpful"), ("userId", .str "u1")])).2.redis.lookup
            ("feedback:" ++ "42")
          = some (jsonClone (.obj [("suggestionId", .str "42"),
              ("feedback", .str "helpful"), ("userId", userId),
              ("timestamp", .num (JSNum.ofNat 7))]))) :=
  feedback_keeps_cache noFaults 7 ⟨[("context:u1:x", .arr [])], [], [], []⟩ "42"
    (.obj [("feedback", .str "helpful"), ("userId", .str "u1")]) (.str "helpful") rfl
    (by decide)

theorem mapM_ok_length {α β : Type} (f : α → Js β) (xs : List α) (l : List β)
    (h : xs.mapM f = .ok l) : l.length = xs.length := by
  induction xs generalizing l with
  | nil =>
    rw [List.mapM_nil] at h
    cases h
    rfl
  | cons x xs ih =>
    rw [List.mapM_cons] at h
    cases hx : f x with
    | error e =>
      rw [hx] at h
      cases h
    | ok y =>
      cases hxs : xs.mapM f with
      | error e =>
        rw [hx, hxs] at h
        cases h
      | ok ys =>
        rw [hx, hxs] at h
        cases h
        rw [List.length_cons, List.length_cons, ih ys hxs]

theorem mapM_error_of_mem {α β : Type} (f : α → Js β) (xs : List α) (x : α) (e : JSError)
    (hx : x ∈ xs) (h : f x = .error e) : ∃ err, xs.mapM f = .error err := by
  induction xs with
  | nil => cases hx
  | cons y ys ih =>
    rw [List.mapM_cons]
    cases hy : f y with
    | error e2 => exact ⟨e2, rfl⟩
    | ok z =>
      rcases List.mem_cons.mp hx with rfl | hmem
      · rw [h] at hy
        cases hy
      · obtain ⟨err, herr⟩ := ih hmem
        rw [herr]
        exact ⟨err, rfl⟩

/-- What the `try` block returns when the oracle answers with hits, every hit gives
a suggestion and the rule engine returns. -/
theorem findRelevantDocumentationTry_ok (H : Host) (o : Oracle) (V : ContextVector)
    (e : JSVal) (hits : List Hit) (ss rules : List Suggestion)
    (ho : o (joinWith " " (keys V)) = .ok (some hits))
    (hs : hits.mapM (suggestionOfHit H V) = .ok ss)
    (hr : getRuleBasedSuggestions H e = .ok rules) :
    findRelevantDocumentationTry H o V e
      = .ok ((sortWith compareSuggestions (ss ++ rules)).take 10) := by
  simp only [findRelevantDocumentationTry, ho, hs, hr, bind, Except.bind, pure, Except.pure]

theorem findRelevantDocumentationTry_length (H : Host) (o : Oracle) (V : ContextVector)
    (e : JSVal) (l : List Suggestion) (h : findRelevantDocumentationTry H o V e = .ok l) :
    l.length ≤ 10 := by
  unfold findRelevantDocumentationTry at h
  cases ho : o (joinWith " " (keys V)) with
  | error err => simp [ho, bind, Except.bind] at h
  | ok res =>
    cases hr : getRuleBasedSuggestions H e with
    | error err =>
      cases res with
      | none => simp [ho, hr, bind, Except.bind, pure, Except.pure] at h
      | some hits =>
        cases hm : hits.mapM (suggestionOfHit H V) <;>
          simp only [ho, hr, hm, bind, Except.bind, pure, Except.pure] at h <;>
          cases h
    | ok rules =>
      cases res with
      | none =>
        simp only [ho, hr, bind, Except.bind, pure, Except.pure] at h
        cases h
        exact List.length_take_le _ _
      | some hits =>
        cases hm : hits.mapM (suggestionOfHit H V) with
        | error err =>
          simp only [ho, hr, hm, bind, Except.bind, pure, Except.pure] at h
          cases h
        | ok ss =>
          simp only [ho, hr, hm, bind, Except.bind, pure, Except.pure] at h
          cases h
          exact List.length_take_le _ _

/-- A hit whose `_source` has no `content` makes the body of the loop throw. -/
theorem suggestionOfHit_no_content (H : Host) (V : ContextVector) (hit : Hit)
    (h : getProp hit._source "content" = .ok .undefined) :
    ∃ err, suggestionOfHit H V hit = .error err := by
  obtain ⟨title, ht⟩ := getProp_ok_of_ok hit._source "content" "title" _ h
  unfold suggestionOfHit
  cases h1 : calculateRelevanceScore H V hit._source hit._score with
  | error err => exact ⟨err, rfl⟩
  | ok x => exact ⟨.typeError, by simp [ht, h, asString, bind, Except.bind]⟩

/-- C23. `findRelevantDocumentation` returns a list for every vector, every event
and every outcome of the oracle: the list of the `try` block when it returns, the
empty list when it throws; the list has at most 10 elements. In particular the
result is the empty list when the oracle call fails and when a hit has no
`content`, two cases in which the `try` block throws. -/
theorem ranking_never_raises (H : Host) (oracle : Oracle) (V : ContextVector) (e : JSVal) :
    ((∃ l, findRelevantDocumentationTry H oracle V e = .ok l ∧
        findRelevantDocumentation H oracle V e = l) ∨
      (∃ err, findRelevantDocumentationTry H oracle V e = .error err ∧
        findRelevantDocumentation H oracle V e = [])) ∧
    (findRelevantDocumentation H oracle V e).length ≤ 10 ∧
    (∀ err, oracle (joinWith " " (keys V)) = .error err →
      findRelevantDocumentationTry H oracle V e = .error err ∧
      findRelevantDocumentation H oracle V e = []) ∧
    (∀ hits hit, oracle (joinWith " " (keys V)) = .ok (some hits) → hit ∈ hits →
      getProp hit._source "content" = .ok .undefined →
      (∃ err, findRelevantDocumentationTry H oracle V e = .error err) ∧
      findRelevantDocumentation H oracle V e = []) := by
  refine ⟨?_, ?_, ?_, ?_⟩
  · cases h : findRelevantDocumentationTry H oracle V e with
    | ok l => exact Or.inl ⟨l, rfl, by simp [findRelevantDocumentation, h]⟩
    | error err => exact Or.inr ⟨err, rfl, by simp [findRelevantDocumentation, h]⟩
  · cases h : findRelevantDocumentationTry H oracle V e with
    | ok l =>
      simp only [findRelevantDocumentation, h]
      exact findRelevantDocumentationTry_length H oracle V e l h
    | error err => simp [findRelevantDocumentation, h]
  · intro err herr
    have h : findRelevantDocumentationTry H oracle V e = .error err := by
      simp [findRelevantDocumentationTry, herr, bind, Except.bind]
    exact ⟨h, by simp [findRelevantDocumentation, h]⟩
  · intro hits hit ho hmem hcontent
    obtain ⟨err, herr⟩ := suggestionOfHit_no_content H V hit hcontent
    obtain ⟨err2, hm⟩ := mapM_error_of_mem (suggestionOfHit H V) hits hit err hmem herr
    have h : findRelevantDocumentationTry H oracle V e = .error err2 := by
      simp only [findRelevantDocumentationTry, ho, hm, bind, Except.bind]
    exact ⟨⟨err2, h⟩, by simp [findRelevantDocumentation, h]⟩

theorem lookupProp_insert_ne (k kw : String) (v : JSVal) (l1 l2 : List (String × JSVal))
    (h : k ≠ kw) : lookupProp k (l1 ++ (kw, v) :: l2) = lookupProp k (l1 ++ l2) := by
  induction l1 with
  | nil => simp [lookupProp, Ne.symm h]
  | cons p l1 ih =>
    obtain ⟨k1, v1⟩ := p
    rw [List.cons_append, List.cons_append, lookupProp, lookupProp, ih]

theorem lookupProp_insert_self (kw : String) (v : JSVal) (l1 l2 : List (String × JSVal))
    (h : kw ∉ keys l1) : lookupProp kw (l1 ++ (kw, v) :: l2) = some v := by
  induction l1 with
  | nil => simp [lookupProp]
  | cons p l1 ih =>
    obtain ⟨k1, v1⟩ := p
    simp only [keys, List.map_cons, List.mem_cons, not_or] at h
    have h1 : ¬ k1 = kw := fun e => h.1 e.symm
    rw [List.cons_append, lookupProp, if_neg h1]
    exact ih h.2

/-- A new array-index property goes somewhere in the list, which is otherwise kept. -/
theorem insertIndexProp_split (n : Nat) (k : String) (v : JSVal)
    (props : List (String × JSVal)) :
    ∃ l1 l2, props = l1 ++ l2 ∧ insertIndexProp n k v props = l1 ++ (k, v) :: l2 := by
  induction props with
  | nil => exact ⟨[], [], rfl, rfl⟩
  | cons p props ih =>
    obtain ⟨k1, v1⟩ := p
    obtain ⟨l1, l2, h1, h2⟩ := ih
    simp only [insertIndexProp]
    cases arrayIndex k1 with
    | none => exact ⟨[], (k1, v1) :: props, rfl, rfl⟩
    | some m =>
      simp only []
      split
      · exact ⟨(k1, v1) :: l1, l2, by rw [h1]; rfl, by rw [h2]; rfl⟩
      · exact ⟨[], (k1, v1) :: props, rfl, rfl⟩

/-- The assignment of a new property keeps the other properties and their order. -/
theorem setProp_new_split (k : String) (v : JSVal) (props : List (String × JSVal))
    (h : k ∉ keys props) :
    ∃ l1 l2, props = l1 ++ l2 ∧ setProp k v props = l1 ++ (k, v) :: l2 := by
  have hany : props.any (fun p => decide (p.1 = k)) = false := by
    rw [Bool.eq_false_iff]
    intro hc
    rw [List.any_eq_true] at hc
    obtain ⟨p, hp, hk⟩ := hc
    exact h (List.mem_map.mpr ⟨p, hp, of_decide_eq_true hk⟩)
  simp only [setProp, hany, Bool.false_eq_true, if_false]
  cases arrayIndex k with
  | none => exact ⟨props, [], by simp, rfl⟩
  | some n => exact insertIndexProp_split n k v props

theorem lookupProp_map_set (k k2 : String) (v : JSVal) (props : List (String × JSVal)) :
    lookupProp k (props.map (fun p => if p.1 = k2 then (k2, v) else p))
      = if k = k2 then (lookupProp k props).map (fun _ => v) else lookupProp k props := by
  induction props with
  | nil => simp [lookupProp]
  | cons p props ih =>
    obtain ⟨k1, v1⟩ := p
    rw [List.map_cons]
    by_cases h1 : k1 = k2
    · subst h1
      rw [if_pos rfl, lookupProp, lookupProp, ih]
      by_cases h2 : k1 = k
      · subst h2
        simp
      · have h3 : ¬ k = k1 := fun e => h2 e.symm
        simp [h2, h3]
    · rw [if_neg h1, lookupProp, lookupProp, ih]
      by_cases h2 : k1 = k
      · subst h2
        simp [h1]
      · simp [h2]

theorem lookupProp_none_iff (k : String) (props : List (String × JSVal)) :
    lookupProp k props = none ↔ k ∉ keys props := by
  induction props with
  | nil => simp [lookupProp, keys]
  | cons p props ih =>
    obtain ⟨k1, v1⟩ := p
    by_cases h : k1 = k
    · subst h
      simp [lookupProp, keys]
    · have h2 : ¬ k = k1 := fun e => h e.symm
      simp only [lookupProp, h, if_false, ih, keys, List.map_cons, List.mem_cons, h2, false_or]

/-- The read of a property after an assignment. -/
theorem getOwn_setProp (k k2 : String) (v : JSVal) (props : List (String × JSVal)) :
    getOwn (setProp k2 v props) k = if k = k2 then v else getOwn props k := by
  by_cases hmem : k2 ∈ keys props
  · have hany : props.any (fun p => decide (p.1 = k2)) = true := by
      rw [List.any_eq_true]
      obtain ⟨p, hp, hk⟩ := List.mem_map.mp hmem
      exact ⟨p, hp, decide_eq_true hk⟩
    simp only [getOwn, setProp, hany, if_true, lookupProp_map_set]
    by_cases hk : k = k2
    · subst hk
      cases hl : lookupProp k props with
      | none => exact absurd hmem ((lookupProp_none_iff k props).mp hl)
      | some x => simp
    · simp [hk]
  · obtain ⟨l1, l2, h1, h2⟩ := setProp_new_split k2 v props hmem
    rw [h2]
    by_cases hk : k = k2
    · subst hk
      have hl1 : k ∉ keys l1 := by
        intro hc
        apply hmem
        rw [h1]
        simp only [keys, List.map_append, List.mem_append]
        exact Or.inl hc
      simp [getOwn, lookupProp_insert_self k v l1 l2 hl1]
    · simp only [getOwn, lookupProp_insert_ne k k2 v l1 l2 hk, hk, if_false, h1]

theorem getOwn_assignWeight (acc : ContextVector) (k kw : String) :
    getOwn (assignWeight acc k) kw
      = if kw = k ∧ k ≠ "__proto__" then weightOf kw else getOwn acc kw := by
  unfold assignWeight
  by_cases hp : k = "__proto__"
  · simp [hp]
  · simp only [hp, if_false, getOwn_setProp, ne_eq, not_false_eq_true, and_true]
    by_cases hk : kw = k
    · simp [hk]
    · simp [hk]

theorem getOwn_foldl_assignWeight (keywords : List String) (acc : ContextVector)
    (kw : String) :
    getOwn (keywords.foldl assignWeight acc) kw
      = if kw ∈ keywords ∧ kw ≠ "__proto__" then weightOf kw else getOwn acc kw := by
  induction keywords generalizing acc with
  | nil => simp
  | cons k ks ih =>
    rw [List.foldl_cons, ih, getOwn_assignWeight]
    by_cases h1 : kw ∈ ks ∧ kw ≠ "__proto__"
    · simp [h1]
    · by_cases h2 : kw = k
      · subst h2
        by_cases h3 : kw = "__proto__"
        · simp [h3]
        · simp [h3]
      · simp only [h1, if_false, h2, false_and, List.mem_cons, false_or]

theorem lookup_some_mem (l : List (String × Nat)) (kw : String) (n : Nat)
    (h : l.lookup kw = some n) : (kw, n) ∈ l := by
  induction l with
  | nil => simp [List.lookup] at h
  | cons p l ih =>
    obtain ⟨k1, n1⟩ := p
    by_cases hk : kw = k1
    · subst hk
      simp [List.lookup] at h
      simp [h]
    · have hne : (kw == k1) = false := by simpa using hk
      simp only [List.lookup, hne] at h
      exact List.mem_cons_of_mem _ (ih h)

theorem weightOf_inherited (kw : String) (h : kw ∈ objectProtoNames) :
    weightOf kw = .builtin kw := by
  simp only [objectProtoNames, List.mem_cons, List.mem_singleton, List.not_mem_nil,
    or_false] at h
  rcases h with h | h | h | h | h | h | h | h | h | h | h | h <;> (subst h; rfl)

/-- C25. `buildContextVector` stores under each keyword other than `__proto__` the
value of `weights[keyword] || 1`. That value is the weight of the table for a
listed keyword (3 or 2) and 1 for a keyword that is neither listed nor a name
inherited from `Object.prototype`; for an inherited name such as `constructor` it
is the inherited function, not the weight 1: the path `docker/constructor` gives
the vector with `docker` at 3 and `constructor` at that function. -/
theorem default_weight_misses_inherited :
    (∀ H : Host, (extractKeywords H (.obj [("file", .str "docker/constructor")])).map
        buildContextVector
      = .ok [("docker", .num (.fin 3)), ("constructor", .builtin "constructor")]) ∧
    buildContextVector ["nginx", "deploy", "constructor"]
      = [("nginx", .num (.fin 2)), ("deploy", .num (.fin 1)),
         ("constructor", .builtin "constructor")] ∧
    (∀ kw ∈ objectProtoNames, weightOf kw = .builtin kw) ∧
    (∀ (keywords : List String) (kw : String), kw ∈ keywords → kw ≠ "__proto__" →
      getOwn (buildContextVector keywords) kw = weightOf kw) ∧
    (∀ kw, kw ∉ objectProtoNames →
      weightOf kw = .num (JSNum.ofNat ((weights.lookup kw).getD 1))) ∧
    (∀ kw ∈ ["kubernetes", "k8s", "kubectl", "docker", "terraform", "ansible", "helm",
        "troubleshooting"], weights.lookup kw = some 3) ∧
    (∀ kw ∈ ["aws", "azure", "gcp", "ec2", "s3", "mysql", "postgres", "redis", "mongodb",
        "nginx", "apache", "haproxy", "jenkins", "gitlab", "github", "actions", "prometheus",
        "grafana", "elk", "splunk", "systemctl", "service", "cron", "ssh", "error", "debug",
        "fix"], weights.lookup kw = some 2) ∧
    (∀ kw n, weights.lookup kw = some n → n = 3 ∨ n = 2) := by
  refine ⟨fun _ => rfl, rfl, weightOf_inherited, ?_, ?_, by decide, by decide, ?_⟩
  · intro keywords kw hmem hne
    rw [buildContextVector, getOwn_foldl_assignWeight]
    simp [hmem, hne, getOwn]
  · intro kw hkw
    unfold weightOf
    cases weights.lookup kw <;> simp [hkw, JSNum.ofNat]
  · intro kw n h
    have : ∀ p ∈ weights, p.2 = 3 ∨ p.2 = 2 := by decide
    exact this _ (lookup_some_mem weights kw n h)

/-! ## Bounds and monotonicity of the score -/

/-- A turn of the scoring loop reads the vector at its keyword only. -/
theorem scoreKeyword_congr (H : Host) (V V2 : ContextVector) (doc : JSVal)
    (acc : JSNum × Nat) (k : String) (h : getOwn V2 k = getOwn V k) :
    scoreKeyword H V2 doc acc k = scoreKeyword H V doc acc k := by
  unfold scoreKeyword
  rw [h]

/-- A turn for a keyword that matches no field returns the pair as it was. -/
theorem scoreKeyword_skip (H : Host) (V : ContextVector) (doc : JSVal)
    (acc : JSNum × Nat) (kw : String) (h : matchesDocument H doc kw = .ok false) :
    scoreKeyword H V doc acc kw = .ok acc := by
  unfold matchesDocument at h
  unfold scoreKeyword
  cases h1 : fieldIncludes doc "keywords" kw with
  | error e1 => simp [h1, bind, Except.bind] at h
  | ok b1 =>
    cases h2 : fieldIncludes doc "tags" kw with
    | error e2 => cases b1 <;> simp [h1, h2, bind, Except.bind, pure, Except.pure] at h
    | ok b2 =>
      cases h3 : fieldLowerIncludes H doc "title" kw with
      | error e3 =>
        cases b1 <;> cases b2 <;> simp [h1, h2, h3, bind, Except.bind, pure, Except.pure] at h
      | ok b3 =>
        cases h4 : fieldLowerIncludes H doc "content" kw with
        | error e4 =>
          cases b1 <;> cases b2 <;> cases b3 <;>
            simp [h1, h2, h3, h4, bind, Except.bind, pure, Except.pure] at h
        | ok b4 =>
          cases b1 <;> cases b2 <;> cases b3 <;> cases b4 <;>
            simp [h1, h2, h3, h4, bind, Except.bind, pure, Except.pure] at h ⊢

/-- A turn that returns: without a match the pair is as it was; with a finite
weight that is not negative a finite sum that is not negative stays so. -/
theorem scoreKeyword_shape (H : Host) (V : ContextVector) (doc : JSVal)
    (acc acc2 : JSNum × Nat) (kw : String)
    (h : scoreKeyword H V doc acc kw = .ok acc2) :
    (matchesAny H doc kw = false → acc2 = acc) ∧
    (∀ q a : ℚ, toNumber H (getOwn V kw) = .fin q → 0 ≤ q → acc.1 = .fin a → 0 ≤ a →
      ∃ a2, acc2.1 = .fin a2 ∧ 0 ≤ a2) := by
  obtain ⟨hm, -, -⟩ := scoreKeyword_matches H V doc acc acc2 kw h
  constructor
  · intro hno
    rw [hno] at hm
    rw [scoreKeyword_skip H V doc acc kw hm] at h
    cases h
    rfl
  · intro q a hw hq ha h0
    obtain ⟨s, m⟩ := acc
    simp only at ha
    subst ha
    unfold scoreKeyword at h
    simp only [hw] at h
    cases h1 : fieldIncludes doc "keywords" kw with
    | error e1 => simp [h1, bind, Except.bind] at h
    | ok b1 =>
      cases h2 : fieldIncludes doc "tags" kw with
      | error e2 => cases b1 <;> simp [h1, h2, bind, Except.bind, pure, Except.pure] at h
      | ok b2 =>
        cases h3 : fieldLowerIncludes H doc "title" kw with
        | error e3 =>
          cases b1 <;> cases b2 <;>
            simp [h1, h2, h3, bind, Except.bind, pure, Except.pure] at h
        | ok b3 =>
          cases h4 : fieldLowerIncludes H doc "content" kw with
          | error e4 =>
            cases b1 <;> cases b2 <;> cases b3 <;>
              simp [h1, h2, h3, h4, bind, Except.bind, pure, Except.pure] at h
          | ok b4 =>
            cases b1 <;> cases b2 <;> cases b3 <;> cases b4 <;>
              simp only [h1, h2, h3, h4, bind, Except.bind, pure, Except.pure, if_true,
                if_false, Bool.false_eq_true, JSNum.add, JSNum.mul, Except.ok.injEq] at h <;>
              (subst h; exact ⟨_, rfl, by positivity⟩)

theorem scoreLoop_nonneg (H : Host) (V : ContextVector) (doc : JSVal) (ks : List String)
    (hw : ∀ k ∈ ks, ∃ q : ℚ, 0 ≤ q ∧ toNumber H (getOwn V k) = .fin q)
    (acc acc2 : JSNum × Nat) (a : ℚ) (ha : acc.1 = .fin a) (h0 : 0 ≤ a)
    (h : ks.foldlM (scoreKeyword H V doc) acc = .ok acc2) :
    ∃ a2, acc2.1 = .fin a2 ∧ 0 ≤ a2 := by
  induction ks generalizing acc a with
  | nil =>
    rw [List.foldlM_nil] at h
    cases h
    exact ⟨a, ha, h0⟩
  | cons k ks ih =>
    rw [List.foldlM_cons] at h
    cases hk : scoreKeyword H V doc acc k with
    | error err =>
      rw [hk] at h
      cases h
    | ok acc1 =>
      rw [hk] at h
      obtain ⟨q, hq, hwq⟩ := hw k (List.mem_cons_self _ _)
      obtain ⟨a1, ha1, h1⟩ := (scoreKeyword_shape H V doc acc acc1 k hk).2 q a hwq hq ha h0
      exact ih (fun k2 hk2 => hw k2 (List.mem_cons_of_mem _ hk2)) acc1 a1 ha1 h1 h

theorem scoreLoop_no_match (H : Host) (V : ContextVector) (doc : JSVal) (ks : List String)
    (hno : ∀ k ∈ ks, matchesAny H doc k = false) (acc acc2 : JSNum × Nat)
    (h : ks.foldlM (scoreKeyword H V doc) acc = .ok acc2) : acc2 = acc := by
  induction ks generalizing acc with
  | nil =>
    rw [List.foldlM_nil] at h
    cases h
    rfl
  | cons k ks ih =>
    rw [List.foldlM_cons] at h
    cases hk : scoreKeyword H V doc acc k with
    | error err =>
      rw [hk] at h
      cases h
    | ok acc1 =>
      rw [hk] at h
      have h1 := (scoreKeyword_shape H V doc acc acc1 k hk).1 (hno k (List.mem_cons_self _ _))
      subst h1
      exact ih (fun k2 hk2 => hno k2 (List.mem_cons_of_mem _ hk2)) acc1 h

theorem foldlM_congr_mem {α β : Type} (f g : β → α → Js β) (xs : List α)
    (h : ∀ x ∈ xs, ∀ b, f b x = g b x) (b : β) : xs.foldlM f b = xs.foldlM g b := by
  induction xs generalizing b with
  | nil => rfl
  | cons x xs ih =>
    rw [List.foldlM_cons, List.foldlM_cons, h x (List.mem_cons_self _ _)]
    cases g b x with
    | error e => rfl
    | ok b1 => exact ih (fun y hy => h y (List.mem_cons_of_mem _ hy)) b1

/-- The loop over the keys with one more key, whose turn changes nothing, is the
loop over the keys. -/
theorem scoreLoop_insert (H : Host) (V V2 : ContextVector) (doc : JSVal)
    (l1 l2 : List String) (kw : String)
    (hsame : ∀ k ∈ l1 ++ l2, getOwn V2 k = getOwn V k)
    (hno : matchesDocument H doc kw = .ok false) (acc : JSNum × Nat) :
    (l1 ++ kw :: l2).foldlM (scoreKeyword H V2 doc) acc
      = (l1 ++ l2).foldlM (scoreKeyword H V doc) acc := by
  have hc : ∀ l : List String, (∀ k ∈ l, k ∈ l1 ++ l2) → ∀ b,
      l.foldlM (scoreKeyword H V2 doc) b = l.foldlM (scoreKeyword H V doc) b :=
    fun l hl b => foldlM_congr_mem _ _ l
      (fun k hk b2 => scoreKeyword_congr H V V2 doc b2 k (hsame k (hl k hk))) b
  rw [List.foldlM_append, List.foldlM_append,
    hc l1 (fun k hk => List.mem_append_left _ hk)]
  cases l1.foldlM (scoreKeyword H V doc) acc with
  | error e => rfl
  | ok b =>
    show (kw :: l2).foldlM (scoreKeyword H V2 doc) b = l2.foldlM (scoreKeyword H V doc) b
    rw [List.foldlM_cons, scoreKeyword_skip H V2 doc b kw hno]
    exact hc l2 (fun k hk => List.mem_append_right _ hk) b

theorem mul_fin_fin (a b : ℚ) : JSNum.mul (.fin a) (.fin b) = .fin (a * b) := rfl

theorem div_fin_fin (a b : ℚ) (hb : b ≠ 0) : JSNum.div (.fin a) (.fin b) = .fin (a / b) := by
  simp [JSNum.div, hb]

theorem min_fin_fin (a b : ℚ) : JSNum.min (.fin a) (.fin b) = .fin (min a b) := by
  by_cases h : a ≤ b
  · simp [JSNum.min, JSNum.le, h]
  · simp [JSNum.min, JSNum.le, h, le_of_lt (not_le.mp h)]

theorem le_fin_fin (a b : ℚ) : JSNum.le (.fin a) (.fin b) = true ↔ a ≤ b := by
  simp [JSNum.le]

/-- The value of `calculateRelevanceScore` from the result of the loop, for a
finite sum, a finite oracle score and a vector that is not empty. -/
theorem score_value (H : Host) (V : ContextVector) (doc : JSVal) (a s : ℚ) (m : Nat)
    (hn : keys V ≠ [])
    (h : (keys V).foldlM (scoreKeyword H V doc) (JSNum.fin 0, 0) = .ok (.fin a, m)) :
    calculateRelevanceScore H V doc (.fin s)
      = .ok (.fin (min (a * m * s / 100 / ((keys V).length : ℚ)) 1)) := by
  have hlen : ((keys V).length : ℚ) ≠ 0 := by
    have : (keys V).length ≠ 0 := fun e => hn (List.length_eq_zero.mp e)
    exact_mod_cast this
  simp only [calculateRelevanceScore, h, bind, Except.bind, pure, Except.pure, JSNum.ofNat]
  rw [mul_fin_fin, mul_fin_fin, div_fin_fin _ _ (by norm_num), div_fin_fin _ _ hlen,
    min_fin_fin]

/-- When `calculateRelevanceScore` returns, its loop returned. -/
theorem score_loop_of_ok (H : Host) (V : ContextVector) (doc : JSVal) (s r : JSNum)
    (h : calculateRelevanceScore H V doc s = .ok r) :
    ∃ A m, (keys V).foldlM (scoreKeyword H V doc) (JSNum.fin 0, 0) = .ok (A, m) := by
  unfold calculateRelevanceScore at h
  cases hl : (keys V).foldlM (scoreKeyword H V doc) (JSNum.fin 0, 0) with
  | error e => simp [hl, bind, Except.bind] at h
  | ok p => exact ⟨p.1, p.2, rfl⟩

/-- On a vector with positive weights, when `calculateRelevanceScore` returns, its
loop returned a finite sum that is not negative, which gives the value. -/
theorem score_of_positive (H : Host) (V : ContextVector) (doc : JSVal) (s : ℚ) (r : JSNum)
    (hn : keys V ≠ [])
    (hpos : ∀ k ∈ keys V, ∃ q : ℚ, 0 < q ∧ getOwn V k = .num (.fin q))
    (h : calculateRelevanceScore H V doc (.fin s) = .ok r) :
    ∃ (a : ℚ) (m : Nat), 0 ≤ a ∧
      (keys V).foldlM (scoreKeyword H V doc) (JSNum.fin 0, 0) = .ok (.fin a, m) ∧
      r = .fin (min (a * m * s / 100 / ((keys V).length : ℚ)) 1) := by
  obtain ⟨A, m, hl⟩ := score_loop_of_ok H V doc _ r h
  obtain ⟨a, ha, h0⟩ := scoreLoop_nonneg H V doc (keys V)
    (fun k hk => by
      obtain ⟨q, hq, hk2⟩ := hpos k hk
      exact ⟨q, le_of_lt hq, by rw [hk2]; rfl⟩)
    (JSNum.fin 0, 0) (A, m) 0 rfl le_rfl hl
  simp only at ha
  subst ha
  refine ⟨a, m, h0, hl, ?_⟩
  rw [score_value H V doc a s m hn hl] at h
  cases h
  rfl

/-- On an indexed document `calculateRelevanceScore` returns. -/
theorem score_entry_returns (H : Host) (V : ContextVector) (d : DocumentationEntry)
    (s : JSNum) : ∃ r, calculateRelevanceScore H V d.toJSVal s = .ok r := by
  simp only [calculateRelevanceScore, scoreLoop_entry, bind, Except.bind, pure, Except.pure]
  exact ⟨_, rfl⟩

/-- C27. For every vector that is not empty and whose weights are positive, every
document and every oracle score that is not negative: the value
`calculateRelevanceScore` returns lies in the interval from 0 to 1, and it is 0
when no keyword of the vector passes the match condition on the document; on
every indexed document the call returns. -/
theorem score_in_unit_interval (H : Host) (V : ContextVector) (doc : JSVal) (s : ℚ)
    (hn : keys V ≠ [])
    (hpos : ∀ k ∈ keys V, ∃ q : ℚ, 0 < q ∧ getOwn V k = .num (.fin q))
    (hs : 0 ≤ s) :
    (∀ r, calculateRelevanceScore H V doc (.fin s) = .ok r →
      JSNum.inUnit r ∧ ((∀ k ∈ keys V, matchesAny H doc k = false) → r = .fin 0)) ∧
    (∀ d : DocumentationEntry, ∃ r, calculateRelevanceScore H V d.toJSVal (.fin s) = .ok r) := by
  refine ⟨?_, fun d => score_entry_returns H V d _⟩
  intro r h
  obtain ⟨a, m, h0, hl, hr⟩ := score_of_positive H V doc s r hn hpos h
  have hx : 0 ≤ a * m * s / 100 / ((keys V).length : ℚ) := by positivity
  constructor
  · subst hr
    simp only [JSNum.inUnit, le_fin_fin]
    exact ⟨le_min hx zero_le_one, min_le_right _ _⟩
  · intro hno
    have hacc := scoreLoop_no_match H V doc (keys V) hno _ _ hl
    simp only [Prod.mk.injEq, JSNum.fin.injEq] at hacc
    subst hr
    rw [hacc.1]
    simp

/-- C27 at the vector `{ docker: 3 }`, a document about nginx and the oracle
score 5. -/
theorem score_in_unit_interval_witness :
    (∀ r, calculateRelevanceScore asciiHost [("docker", .num (.fin 3))]
        (DocumentationEntry.toJSVal
          ⟨"Nginx", "Reverse proxy setup", none, none, none, 5, "wiki", "2024-01-01"⟩)
        (.fin 5) = .ok r →
      JSNum.inUnit r ∧
        ((∀ k ∈ keys [("docker", JSVal.num (.fin 3))], matchesAny asciiHost
          (DocumentationEntry.toJSVal
            ⟨"Nginx", "Reverse proxy setup", none, none, none, 5, "wiki", "2024-01-01"⟩) k
          = false) → r = .fin 0)) ∧
    (∀ d : DocumentationEntry, ∃ r, calculateRelevanceScore asciiHost
      [("docker", .num (.fin 3))] d.toJSVal (.fin 5) = .ok r) :=
  score_in_unit_interval asciiHost [("docker", .num (.fin 3))] _ 5 (by decide)
    (fun k hk => ⟨3, by norm_num, by
      simp only [keys, List.map_cons, List.map_nil, List.mem_singleton] at hk
      subst hk
      rfl⟩)
    (by norm_num)

/-- C26. For every vector that is not empty and whose weights are positive and
every document: when the call with the oracle score `s1` returns and `s1 ≤ s2`
(in particular when `0 ≤ s1 ≤ s2`), the call with `s2` returns a value that is not
smaller; on every indexed document the call returns. -/
theorem score_monotone_in_oracle (H : Host) (V : ContextVector) (doc : JSVal) (s1 s2 : ℚ)
    (hn : keys V ≠ [])
    (hpos : ∀ k ∈ keys V, ∃ q : ℚ, 0 < q ∧ getOwn V k = .num (.fin q))
    (h12 : s1 ≤ s2) :
    (∀ r1, calculateRelevanceScore H V doc (.fin s1) = .ok r1 →
      ∃ r2, calculateRelevanceScore H V doc (.fin s2) = .ok r2 ∧ JSNum.le r1 r2 = true) ∧
    (∀ d : DocumentationEntry, ∃ r, calculateRelevanceScore H V d.toJSVal (.fin s1) = .ok r) := by
  refine ⟨?_, fun d => score_entry_returns H V d _⟩
  intro r1 h
  obtain ⟨a, m, ha, hl, hr⟩ := score_of_positive H V doc s1 r1 hn hpos h
  refine ⟨_, score_value H V doc a s2 m hn hl, ?_⟩
  subst hr
  rw [le_fin_fin]
  have hlen : (0 : ℚ) ≤ ((keys V).length : ℚ) := by positivity
  have hx : a * m * s1 / 100 / ((keys V).length : ℚ) ≤ a * m * s2 / 100 / ((keys V).length : ℚ) := by
    apply div_le_div_of_nonneg_right _ hlen
    apply div_le_div_of_nonneg_right _ (by norm_num)
    exact mul_le_mul_of_nonneg_left h12 (by positivity)
  exact min_le_min hx le_rfl

/-- C26 at the vector `{ docker: 3 }`, a document about docker and the oracle
scores 2 and 5. -/
theorem score_monotone_in_oracle_witness :
    (∀ r1, calculateRelevanceScore asciiHost [("docker", .num (.fin 3))]
        (DocumentationEntry.toJSVal
          ⟨"Docker", "docker build errors", none, none, none, 5, "wiki", "2024-01-01"⟩)
        (.fin 2) = .ok r1 →
      ∃ r2, calculateRelevanceScore asciiHost [("docker", .num (.fin 3))]
        (DocumentationEntry.toJSVal
          ⟨"Docker", "docker build errors", none, none, none, 5, "wiki", "2024-01-01"⟩)
        (.fin 5) = .ok r2 ∧ JSNum.le r1 r2 = true) ∧
    (∀ d : DocumentationEntry, ∃ r, calculateRelevanceScore asciiHost
      [("docker", .num (.fin 3))] d.toJSVal (.fin 2) = .ok r) :=
  score_monotone_in_oracle asciiHost [("docker", .num (.fin 3))] _ 2 5 (by decide)
    (fun k hk => ⟨3, by norm_num, by
      simp only [keys, List.map_cons, List.map_nil, List.mem_singleton] at hk
      subst hk
      rfl⟩)
    (by norm_num)

/-- C24. For every vector that is not empty and whose weights are positive, every
document and every oracle score that is not negative: when the call returns, the
call on the vector with one more keyword, new to the vector and matching no field
of the document, returns a value that is not greater, whatever the weight of the
new keyword; on every indexed document the call returns. -/
theorem score_damped_by_size (H : Host) (V : ContextVector) (doc : JSVal) (kw : String)
    (weight : JSVal) (s : ℚ)
    (hn : keys V ≠ [])
    (hpos : ∀ k ∈ keys V, ∃ q : ℚ, 0 < q ∧ getOwn V k = .num (.fin q))
    (hs : 0 ≤ s)
    (hnew : kw ∉ keys V)
    (hno : matchesDocument H doc kw = .ok false) :
    (∀ r, calculateRelevanceScore H V doc (.fin s) = .ok r →
      ∃ r2, calculateRelevanceScore H (setProp kw weight V) doc (.fin s) = .ok r2 ∧
        JSNum.le r2 r = true) ∧
    (keys (setProp kw weight V)).length = (keys V).length + 1 ∧
    (∀ d : DocumentationEntry, ∃ r, calculateRelevanceScore H V d.toJSVal (.fin s) = .ok r) := by
  obtain ⟨l1, l2, hV, hV2⟩ := setProp_new_split kw weight V hnew
  have hk1 : keys V = keys l1 ++ keys l2 := by rw [hV]; simp [keys]
  have hk2 : keys (setProp kw weight V) = keys l1 ++ kw :: keys l2 := by rw [hV2]; simp [keys]
  have hlen : (keys (setProp kw weight V)).length = (keys V).length + 1 := by
    rw [hk1, hk2]
    simp
    omega
  refine ⟨?_, hlen, fun d => score_entry_returns H V d _⟩
  intro r h
  obtain ⟨a, m, ha, hl, hr⟩ := score_of_positive H V doc s r hn hpos h
  have hsame : ∀ k ∈ keys l1 ++ keys l2, getOwn (setProp kw weight V) k = getOwn V k := by
    intro k hk
    rw [getOwn_setProp]
    have : k ≠ kw := by
      rintro rfl
      exact hnew (hk1 ▸ hk)
    simp [this]
  have hl2 : (keys (setProp kw weight V)).foldlM (scoreKeyword H (setProp kw weight V) doc)
      (JSNum.fin 0, 0) = .ok (.fin a, m) := by
    rw [hk2, scoreLoop_insert H V (setProp kw weight V) doc (keys l1) (keys l2) kw hsame hno,
      ← hk1]
    exact hl
  have hn2 : keys (setProp kw weight V) ≠ [] := by
    rw [hk2]
    simp
  refine ⟨_, score_value H (setProp kw weight V) doc a s m hn2 hl2, ?_⟩
  subst hr
  rw [le_fin_fin, hlen]
  have hpl : (0 : ℚ) < ((keys V).length : ℚ) := by
    have : (keys V).length ≠ 0 := fun e => hn (List.length_eq_zero.mp e)
    have : 0 < (keys V).length := Nat.pos_of_ne_zero this
    exact_mod_cast this
  have hx : a * m * s / 100 / (((keys V).length + 1 : ℕ) : ℚ)
      ≤ a * m * s / 100 / ((keys V).length : ℚ) := by
    apply div_le_div_of_nonneg_left (by positivity) hpl
    push_cast
    linarith
  exact min_le_min hx le_rfl

/-- C24 at the vector `{ docker: 3 }`, a document about docker, the oracle score 5
and the new keyword `zsh`. -/
theorem score_damped_by_size_witness :
    (∀ r, calculateRelevanceScore asciiHost [("docker", .num (.fin 3))]
        (DocumentationEntry.toJSVal
          ⟨"Docker", "docker build errors", none, none, none, 5, "wiki", "2024-01-01"⟩)
        (.fin 5) = .ok r →
      ∃ r2, calculateRelevanceScore asciiHost
        (setProp "zsh" (.num (.fin 1)) [("docker", .num (.fin 3))])
        (DocumentationEntry.toJSVal
          ⟨"Docker", "docker build errors", none, none, none, 5, "wiki", "2024-01-01"⟩)
        (.fin 5) = .ok r2 ∧ JSNum.le r2 r = true) ∧
    (keys (setProp "zsh" (.num (.fin 1)) [("docker", .num (.fin 3))])).length
      = (keys [("docker", JSVal.num (.fin 3))]).length + 1 ∧
    (∀ d : DocumentationEntry, ∃ r, calculateRelevanceScore asciiHost
      [("docker", .num (.fin 3))] d.toJSVal (.fin 5) = .ok r) :=
  score_damped_by_size asciiHost [("docker", .num (.fin 3))] _ "zsh" (.num (.fin 1)) 5
    (by decide)
    (fun k hk => ⟨3, by norm_num, by
      simp only [keys, List.map_cons, List.map_nil, List.mem_singleton] at hk
      subst hk
      rfl⟩)
    (by norm_num) (by decide) (by decide)

theorem mapM_returns {α β : Type} (f : α → Js β) (xs : List α)
    (h : ∀ x ∈ xs, ∃ y, f x = .ok y) : ∃ l, xs.mapM f = .ok l := by
  induction xs with
  | nil => exact ⟨[], rfl⟩
  | cons x xs ih =>
    obtain ⟨y, hy⟩ := h x (List.mem_cons_self _ _)
    obtain ⟨l, hl⟩ := ih (fun z hz => h z (List.mem_cons_of_mem _ hz))
    refine ⟨y :: l, ?_⟩
    rw [List.mapM_cons, hy, hl]
    rfl

/-- On an indexed document `findMatchedKeywords` returns. -/
theorem findMatchedKeywords_entry (H : Host) (V : ContextVector) (d : DocumentationEntry) :
    findMatchedKeywords H V d.toJSVal = .ok ((keys V).filter (matchesAny H d.toJSVal)) := by
  obtain ⟨h1, -, -⟩ := scoreLoop_matches H V d.toJSVal (keys V) _ _
    (scoreLoop_entry H V d (keys V) (JSNum.fin 0, 0))
  have := h1 []
  simpa [findMatchedKeywords] using this

/-- A hit whose `_source` is an indexed document gives a suggestion. -/
theorem suggestionOfHit_entry (H : Host) (V : ContextVector) (hit : Hit)
    (d : DocumentationEntry) (hd : hit._source = d.toJSVal) :
    ∃ s, suggestionOfHit H V hit = .ok s := by
  obtain ⟨r, hr⟩ := score_entry_returns H V d hit._score
  unfold suggestionOfHit
  rw [hd]
  simp only [hr, getProp_entry_title, getProp_entry_content, getProp_entry_source,
    getProp_entry_category, getProp_entry_tags, findMatchedKeywords_entry, asString, bind,
    Except.bind, pure, Except.pure]
  exact ⟨_, rfl⟩

/-- C28. When the oracle call succeeds with `n` hits whose `_source` is an indexed
document and the rule engine returns `r` suggestions for the event,
`findRelevantDocumentation` returns `min(10, n + r)` suggestions; each of them is a
suggestion of the rule engine or the suggestion the loop builds from a hit; when
`n + r ≤ 10` every suggestion of the rule engine is in the output. -/
theorem ranked_output_count (H : Host) (o : Oracle) (V : ContextVector) (e : JSVal)
    (hits : List Hit) (rules : List Suggestion)
    (ho : o (joinWith " " (keys V)) = .ok (some hits))
    (hwf : ∀ hit ∈ hits, ∃ d : DocumentationEntry, hit._source = d.toJSVal)
    (hr : getRuleBasedSuggestions H e = .ok rules) :
    (findRelevantDocumentation H o V e).length = min 10 (hits.length + rules.length) ∧
    (∀ s ∈ findRelevantDocumentation H o V e,
      s ∈ rules ∨ ∃ hit ∈ hits, suggestionOfHit H V hit = .ok s) ∧
    (hits.length + rules.length ≤ 10 →
      ∀ s ∈ rules, s ∈ findRelevantDocumentation H o V e) := by
  obtain ⟨ss, hss⟩ := mapM_returns (suggestionOfHit H V) hits
    (fun hit hmem => by
      obtain ⟨d, hd⟩ := hwf hit hmem
      exact suggestionOfHit_entry H V hit d hd)
  have hlen := mapM_ok_length _ hits ss hss
  have hres : findRelevantDocumentation H o V e
      = (sortWith compareSuggestions (ss ++ rules)).take 10 := by
    simp only [findRelevantDocumentation,
      findRelevantDocumentationTry_ok H o V e hits ss rules ho hss hr]
  rw [hres]
  refine ⟨?_, ?_, ?_⟩
  · rw [List.length_take, length_sortWith, List.length_append, hlen]
  · intro s hs
    have h1 := List.mem_of_mem_take hs
    rw [mem_sortWith, List.mem_append] at h1
    rcases h1 with h1 | h1
    · exact Or.inr (mapM_ok_mem _ hits ss hss s h1)
    · exact Or.inl h1
  · intro hle s hs
    rw [List.take_of_length_le (by rw [length_sortWith, List.length_append, hlen]; exact hle),
      mem_sortWith, List.mem_append]
    exact Or.inr hs

/-- C28 at the event `{ commands: ["kubectl get pods"] }`, for which one rule fires,
with one hit. -/
theorem ranked_output_count_witness :
    (findRelevantDocumentation asciiHost
        (fun _ => .ok (some [⟨.str "doc-1", DocumentationEntry.toJSVal
          ⟨"Pods", "kubectl get pods lists pods", none, none, none, 5, "wiki", "2024-01-01"⟩,
          .fin 4⟩]))
        [("kubectl", .num (.fin 3))]
        (.obj [("commands", .arr [.str "kubectl get pods"])])).length
      = min 10 ([(⟨.str "doc-1", DocumentationEntry.toJSVal
          ⟨"Pods", "kubectl get pods lists pods", none, none, none, 5, "wiki", "2024-01-01"⟩,
          .fin 4⟩ : Hit)].length + [ruleK8s].length) ∧
    (∀ s ∈ findRelevantDocumentation asciiHost
        (fun _ => .ok (some [⟨.str "doc-1", DocumentationEntry.toJSVal
          ⟨"Pods", "kubectl get pods lists pods", none, none, none, 5, "wiki", "2024-01-01"⟩,
          .fin 4⟩]))
        [("kubectl", .num (.fin 3))]
        (.obj [("commands", .arr [.str "kubectl get pods"])]),
      s ∈ [ruleK8s] ∨ ∃ hit ∈ [(⟨.str "doc-1", DocumentationEntry.toJSVal
          ⟨"Pods", "kubectl get pods lists pods", none, none, none, 5, "wiki", "2024-01-01"⟩,
          .fin 4⟩ : Hit)],
        suggestionOfHit asciiHost [("kubectl", .num (.fin 3))] hit = .ok s) ∧
    ([(⟨.str "doc-1", DocumentationEntry.toJSVal
          ⟨"Pods", "kubectl get pods lists pods", none, none, none, 5, "wiki", "2024-01-01"⟩,
          .fin 4⟩ : Hit)].length + [ruleK8s].length ≤ 10 →
      ∀ s ∈ [ruleK8s], s ∈ findRelevantDocumentation asciiHost
        (fun _ => .ok (some [⟨.str "doc-1", DocumentationEntry.toJSVal
          ⟨"Pods", "kubectl get pods lists pods", none, none, none, 5, "wiki", "2024-01-01"⟩,
          .fin 4⟩]))
        [("kubectl", .num (.fin 3))]
        (.obj [("commands", .arr [.str "kubectl get pods"])])) :=
  ranked_output_count asciiHost _ [("kubectl", .num (.fin 3))]
    (.obj [("commands", .arr [.str "kubectl get pods"])])
    [⟨.str "doc-1", DocumentationEntry.toJSVal
      ⟨"Pods", "kubectl get pods lists pods", none, none, none, 5, "wiki", "2024-01-01"⟩,
      .fin 4⟩] [ruleK8s] rfl
    (fun hit hmem => ⟨⟨"Pods", "kubectl get pods lists pods", none, none, none, 5, "wiki",
      "2024-01-01"⟩, by
        rw [List.mem_singleton] at hmem
        rw [hmem]⟩)
    rfl

/-- The JSON text of an object holds the quoted name of each property whose value
has a JSON text. -/
theorem stringify_obj_key_occurs (H : Host) (props : List (String × JSVal)) (k : String)
    (v : JSVal) (t : String) (hv : lookupProp k props = some v)
    (ht : stringify H v = some t) :
    ∃ text, stringify H (.obj props) = some text ∧ (quote k).data <:+: text.data := by
  refine ⟨_, by rw [stringify], ?_⟩
  have h1 := joinWith_occurs "," _ _ (stringifyProps_mem H props k v t hv ht)
  simp only [String.data_append] at h1 ⊢
  have h0 : (quote k).data <:+: (quote k).data ++ ":".data ++ t.data :=
    List.IsInfix.trans (List.prefix_append _ _).isInfix (List.prefix_append _ _).isInfix
  have h2 : (quote k).data <:+: (joinWith "," (stringifyProps H props)).data :=
    List.IsInfix.trans h0 h1
  exact List.IsInfix.trans h2
    (List.IsInfix.trans (List.suffix_append _ _).isInfix (List.prefix_append _ _).isInfix)

/-- C29. The rule predicates read the JSON text of the whole event, property names
included: for every event with a property `connections` whose value has a JSON
text, and whose JSON text contains `ssh`, `containsKeywords` finds the term
`connection` (in the property name), and the rule engine returns the
SSH-connection suggestion, whatever the values of the event say. -/
theorem connections_name_fires_ssh (H : Host) (props : List (String × JSVal))
    (v : JSVal) (t : String)
    (hc : lookupProp "connections" props = some v)
    (hv : stringify H v = some t)
    (hssh : includes (jsonText H (.obj props)) "ssh" = true) :
    containsKeywords H (.obj props) ["connection"] = .ok true ∧
    containsKeywords H (.obj props) ["connection", "refused", "timeout"] = .ok true ∧
    containsKeywords H (.obj props) ["ssh"] = .ok true ∧
    ∃ l, getRuleBasedSuggestions H (.obj props) = .ok l ∧ ruleSsh ∈ l := by
  obtain ⟨text, hs, hk⟩ := stringify_obj_key_occurs H props "connections" v t hc hv
  have htext : jsonText H (.obj props) = text := by simp [jsonText, hs]
  rw [htext, includes_iff] at hssh
  have hconn : "connection".data <:+: text.data :=
    List.IsInfix.trans (by decide) hk
  have h1 : textContains H text ["connection"] = true :=
    textContains_of_occurs H text _ "connection" (by simp) "connection".data (by decide) rfl
      hconn
  have h2 : textContains H text ["connection", "refused", "timeout"] = true :=
    textContains_of_occurs H text _ "connection" (by simp) "connection".data (by decide) rfl
      hconn
  have h3 : textContains H text ["ssh"] = true :=
    textContains_of_occurs H text _ "ssh" (by simp) "ssh".data (by decide) rfl hssh
  refine ⟨by rw [containsKeywords_ok H _ text hs, h1],
    by rw [containsKeywords_ok H _ text hs, h2],
    by rw [containsKeywords_ok H _ text hs, h3], _,
    getRuleBasedSuggestions_ok H _ text hs, ?_⟩
  simp [h2, h3]

/-- C29 at a `network_activity` event whose one connection has the listening
address `ssh-gw:22` and names no connection failure. -/
theorem connections_name_fires_ssh_witness :
    containsKeywords asciiHost
      (.obj [("type", .str "network_activity"),
             ("connections", .arr [.obj [("localAddress", .str "ssh-gw:22")]])])
      ["connection"] = .ok true ∧
    containsKeywords asciiHost
      (.obj [("type", .str "network_activity"),
             ("connections", .arr [.obj [("localAddress", .str "ssh-gw:22")]])])
      ["connection", "refused", "timeout"] = .ok true ∧
    containsKeywords asciiHost
      (.obj [("type", .str "network_activity"),
             ("connections", .arr [.obj [("localAddress", .str "ssh-gw:22")]])])
      ["ssh"] = .ok true ∧
    ∃ l, getRuleBasedSuggestions asciiHost
      (.obj [("type", .str "network_activity"),
             ("connections", .arr [.obj [("localAddress", .str "ssh-gw:22")]])])
      = .ok l ∧ ruleSsh ∈ l :=
  connections_name_fires_ssh asciiHost _
    (.arr [.obj [("localAddress", .str "ssh-gw:22")]]) _ rfl rfl rfl

/-- C30. The generate route reads and writes the cache under the key
`context:<userId>:<first 100 code units of the JSON text of the context>`. Two
contexts whose JSON texts agree on their first 100 code units have, for the same
`userId`, the same key; and when a request for the first is answered with status
200, a request for the second, made while the cache holds under that key the entry
it held after the first request and can be read, is answered from the cache: status
200, `cached = true`, the `suggestions` of the first response (the same JSON text),
and no call other than the read of the cache. -/
theorem shared_prefix_shares_cache (H : Host) (oracle1 oracle2 : Oracle)
    (parsed1 parsed2 : JSNum) (F1 F2 : Faults) (now1 now2 : Nat) (w w2 : World)
    (body1 body2 userId context1 context2 : JSVal) (text1 text2 : String)
    (hu1 : getProp body1 "userId" = .ok userId)
    (hc1 : getProp body1 "contextData" = .ok context1)
    (hu2 : getProp body2 "userId" = .ok userId)
    (hc2 : getProp body2 "contextData" = .ok context2)
    (ht1 : stringify H context1 = some text1)
    (ht2 : stringify H context2 = some text2)
    (htr2 : truthy context2 = true)
    (hpre : substring0 text1 100 = substring0 text2 100)
    (h1 : (generate H oracle1 parsed1 F1 now1 w body1).1.status = 200)
    (hkeep : w2.redis.lookup (generateCacheKey H userId text1) =
      (generate H oracle1 parsed1 F1 now1 w body1).2.redis.lookup
        (generateCacheKey H userId text1))
    (hget : F2.redisGet = false) :
    generateCacheKey H userId text1
      = "context:" ++ toStringJS H userId ++ ":" ++ ⟨text1.data.take 100⟩ ∧
    generateCacheKey H userId text2 = generateCacheKey H userId text1 ∧
    (∃ rest, (generate H oracle1 parsed1 F1 now1 w body1).2.calls
        = w.calls ++ .redisGet (generateCacheKey H userId text1) :: rest ∧
      ∀ k ∈ cacheKeysOf rest, k = generateCacheKey H userId text1) ∧
    (generate H oracle2 parsed2 F2 now2 w2 body2).2
      = w2.call (.redisGet (generateCacheKey H userId text1)) ∧
    (generate H oracle2 parsed2 F2 now2 w2 body2).1.status = 200 ∧
    (generate H oracle2 parsed2 F2 now2 w2 body2).1.field "cached" = .bool true ∧
    stringify H ((generate H oracle2 parsed2 F2 now2 w2 body2).1.field "suggestions") =
      stringify H ((generate H oracle1 parsed1 F1 now1 w body1).1.field "suggestions") := by
  have hkey : generateCacheKey H userId text2 = generateCacheKey H userId text1 := by
    simp only [generateCacheKey, hpre]
  by_cases htr : truthy context1 = true
  · refine ⟨rfl, hkey, generate_calls H oracle1 parsed1 F1 now1 w body1 userId context1 text1
      hu1 hc1 htr ht1, ?_⟩
    cases hg : generateTry H oracle1 parsed1 F1 now1 w userId context1 with
    | mk res w1 =>
      cases res with
      | error err => simp [generate, hu1, hc1, htr, hg, errorResponse] at h1
      | ok r =>
        have hgen : generate H oracle1 parsed1 F1 now1 w body1 = (r, w1) := by
          simp [generate, hu1, hc1, htr, hg]
        obtain ⟨_, v, hv, hvt, hvs⟩ :=
          generateTry_ok H oracle1 parsed1 F1 now1 w w1 userId context1 text1 r ht1 hg
        rw [hgen] at hkeep ⊢
        have hl2 : w2.redis.lookup (generateCacheKey H userId text2) = some v := by
          rw [hkey]
          exact hkeep.trans hv
        rw [generate_cached H oracle2 parsed2 F2 now2 w2 body2 userId context2 v text2 hu2 hc2
          htr2 ht2 hl2 hvt hget, hkey]
        refine ⟨rfl, rfl, rfl, ?_⟩
        rw [← hvs]
        rfl
  · simp [generate, hu1, hc1, htr, errorResponse] at h1

/-- C30 at two requests of the user `u1` whose commands differ after the first 100
code units of the JSON text of the context: the second, made after the first with
an oracle that fails, is answered with the suggestions cached for the first. -/
theorem shared_prefix_shares_cache_witness :
    generateCacheKey asciiHost (.str "u1") (jsonText asciiHost (tailContext "1"))
      = "context:" ++ toStringJS asciiHost (.str "u1") ++ ":"
        ++ ⟨(jsonText asciiHost (tailContext "1")).data.take 100⟩ ∧
    generateCacheKey asciiHost (.str "u1") (jsonText asciiHost (tailContext "2"))
      = generateCacheKey asciiHost (.str "u1") (jsonText asciiHost (tailContext "1")) ∧
    (∃ rest, (generate asciiHost (fun _ => .ok (some [])) .nan noFaults 1 ⟨[], [], [], []⟩
        (tailRequest "1")).2.calls
        = (World.mk [] [] [] []).calls ++ .redisGet (generateCacheKey asciiHost (.str "u1")
            (jsonText asciiHost (tailContext "1"))) :: rest ∧
      ∀ k ∈ cacheKeysOf rest,
        k = generateCacheKey asciiHost (.str "u1") (jsonText asciiHost (tailContext "1"))) ∧
    (generate asciiHost (fun _ => .error .external) (.fin 1) noFaults 2
        (generate asciiHost (fun _ => .ok (some [])) .nan noFaults 1 ⟨[], [], [], []⟩
          (tailRequest "1")).2 (tailRequest "2")).2
      = World.call (generate asciiHost (fun _ => .ok (some [])) .nan noFaults 1
          ⟨[], [], [], []⟩ (tailRequest "1")).2
        (.redisGet (generateCacheKey asciiHost (.str "u1")
          (jsonText asciiHost (tailContext "1")))) ∧
    (generate asciiHost (fun _ => .error .external) (.fin 1) noFaults 2
        (generate asciiHost (fun _ => .ok (some [])) .nan noFaults 1 ⟨[], [], [], []⟩
          (tailRequest "1")).2 (tailRequest "2")).1.status = 200 ∧
    (generate asciiHost (fun _ => .error .external) (.fin 1) noFaults 2
        (generate asciiHost (fun _ => .ok (some [])) .nan noFaults 1 ⟨[], [], [], []⟩
          (tailRequest "1")).2 (tailRequest "2")).1.field "cached" = .bool true ∧
    stringify asciiHost
      ((generate asciiHost (fun _ => .error .external) (.fin 1) noFaults 2
        (generate asciiHost (fun _ => .ok (some [])) .nan noFaults 1 ⟨[], [], [], []⟩
          (tailRequest "1")).2 (tailRequest "2")).1.field "suggestions") =
      stringify asciiHost
        ((generate asciiHost (fun _ => .ok (some [])) .nan noFaults 1 ⟨[], [], [], []⟩
          (tailRequest "1")).1.field "suggestions") :=
  shared_prefix_shares_cache asciiHost (fun _ => .ok (some [])) (fun _ => .error .external)
    .nan (.fin 1) noFaults noFaults 1 2 ⟨[], [], [], []⟩ _ (tailRequest "1") (tailRequest "2")
    (.str "u1") (tailContext "1") (tailContext "2") _ _ rfl rfl rfl rfl rfl rfl rfl
    (by decide) (by decide!) rfl rfl

end Wiki
